import Mathlib

/-!
# Rational reconstruction from a dyadic approximation (LinBox `dyadic-to-rational.h`)

A shallow embedding of `partial_hegcd`, of the scalar `dyadicToRational` and of the vector
`dyadicToRational` of `linbox/algorithms/dyadic-to-rational.h`, instantiated at the ring of
integers (the tests use `PID_integer`), and theorems about them.

Conventions of the embedding.

* Ring elements are `Int`; `Z.abs` is `|·|`, `Z.compare x y <= 0` is `x ≤ y`.
* `Z.quoRem (quo, e, r0, r1)` and `Z.div` are truncated division (`Int.tdiv`, `Int.tmod`),
  the C++ convention; a zero divisor has no result (`none`).
* `Z.axmyin (b, quo, b1)` is taken as the source comments it: `b = b0 - quo*b1`.
* `Z.lcm` is the non-negative least common multiple (`Int.lcm`).
* Output parameters become fields of the returned structure.
* The `do ... while` loop is a recursion on a fuel counter; `partial_hegcd` supplies
  `|d| + 1` units, which is shown to be always enough (the remainder `r1` strictly decreases).
* Vectors are lists; the two overloads of `dyadicToRational` are `dyadicToRational` (scalar)
  and `dyadicToRationalVector`; the stack `S` is a list with its top first.
-/

namespace LinBox

/-- Outputs of `partial_hegcd`: the returned boolean and the output parameters `e`, `b`. -/
structure HegcdResult where
  found : Bool
  e : Int
  b : Int
deriving DecidableEq

/-- Outputs of the scalar `dyadicToRational`: output parameters `a`, `b` and the return code. -/
structure ScalarResult where
  a : Int
  b : Int
  ret : Int
deriving DecidableEq

/-- The `do { ... } while (!wellapproximated && withinbound)` loop of `partial_hegcd`
on the state `(r0, b0, r1, b1)`, followed by the code after the loop. -/
def partial_hegcd.loop (denBound : Int) : Nat → Int → Int → Int → Int → Option HegcdResult
  | 0, _, _, _, _ => none
  | fuel + 1, r0, b0, r1, b1 =>
    if r1 = 0 then none
    else
      let quo := Int.tdiv r0 r1
      let e := Int.tmod r0 r1
      let b := b0 - quo * b1
      -- r0 = r1; b0 = b1; r1 = e; b1 = b;
      let tmp := |b|
      let withinbound := decide (tmp ≤ denBound)
      let wellapproximated := decide (2 * e ≤ tmp)
      if !wellapproximated && withinbound then partial_hegcd.loop denBound fuel r1 b1 e b
      else if !withinbound then some ⟨false, r1, b1⟩
      else some ⟨true, e, b⟩

/-- The function `partial_hegcd(Z, e, b, n, d, denBound)`: starts the loop from
`b0 = 1, r0 = n, b1 = 0, r1 = d`. -/
def partial_hegcd (n d denBound : Int) : Option HegcdResult :=
  partial_hegcd.loop denBound (d.natAbs + 1) n 1 d 0

/-- The scalar `dyadicToRational(Z, a, b, n, d, B)`. -/
def dyadicToRational (n d B : Int) : Option ScalarResult :=
  let an := |n|
  match partial_hegcd an d B with
  | none => none
  | some res =>
    let a := Int.tdiv (res.e - res.b * an) d
    let b := |res.b|
    let a := |a|
    let a := if n < 0 then -a else a
    let guarantee := decide (b * B < d)
    if (!res.found && decide (b > 0)) || (res.found && !guarantee) then some ⟨a, b, 1⟩
    else if res.found && guarantee then some ⟨a, b, 2⟩
    else some ⟨a, b, 0⟩

/-- The nearest integer to `p / q` for `q > 0`, ties rounded away from zero
(the rounding named by the round-trip property of the specification). -/
def roundHalfAway (p q : Int) : Int :=
  if p < 0 then -((2 * (-p) + q) / (2 * q)) else (2 * p + q) / (2 * q)

/-! ## The vector routine -/

/-- Outputs of the vector `dyadicToRational`: the vector `num`, the shared denominator `den`
and the return code. -/
structure VectorResult where
  num : List Int
  den : Int
  ret : Int
deriving DecidableEq

/-- Lines 154-159 of the vector `dyadicToRational`: quotient and balanced remainder of
`nx*den` by `denx` (`denx2` holds `denx/2`); the result is `(num[i], e)`. -/
def balancedQuoRem (nx den denx denx2 : Int) : Int × Int :=
  let tmp := nx * den
  let q := Int.tdiv tmp denx
  let e := Int.tmod tmp denx
  if e ≥ denx2 then (q + 1, e - denx) else (q, e)

/-- The inner loop `for (int i = k-1; i >= j; --i) Z.mulin(num[i], t);` of the final pass;
the second argument is the loop bound `j`, the third is `k`. -/
def fixRange (t : Int) (j : Nat) : Nat → List Int → List Int
  | 0, num => num
  | i + 1, num => if j ≤ i then fixRange t j i (num.modify (· * t) i) else num

/-- The loop `while (S.size() > 1) { ... }` that fixes the shorties; the stack is a list
with its top first. -/
def fixShorties : List (Nat × Int) → Int → List Int → List Int
  | top :: next :: S, t, num =>
    let t := t * top.2
    -- k = top.1, then pop, j = next.1
    fixShorties (next :: S) t (fixRange t next.1 top.1 num)
  | _, _, num => num

/-- The `for` loop of the vector `dyadicToRational` followed by the final pass.
The vector `num` is kept as `done ++ rest`: `done` holds the entries already written
(so the loop index is `i = done.length`) and `rest` the entries not yet reached; `numx` is the
part of the input vector from index `i` on. Reading `numx[i]` past its end has no result. -/
def vectorLoop (denx denBound denx2 : Int) :
    List Int → List Int → List Int → Int → List (Nat × Int) → Int → Option VectorResult
  | [], _, done, den, S, ret => some ⟨fixShorties S 1 done, den, ret⟩
  | _ :: _, [], _, _, _, _ => none
  | _ :: rest, x :: numx, done, den, S, ret =>
    if denx = 0 then none
    else
      let nx := |x|
      let qe := balancedQuoRem nx den denx denx2
      if 2 * |qe.2| > den then
        match dyadicToRational nx denx denBound with
        | none => none
        | some r =>
          -- oneret = r.ret, tmp = r.a, tmp_den = r.b
          let ret := if r.ret = 1 then 1 else ret
          if r.ret = 0 then some ⟨done ++ qe.1 :: rest, den, 0⟩
          else if r.b = 0 ∨ den = 0 then none
          else
            let den_lcm : Int := Int.lcm r.b den
            let numi := r.a * Int.tdiv den_lcm r.b
            let S := (done.length, Int.tdiv den_lcm den) :: S
            if den_lcm > denBound then some ⟨done ++ numi :: rest, den_lcm, 0⟩
            else
              vectorLoop denx denBound denx2 rest numx
                (done ++ [if x < 0 then -numi else numi]) den_lcm S ret
      else
        vectorLoop denx denBound denx2 rest numx
          (done ++ [if x < 0 then -qe.1 else qe.1]) den S ret

/-- The vector `dyadicToRational(Z, num, den, numx, denx, denBound)`. -/
def dyadicToRationalVector (num numx : List Int) (denx denBound : Int) : Option VectorResult :=
  vectorLoop denx denBound (Int.tdiv denx 2) num numx [] 1 [(0, 1)] 2

/-! ## Observers of a run of the vector routine -/

/-- State of the vector routine when its loop reaches coordinate `i`: the result of the
routine on the first `i` coordinates (the final pass does not change `den` or `ret`). -/
def stateBefore (num numx : List Int) (denx denBound : Int) (i : Nat) : Option VectorResult :=
  dyadicToRationalVector (num.take i) (numx.take i) denx denBound

/-- Coordinate `i` of `num` is reached and rejected by the fast path (`2|e| > den`): the then-current
denominator and the result of the scalar reconstruction performed for `|numx[i]|`. -/
def rejectedAt (num numx : List Int) (denx denBound : Int) (i : Nat) :
    Option (Int × ScalarResult) :=
  match stateBefore num numx denx denBound i, numx[i]? with
  | some st, some x =>
    if i < num.length ∧ st.ret ≠ 0 ∧
        2 * |(balancedQuoRem |x| st.den denx (Int.tdiv denx 2)).2| > st.den then
      (dyadicToRational |x| denx denBound).map (fun s => (st.den, s))
    else none
  | _, _ => none

/-- Coordinate `i` of `num` is reached and accepted on the fast path: the then-current denominator and
the quotient accepted as `num[i]`. -/
def acceptedAt (num numx : List Int) (denx denBound : Int) (i : Nat) : Option (Int × Int) :=
  match stateBefore num numx denx denBound i, numx[i]? with
  | some st, some x =>
    if i < num.length ∧ st.ret ≠ 0 ∧
        ¬ 2 * |(balancedQuoRem |x| st.den denx (Int.tdiv denx 2)).2| > st.den then
      some (st.den, (balancedQuoRem |x| st.den denx (Int.tdiv denx 2)).1)
    else none
  | _, _ => none

/-! ## The eager variant of the vector routine -/

/-- One coordinate of the eager variant: the loop body of the vector routine on the state
`(num, den, ret)`, where a growth of `den` by the factor `den_lcm/den` multiplies every
earlier numerator at once. A state with `ret = 0` is one that has failed already. -/
def eagerStep (denx denBound denx2 : Int) (st : VectorResult) (x : Int) : Option VectorResult :=
  if st.ret = 0 then some st
  else if denx = 0 then none
  else
    let nx := |x|
    let qe := balancedQuoRem nx st.den denx denx2
    if 2 * |qe.2| > st.den then
      match dyadicToRational nx denx denBound with
      | none => none
      | some r =>
        if r.ret = 0 then some ⟨st.num, st.den, 0⟩
        else if r.b = 0 ∨ st.den = 0 then none
        else
          let den_lcm : Int := Int.lcm r.b st.den
          let numi := r.a * Int.tdiv den_lcm r.b
          if den_lcm > denBound then some ⟨st.num, den_lcm, 0⟩
          else
            some ⟨st.num.map (· * Int.tdiv den_lcm st.den) ++ [if x < 0 then -numi else numi],
              den_lcm, if r.ret = 1 then 1 else st.ret⟩
    else some ⟨st.num ++ [if x < 0 then -qe.1 else qe.1], st.den, st.ret⟩

/-- The eager variant of the vector routine: the coordinates are processed in order from
`den = 1`, `ret = 2`, every growth rescaling the earlier numerators immediately. -/
def dyadicToRationalVectorEager (numx : List Int) (denx denBound : Int) :
    Option VectorResult :=
  numx.foldlM (eagerStep denx denBound (Int.tdiv denx 2)) ⟨[], 1, 2⟩

/-- In the run of the eager variant on `xs`, coordinate `i` is reached with denominator
`den_i` and rejected by the fast path, and its scalar reconstruction returns `s`. -/
def EagerRejected (xs : List Int) (denx denBound : Int) (i : Nat) (den_i : Int)
    (s : ScalarResult) : Prop :=
  ∃ (hi : i < xs.length) (sti : VectorResult),
    dyadicToRationalVectorEager (xs.take i) denx denBound = some sti ∧ sti.ret ≠ 0 ∧
    sti.den = den_i ∧
    2 * |(balancedQuoRem |xs.get ⟨i, hi⟩| sti.den denx (Int.tdiv denx 2)).2| > sti.den ∧
    dyadicToRational |xs.get ⟨i, hi⟩| denx denBound = some s

/-- In the run of the eager variant on `xs`, coordinate `i` is reached with denominator
`den_i` and accepted on the fast path with quotient `q`. -/
def EagerAccepted (xs : List Int) (denx denBound : Int) (i : Nat) (den_i q : Int) : Prop :=
  ∃ (hi : i < xs.length) (sti : VectorResult),
    dyadicToRationalVectorEager (xs.take i) denx denBound = some sti ∧ sti.ret ≠ 0 ∧
    sti.den = den_i ∧
    ¬ 2 * |(balancedQuoRem |xs.get ⟨i, hi⟩| sti.den denx (Int.tdiv denx 2)).2| > sti.den ∧
    (balancedQuoRem |xs.get ⟨i, hi⟩| sti.den denx (Int.tdiv denx 2)).1 = q

/-- Product of the multipliers still to be applied to the entry of index `idx` by the final
pass: those of the stack entries whose boundary index is above `idx`. -/
def pend : List (Nat × Int) → Nat → Int
  | [], _ => 1
  | p :: S, idx => (if idx < p.1 then p.2 else 1) * pend S idx

/-- Well-formed stack below the loop index `n`: boundary indices do not increase from the top
to the bottom, the top one is at most `n`, and the bottom entry is the sentinel of index 0. -/
def StackOK : List (Nat × Int) → Nat → Prop
  | [], _ => False
  | [p], _ => p.1 = 0
  | p :: q :: S, n => p.1 ≤ n ∧ StackOK (q :: S) p.1

/-- The entries of `l`, whose first index is `i`, each multiplied by its pending factor. -/
def rescaleFrom (S : List (Nat × Int)) : Nat → List Int → List Int
  | _, [] => []
  | i, a :: l => a * pend S i :: rescaleFrom S (i + 1) l

/-- Agreement of a result of the vector routine with a result of the eager variant:
same `den` and return code, and the same `num` unless the call failed. -/
def Agree : Option VectorResult → Option VectorResult → Prop
  | none, none => True
  | some a, some b => a.den = b.den ∧ a.ret = b.ret ∧ (a.ret ≠ 0 → a.num = b.num)
  | _, _ => False

/-! ## The remainder sequence of `partial_hegcd` -/

/-- The variables `(r0, b0, r1, b1)` of `partial_hegcd` at the head of its loop. -/
structure HegcdState where
  r0 : Int
  b0 : Int
  r1 : Int
  b1 : Int
deriving DecidableEq

/-- One pass through the body of the loop of `partial_hegcd`, without its exit test:
`quoRem (quo, e, r0, r1); b = b0 - quo*b1; r0 = r1; b0 = b1; r1 = e; b1 = b`. -/
def hegcdStep (s : HegcdState) : HegcdState :=
  ⟨s.r1, s.b1, Int.tmod s.r0 s.r1, s.b0 - Int.tdiv s.r0 s.r1 * s.b1⟩

/-- The loop variables after `k` passes from the initial
`(r0, b0) = (n, 1)`, `(r1, b1) = (d, 0)`. -/
def hegcdState (n d : Int) : Nat → HegcdState
  | 0 => ⟨n, 1, d, 0⟩
  | k + 1 => hegcdStep (hegcdState n d k)

/-- The remainder `r_i` of the recursion `r_{i+1} = r_{i-1} mod r_i`, `r_0 = n`, `r_1 = d`. -/
def remSeq (n d : Int) (i : Nat) : Int := (hegcdState n d i).r0

/-- The coefficient `b_i` of the recursion `b_{i+1} = b_{i-1} - q*b_i`, `b_0 = 1`, `b_1 = 0`. -/
def coefSeq (n d : Int) (i : Nat) : Int := (hegcdState n d i).b0

/-- The iteration of `partial_hegcd` entered with `(r1, b1) = (r_j, b_j)`, which computes
`(r_{j+1}, b_{j+1})`: the divisor is positive, the pair `(r_j, b_j)` was not accepted (not
well approximated, and in bound once computed by the loop), the remainder decreases and
stays non-negative, `|b|` does not decrease (and increases from `j = 3` on), and the signs
of the `b` alternate. -/
def HegcdStepOK (n d B : Int) (j : Nat) : Prop :=
  0 < remSeq n d j ∧ ¬ (2 * remSeq n d j ≤ |coefSeq n d j|) ∧
    (2 ≤ j → |coefSeq n d j| ≤ B) ∧
    0 ≤ remSeq n d (j + 1) ∧ remSeq n d (j + 1) < remSeq n d j ∧
    |coefSeq n d j| ≤ |coefSeq n d (j + 1)| ∧ 1 ≤ |coefSeq n d (j + 1)| ∧
    0 ≤ (-1) ^ j * coefSeq n d j ∧ 0 ≤ (-1) ^ (j + 1) * coefSeq n d (j + 1) ∧
    (3 ≤ j → |coefSeq n d j| < |coefSeq n d (j + 1)|)

/-- The run of `partial_hegcd` that returns `res`: the loop stops on the pair `(r_i, b_i)`,
`i ≥ 2`, the first one computed that is well approximated or out of bound; it returns this
pair with `true` when it is in bound, and the previous pair with `false` otherwise. -/
def HegcdTrace (n d B : Int) (res : HegcdResult) : Prop :=
  ∃ i : Nat, 2 ≤ i ∧ (∀ j, 1 ≤ j → j < i → HegcdStepOK n d B j) ∧
    (2 * remSeq n d i ≤ |coefSeq n d i| ∨ B < |coefSeq n d i|) ∧
    res = if |coefSeq n d i| ≤ B then ⟨true, remSeq n d i, coefSeq n d i⟩
      else ⟨false, remSeq n d (i - 1), coefSeq n d (i - 1)⟩

/-- The loop of `partial_hegcd` stops on the pair `(r_i, b_i)`: it is the first pair
computed by the loop (so `i ≥ 2`) that is well approximated or out of bound. -/
def HegcdStopsAt (n d B : Int) (i : Nat) : Prop :=
  2 ≤ i ∧ (∀ j, 2 ≤ j → j < i → ¬ (2 * remSeq n d j ≤ |coefSeq n d j|) ∧ |coefSeq n d j| ≤ B) ∧
    (2 * remSeq n d i ≤ |coefSeq n d i| ∨ B < |coefSeq n d i|)

/-- What the loop of `partial_hegcd` returns when it stops on the pair `(r_i, b_i)`: this
pair with `true` when it is in bound, the previous pair with `false` otherwise. -/
def hegcdOutput (n d B : Int) (i : Nat) : HegcdResult :=
  if |coefSeq n d i| ≤ B then ⟨true, remSeq n d i, coefSeq n d i⟩
  else ⟨false, remSeq n d (i - 1), coefSeq n d (i - 1)⟩

/-! ## The eager variant as a loop -/

/-- The eager variant of the vector routine written as the loop of the source: the same
statements, except that a growth of `den` by the multiplier `den_lcm/den` multiplies every
earlier numerator at once (instead of pushing the multiplier on the stack) and that there is
no final pass. -/
def vectorLoopEager (denx denBound denx2 : Int) :
    List Int → List Int → List Int → Int → Int → Option VectorResult
  | [], _, done, den, ret => some ⟨done, den, ret⟩
  | _ :: _, [], _, _, _ => none
  | _ :: rest, x :: numx, done, den, ret =>
    if denx = 0 then none
    else
      let nx := |x|
      let qe := balancedQuoRem nx den denx denx2
      if 2 * |qe.2| > den then
        match dyadicToRational nx denx denBound with
        | none => none
        | some r =>
          let ret := if r.ret = 1 then 1 else ret
          if r.ret = 0 then some ⟨done ++ qe.1 :: rest, den, 0⟩
          else if r.b = 0 ∨ den = 0 then none
          else
            let den_lcm : Int := Int.lcm r.b den
            let numi := r.a * Int.tdiv den_lcm r.b
            let done := done.map (· * Int.tdiv den_lcm den)
            if den_lcm > denBound then some ⟨done ++ numi :: rest, den_lcm, 0⟩
            else
              vectorLoopEager denx denBound denx2 rest numx
                (done ++ [if x < 0 then -numi else numi]) den_lcm ret
      else
        vectorLoopEager denx denBound denx2 rest numx
          (done ++ [if x < 0 then -qe.1 else qe.1]) den ret

/-- The eager variant of the vector `dyadicToRational`, on the same inputs. -/
def dyadicToRationalVectorEagerLoop (num numx : List Int) (denx denBound : Int) :
    Option VectorResult :=
  vectorLoopEager denx denBound (Int.tdiv denx 2) num numx [] 1 2

/-- Two results of the vector routine, the second one on an input with the sign of the entry
`i` flipped: same return code, same `den`, same entries of `num` outside `i`, and, unless the
code is 0, the entry `i` negated. -/
def SignFlipped (i : Nat) : Option VectorResult → Option VectorResult → Prop
  | none, none => True
  | some a, some b => a.ret = b.ret ∧ a.den = b.den ∧ a.num.length = b.num.length ∧
      (∀ j, j ≠ i → a.num[j]? = b.num[j]?) ∧ (a.ret ≠ 0 → b.num[i]? = (a.num[i]?).map (- ·))
  | _, _ => False

/-! ## Growth events and the state at the exit of the vector loop -/

/-- The scalar reconstructions performed by the vector routine, in the order of the
coordinates: for each coordinate rejected by the fast path, the then-current denominator and
the result of the scalar routine. -/
def reconstructions (num numx : List Int) (denx denBound : Int) : List (Int × ScalarResult) :=
  (List.range num.length).filterMap (rejectedAt num numx denx denBound)

/-- The least common multiple of a list of denominators, 1 for the empty list. -/
def lcmList (bs : List Int) : Int :=
  bs.foldl (fun acc b => (Int.lcm acc b : Int)) 1

/-- The variables of the vector routine when its `for` loop is left: `completed` tells
whether the loop ran to its end (the final pass follows) or was left by one of the two
`return` statements inside it (then `ret = 0` and the stack is dropped as it is). -/
structure LoopExit where
  num : List Int
  den : Int
  ret : Int
  S : List (Nat × Int)
  completed : Bool
deriving DecidableEq

/-- The `for` loop of the vector routine (the same statements as `vectorLoop`), returning the
variables with which the loop is left instead of the result of the routine. -/
def vectorLoopExit (denx denBound denx2 : Int) :
    List Int → List Int → List Int → Int → List (Nat × Int) → Int → Option LoopExit
  | [], _, done, den, S, ret => some ⟨done, den, ret, S, true⟩
  | _ :: _, [], _, _, _, _ => none
  | _ :: rest, x :: numx, done, den, S, ret =>
    if denx = 0 then none
    else
      let nx := |x|
      let qe := balancedQuoRem nx den denx denx2
      if 2 * |qe.2| > den then
        match dyadicToRational nx denx denBound with
        | none => none
        | some r =>
          let ret := if r.ret = 1 then 1 else ret
          if r.ret = 0 then some ⟨done ++ qe.1 :: rest, den, 0, S, false⟩
          else if r.b = 0 ∨ den = 0 then none
          else
            let den_lcm : Int := Int.lcm r.b den
            let numi := r.a * Int.tdiv den_lcm r.b
            let S := (done.length, Int.tdiv den_lcm den) :: S
            if den_lcm > denBound then some ⟨done ++ numi :: rest, den_lcm, 0, S, false⟩
            else
              vectorLoopExit denx denBound denx2 rest numx
                (done ++ [if x < 0 then -numi else numi]) den_lcm S ret
      else
        vectorLoopExit denx denBound denx2 rest numx
          (done ++ [if x < 0 then -qe.1 else qe.1]) den S ret

/-- What the vector routine returns from the state in which its loop is left: after a
completed loop the final pass rescales `num` and the code `ret` is returned; after a `return`
inside the loop the variables are returned as they are. -/
def exitResult (st : LoopExit) : VectorResult :=
  if st.completed then ⟨fixShorties st.S 1 st.num, st.den, st.ret⟩
  else ⟨st.num, st.den, st.ret⟩

/-- The indices visited by the final pass on the stack `S` (top first), in the order of the
visits: for the two topmost entries `(k, _)` and `(j, _)` the inner loop runs `i` from `k-1`
down to `j`, then the top is popped. -/
def fixIndices : List (Nat × Int) → List Nat
  | top :: next :: S => (List.range' next.1 (top.1 - next.1)).reverse ++ fixIndices (next :: S)
  | _ => []

/-! ## Predicates used by the proofs -/

/-- State invariant of the loop of `partial_hegcd` run on `n ≥ 0`, `d > 0`, with the
never-materialised numerator coefficients `a0`, `a1` and the common sign `σ` of `(a1, b1)`
as ghost values: both pairs are on the lattice `r = b*n - a*d`, the signs alternate,
consecutive pairs have determinant `±1`, the pair `(r1, b1)` was not accepted as
well approximated, and after the first iteration `r1 < r0` and `1 ≤ |b1| ≤ B`. -/
structure HInv (n d B a0 a1 σ r0 b0 r1 b1 : Int) : Prop where
  sgn : σ = 1 ∨ σ = -1
  eq0 : r0 = b0 * n - a0 * d
  eq1 : r1 = b1 * n - a1 * d
  r0_nonneg : 0 ≤ r0
  notwell : |b1| < 2 * r1
  sb1 : 0 ≤ σ * b1
  sa1 : 0 ≤ σ * a1
  sb0 : σ * b0 ≤ 0
  sa0 : σ * a0 ≤ 0
  det : a1 * b0 - a0 * b1 = σ
  phase : (b0 = 1 ∧ b1 = 0) ∨ (r1 < r0 ∧ 1 ≤ |b1| ∧ |b1| ≤ B)

/-- Properties of the result of `partial_hegcd` on `n ≥ 0`, `d > 0`: the output pair is on
the lattice `e = b*n - a*d` with a coefficient `a` of the sign of `b`; a found pair is well
approximated and in bound; a pair given for speculation is in bound and not well approximated,
or is the initial pair `(d, 0)` when even `|b| = 1` exceeds the bound. -/
def HOut (n d B : Int) (res : HegcdResult) : Prop :=
  ∃ a σ : Int, (σ = 1 ∨ σ = -1) ∧ res.e = res.b * n - a * d ∧ 0 ≤ res.e ∧
    0 ≤ σ * res.b ∧ 0 ≤ σ * a ∧
    (res.found = true → 2 * res.e ≤ |res.b| ∧ |res.b| ≤ B ∧ 1 ≤ |res.b|) ∧
    (res.found = false →
      (res.b = 0 ∧ res.e = d ∧ B < 1) ∨ (1 ≤ |res.b| ∧ |res.b| ≤ B ∧ |res.b| < 2 * res.e))

/-- Invariant of the loop head of `partial_hegcd` in terms of the remainder sequence. -/
def TraceInv (n d B : Int) (r0 b0 r1 b1 : Int) : Prop :=
  ∃ (a0 a1 : Int) (k : Nat), HInv n d B a0 a1 ((-1) ^ (k + 1)) r0 b0 r1 b1 ∧
    r0 = remSeq n d k ∧ b0 = coefSeq n d k ∧ r1 = remSeq n d (k + 1) ∧
    b1 = coefSeq n d (k + 1) ∧ ∀ j, 1 ≤ j → j ≤ k → HegcdStepOK n d B j

/-! ## The loop rule -/

/-- Hoare-style rule for the loop: an invariant `Q` of the loop head that forces a positive
divisor and is preserved by every continuing iteration yields a result satisfying `P`,
as soon as the fuel exceeds the current remainder `r1`. -/
theorem partial_hegcd.loop_rule (B : Int) (Q : Int → Int → Int → Int → Prop)
    (P : HegcdResult → Prop)
    (hpos : ∀ r0 b0 r1 b1, Q r0 b0 r1 b1 → 0 < r1)
    (hcont : ∀ r0 b0 r1 b1, Q r0 b0 r1 b1 →
      ¬ (2 * Int.tmod r0 r1 ≤ |b0 - Int.tdiv r0 r1 * b1|) →
      |b0 - Int.tdiv r0 r1 * b1| ≤ B →
      Q r1 b1 (Int.tmod r0 r1) (b0 - Int.tdiv r0 r1 * b1))
    (hout : ∀ r0 b0 r1 b1, Q r0 b0 r1 b1 →
      ¬ (|b0 - Int.tdiv r0 r1 * b1| ≤ B) → P ⟨false, r1, b1⟩)
    (hfound : ∀ r0 b0 r1 b1, Q r0 b0 r1 b1 →
      2 * Int.tmod r0 r1 ≤ |b0 - Int.tdiv r0 r1 * b1| →
      |b0 - Int.tdiv r0 r1 * b1| ≤ B →
      P ⟨true, Int.tmod r0 r1, b0 - Int.tdiv r0 r1 * b1⟩) :
    ∀ (fuel : Nat) (r0 b0 r1 b1 : Int), Q r0 b0 r1 b1 → r1.toNat < fuel →
      ∃ res, partial_hegcd.loop B fuel r0 b0 r1 b1 = some res ∧ P res := by
  intro fuel
  induction fuel with
  | zero => intro r0 b0 r1 b1 _ h; omega
  | succ k ih =>
    intro r0 b0 r1 b1 hQ hfuel
    have hr1 : 0 < r1 := hpos _ _ _ _ hQ
    have hne : r1 ≠ 0 := by omega
    by_cases hw : |b0 - Int.tdiv r0 r1 * b1| ≤ B
    · by_cases ha : 2 * Int.tmod r0 r1 ≤ |b0 - Int.tdiv r0 r1 * b1|
      · refine ⟨⟨true, Int.tmod r0 r1, b0 - Int.tdiv r0 r1 * b1⟩, ?_, hfound _ _ _ _ hQ ha hw⟩
        simp [partial_hegcd.loop, hne, hw, ha]
      · have hQ2 := hcont _ _ _ _ hQ ha hw
        have hlt : Int.tmod r0 r1 < r1 := Int.tmod_lt_of_pos _ hr1
        have hpos2 : 0 < Int.tmod r0 r1 := hpos _ _ _ _ hQ2
        obtain ⟨res, hres, hP⟩ := ih _ _ _ _ hQ2 (by omega)
        refine ⟨res, ?_, hP⟩
        simp [partial_hegcd.loop, hne, hw, ha, hres]
    · refine ⟨⟨false, r1, b1⟩, ?_, hout _ _ _ _ hQ hw⟩
      simp [partial_hegcd.loop, hne, hw]

/-! ## Invariant of the remainder sequence -/

/-- Facts about the truncated quotient and remainder of a non-negative dividend by a
positive divisor. -/
theorem tdiv_tmod_facts (r0 r1 : Int) (h0 : 0 ≤ r0) (h1 : 0 < r1) :
    r0 = Int.tdiv r0 r1 * r1 + Int.tmod r0 r1 ∧ 0 ≤ Int.tmod r0 r1 ∧ Int.tmod r0 r1 < r1 ∧
      0 ≤ Int.tdiv r0 r1 ∧ (r1 ≤ r0 → 1 ≤ Int.tdiv r0 r1) := by
  have e1 := Int.tmod_add_tdiv r0 r1
  have e2 : 0 ≤ Int.tmod r0 r1 := Int.tmod_nonneg _ h0
  have e3 : Int.tmod r0 r1 < r1 := Int.tmod_lt_of_pos _ h1
  have e4 : 0 ≤ Int.tdiv r0 r1 := by
    rw [Int.tdiv_eq_ediv h0 h1.le]; exact Int.ediv_nonneg h0 h1.le
  refine ⟨by rw [mul_comm]; omega, e2, e3, e4, ?_⟩
  intro hle
  by_contra hq
  have hq0 : Int.tdiv r0 r1 = 0 := by omega
  rw [hq0] at e1
  omega

theorem HInv.r1_pos {n d B a0 a1 σ r0 b0 r1 b1 : Int}
    (h : HInv n d B a0 a1 σ r0 b0 r1 b1) : 0 < r1 := by
  have := h.notwell
  have := abs_nonneg b1
  omega

theorem HInv.init (n d B : Int) (hn : 0 ≤ n) (hd : 0 < d) :
    HInv n d B 0 (-1) (-1) n 1 d 0 := by
  refine ⟨Or.inr rfl, by ring, by ring, hn, by simpa using hd, by simp, by simp, by simp,
    by simp, by ring, Or.inl ⟨rfl, rfl⟩⟩

/-- Facts about the pair `(e, b)` computed by one iteration from a state satisfying the
invariant: it is on the lattice with coefficient `a0 - quo*a1`, carries the sign `-σ`,
the determinant flips, `0 ≤ e < r1`, and `1 ≤ |b|`, `|b1| ≤ |b|`. -/
theorem HInv.next {n d B a0 a1 σ r0 b0 r1 b1 : Int}
    (h : HInv n d B a0 a1 σ r0 b0 r1 b1) :
    Int.tmod r0 r1 = (b0 - Int.tdiv r0 r1 * b1) * n - (a0 - Int.tdiv r0 r1 * a1) * d ∧
    0 ≤ Int.tmod r0 r1 ∧ Int.tmod r0 r1 < r1 ∧
    0 ≤ -σ * (b0 - Int.tdiv r0 r1 * b1) ∧ 0 ≤ -σ * (a0 - Int.tdiv r0 r1 * a1) ∧
    (a0 - Int.tdiv r0 r1 * a1) * b1 - a1 * (b0 - Int.tdiv r0 r1 * b1) = -σ ∧
    1 ≤ |b0 - Int.tdiv r0 r1 * b1| ∧ |b1| ≤ |b0 - Int.tdiv r0 r1 * b1| := by
  obtain ⟨hdiv, hr2, hlt, hq, hq1⟩ := tdiv_tmod_facts r0 r1 h.r0_nonneg h.r1_pos
  generalize Int.tdiv r0 r1 = q at *
  generalize Int.tmod r0 r1 = r2 at *
  have e0 := h.eq0
  have e1 := h.eq1
  have hb : 0 ≤ q * (σ * b1) := mul_nonneg hq h.sb1
  have ha : 0 ≤ q * (σ * a1) := mul_nonneg hq h.sa1
  have hsb0 := h.sb0
  have hsa0 := h.sa0
  have hdet := h.det
  have h4 : 0 ≤ -σ * (b0 - q * b1) := by
    have : -σ * (b0 - q * b1) = -(σ * b0) + q * (σ * b1) := by ring
    rw [this]; linarith
  have h5 : 0 ≤ -σ * (a0 - q * a1) := by
    have : -σ * (a0 - q * a1) = -(σ * a0) + q * (σ * a1) := by ring
    rw [this]; linarith
  have habs1 : |b1| = σ * b1 := by
    have := h.sb1
    rcases h.sgn with rfl | rfl
    · rw [one_mul] at *; exact abs_of_nonneg this
    · rw [abs_of_nonpos (by linarith)]; ring
  have habs2 : |b0 - q * b1| = -σ * (b0 - q * b1) := by
    rcases h.sgn with rfl | rfl
    · rw [abs_of_nonpos (by linarith)]; ring
    · rw [abs_of_nonneg (by linarith)]; ring
  have h78 : 1 ≤ |b0 - q * b1| ∧ |b1| ≤ |b0 - q * b1| := by
    rcases h.phase with ⟨hb0, hb1⟩ | ⟨hlt0, hb1, _⟩
    · subst hb0 hb1; simp
    · have hq1' : 1 ≤ q := hq1 hlt0.le
      have hmul : 0 ≤ (q - 1) * (σ * b1) := mul_nonneg (by linarith) h.sb1
      have hge : |b1| ≤ |b0 - q * b1| := by
        rw [habs1, habs2]
        have : -σ * (b0 - q * b1) = -(σ * b0) + (q - 1) * (σ * b1) + σ * b1 := by ring
        rw [this]; linarith
      exact ⟨le_trans hb1 hge, hge⟩
  exact ⟨by linear_combination e0 - hdiv - q * e1, hr2, hlt, h4, h5,
    by linear_combination -hdet, h78.1, h78.2⟩

/-- The invariant is preserved by a continuing iteration. -/
theorem HInv.step {n d B a0 a1 σ r0 b0 r1 b1 : Int}
    (h : HInv n d B a0 a1 σ r0 b0 r1 b1)
    (hw : ¬ (2 * Int.tmod r0 r1 ≤ |b0 - Int.tdiv r0 r1 * b1|))
    (hB : |b0 - Int.tdiv r0 r1 * b1| ≤ B) :
    HInv n d B a1 (a0 - Int.tdiv r0 r1 * a1) (-σ) r1 b1
      (Int.tmod r0 r1) (b0 - Int.tdiv r0 r1 * b1) := by
  obtain ⟨g1, _, g3, g4, g5, g6, g7, _⟩ := h.next
  refine ⟨?_, h.eq1, g1, h.r1_pos.le, lt_of_not_ge hw, g4, g5, ?_, ?_, g6,
    Or.inr ⟨g3, g7, hB⟩⟩
  · rcases h.sgn with hs | hs <;> simp [hs]
  · have := h.sb1; linarith
  · have := h.sa1; linarith

/-! ## What `partial_hegcd` and `dyadicToRational` return -/

theorem partial_hegcd_spec (n d B : Int) (hn : 0 ≤ n) (hd : 0 < d) :
    ∃ res, partial_hegcd n d B = some res ∧ HOut n d B res := by
  unfold partial_hegcd
  apply partial_hegcd.loop_rule B
    (fun r0 b0 r1 b1 => ∃ a0 a1 σ, HInv n d B a0 a1 σ r0 b0 r1 b1) (HOut n d B)
  · rintro r0 b0 r1 b1 ⟨a0, a1, σ, h⟩; exact h.r1_pos
  · rintro r0 b0 r1 b1 ⟨a0, a1, σ, h⟩ hw hB
    exact ⟨_, _, _, h.step hw hB⟩
  · rintro r0 b0 r1 b1 ⟨a0, a1, σ, h⟩ hB
    obtain ⟨_, _, _, _, _, _, g7, _⟩ := h.next
    refine ⟨a1, σ, h.sgn, h.eq1, h.r1_pos.le, h.sb1, h.sa1, by simp, fun _ => ?_⟩
    rcases h.phase with ⟨hb0, hb1⟩ | ⟨_, hb1, hb1B⟩
    · left
      subst hb0 hb1
      have e1 := h.eq1
      have hdet := h.det
      simp only [mul_zero, sub_zero, zero_sub, abs_one, not_le, mul_one] at hB e1 hdet
      have hs := h.sa1
      refine ⟨rfl, ?_, hB⟩
      show r1 = d
      rcases h.sgn with rfl | rfl
      · nlinarith
      · have : a1 = -1 := by linarith
        rw [e1, this]; ring
    · right; exact ⟨hb1, hb1B, h.notwell⟩
  · rintro r0 b0 r1 b1 ⟨a0, a1, σ, h⟩ hw hB
    obtain ⟨g1, g2, _, g4, g5, _, g7, _⟩ := h.next
    refine ⟨_, -σ, ?_, g1, g2, g4, g5, fun _ => ⟨hw, hB, g7⟩, by simp⟩
    rcases h.sgn with hs | hs <;> simp [hs]
  · exact ⟨0, -1, -1, HInv.init n d B hn hd⟩
  · omega

/-- The return code computed by the last three lines of the scalar `dyadicToRational` from
`found`, the non-negative `b`, `B` and `d`. -/
theorem dyadicToRational_eq (n d B : Int) (res : HegcdResult)
    (h : partial_hegcd |n| d B = some res) :
    dyadicToRational n d B = some
      ⟨if n < 0 then -|Int.tdiv (res.e - res.b * |n|) d| else |Int.tdiv (res.e - res.b * |n|) d|,
       |res.b|,
       if (!res.found && decide (|res.b| > 0)) || (res.found && !decide (|res.b| * B < d)) then 1
       else if res.found && decide (|res.b| * B < d) then 2 else 0⟩ := by
  unfold dyadicToRational
  simp only [h]
  split_ifs <;> rfl

/-- For `d > 0` the scalar `dyadicToRational` returns: its outputs are `b = |res.b|` for the
result `res` of `partial_hegcd |n| d B`, and `a` of absolute value `A` with the sign of `n`,
with `|b*n - a*d| = res.e`. -/
theorem dyadicToRational_spec (n d B : Int) (hd : 0 < d) :
    ∃ res A, partial_hegcd |n| d B = some res ∧ HOut |n| d B res ∧ 0 ≤ A ∧
      |(|res.b| * n - (if n < 0 then -A else A) * d)| = res.e ∧
      dyadicToRational n d B = some
        ⟨if n < 0 then -A else A, |res.b|,
         if (!res.found && decide (|res.b| > 0)) || (res.found && !decide (|res.b| * B < d))
         then 1 else if res.found && decide (|res.b| * B < d) then 2 else 0⟩ := by
  obtain ⟨res, hres, hout⟩ := partial_hegcd_spec |n| d B (abs_nonneg n) hd
  obtain ⟨a, σ, hσ, he, he0, hsb, hsa, _, _⟩ := hout
  have hdiv : Int.tdiv (res.e - res.b * |n|) d = -a := by
    have : res.e - res.b * |n| = -a * d := by rw [he]; ring
    rw [this]; exact Int.mul_tdiv_cancel _ (by omega)
  have hA : |(-a)| = σ * a := by
    rw [abs_neg]
    rcases hσ with rfl | rfl
    · rw [one_mul] at *; exact abs_of_nonneg hsa
    · rw [abs_of_nonpos (by linarith)]; ring
  have hb : |res.b| = σ * res.b := by
    rcases hσ with rfl | rfl
    · rw [one_mul] at *; exact abs_of_nonneg hsb
    · rw [abs_of_nonpos (by linarith)]; ring
  refine ⟨res, σ * a, hres, ⟨a, σ, hσ, he, he0, hsb, hsa, ‹_›, ‹_›⟩, hsa, ?_, ?_⟩
  · have key : σ * res.b * |n| - σ * a * d = σ * res.e := by rw [he]; ring
    rw [hb]
    by_cases hn : n < 0
    · rw [if_pos hn]
      have : σ * res.b * n - -(σ * a) * d = -(σ * res.e) := by
        rw [← key, abs_of_neg hn]; ring
      rw [this, abs_neg]
      rcases hσ with rfl | rfl
      · rw [one_mul]; exact abs_of_nonneg he0
      · rw [abs_of_nonpos (by linarith)]; ring
    · rw [if_neg hn]
      have : σ * res.b * n - σ * a * d = σ * res.e := by
        rw [← key, abs_of_nonneg (not_lt.mp hn)]
      rw [this]
      rcases hσ with rfl | rfl
      · rw [one_mul]; exact abs_of_nonneg he0
      · rw [abs_of_nonpos (by linarith)]; ring
  · rw [dyadicToRational_eq n d B res hres, hdiv, hA]

/-- Two fractions `a/b` and `a'/b'` whose weighted distances to `n/d` add up to less than `d`
are equal: `(a'*b - a*b') * d = b'*(b*n - a*d) - b*(b'*n - a'*d)`. -/
theorem cross_eq_of_lt (n d a b a' b' : Int) (hb : 0 ≤ b) (hb' : 0 ≤ b')
    (hlt : b * |b' * n - a' * d| + b' * |b * n - a * d| < d) : a' * b = a * b' := by
  have hc : (a' * b - a * b') * d = b' * (b * n - a * d) - b * (b' * n - a' * d) := by ring
  have h1 : b' * (b * n - a * d) ≤ b' * |b * n - a * d| :=
    mul_le_mul_of_nonneg_left (le_abs_self _) hb'
  have h2 : -(b' * |b * n - a * d|) ≤ b' * (b * n - a * d) := by
    have := mul_le_mul_of_nonneg_left (neg_abs_le (b * n - a * d)) hb'
    linarith
  have h3 : b * (b' * n - a' * d) ≤ b * |b' * n - a' * d| :=
    mul_le_mul_of_nonneg_left (le_abs_self _) hb
  have h4 : -(b * |b' * n - a' * d|) ≤ b * (b' * n - a' * d) := by
    have := mul_le_mul_of_nonneg_left (neg_abs_le (b' * n - a' * d)) hb
    linarith
  have hd : 0 < d := by
    have := mul_nonneg hb (abs_nonneg (b' * n - a' * d))
    have := mul_nonneg hb' (abs_nonneg (b * n - a * d))
    linarith
  by_contra hne
  have hne' : a' * b - a * b' ≠ 0 := fun h => hne (by linarith)
  rcases lt_or_gt_of_ne hne' with hneg | hpos
  · have : (a' * b - a * b') * d ≤ -1 * d :=
      mul_le_mul_of_nonneg_right (by omega) hd.le
    linarith
  · have : 1 * d ≤ (a' * b - a * b') * d :=
      mul_le_mul_of_nonneg_right (by omega) hd.le
    linarith

/-- What a return code 2 of the scalar `dyadicToRational` means, for `d > 0`: the outputs
have `1 ≤ b ≤ B`, `b*B < d` and `2*|b*n - a*d| ≤ b`. -/
theorem dyadicToRational_ret_two (n d B : Int) (hd : 0 < d) (r : ScalarResult)
    (h : dyadicToRational n d B = some r) (h2 : r.ret = 2) :
    1 ≤ r.b ∧ r.b ≤ B ∧ r.b * B < d ∧ 2 * |r.b * n - r.a * d| ≤ r.b := by
  obtain ⟨res, A, _, hout, _, habs, heq⟩ := dyadicToRational_spec n d B hd
  obtain ⟨a, σ, _, _, _, _, _, hf, _⟩ := hout
  rw [heq] at h
  have hr := Option.some.inj h
  subst hr
  simp only at h2 ⊢
  cases hfound : res.found with
  | false =>
    rw [hfound] at h2
    by_cases hb : |res.b| > 0 <;> simp [hb] at h2
  | true =>
    rw [hfound] at h2
    obtain ⟨w1, w2, w3⟩ := hf hfound
    by_cases hg : |res.b| * B < d
    · rw [habs]; exact ⟨w3, w2, hg, w1⟩
    · simp [hg] at h2

/-! ## Completeness: a well approximated fraction in bound is found -/

/-- At the boundary `d = b*B` an integer `n` nearest to `a*d/b` is exactly `a*B`. -/
theorem residual_zero_or_margin (n d B a b : Int) (hb : 0 < b) (hdB : b * B ≤ d)
    (happ : 2 * |b * n - a * d| ≤ b) : b * n - a * d = 0 ∨ b * B < d := by
  rcases eq_or_lt_of_le hdB with heq | hlt
  · left
    have hρ : b * n - a * d = b * (n - a * B) := by rw [← heq]; ring
    have hz : n - a * B = 0 := by
      by_contra hne
      have h1 : 1 ≤ |n - a * B| := Int.one_le_abs hne
      rw [hρ, abs_mul, abs_of_pos hb] at happ
      nlinarith
    rw [hρ, hz, mul_zero]
  · right; exact hlt

/-- Uniqueness up to and including the boundary: if `a/b` with `0 < b ≤ B` and `b*B ≤ d` is
within `1/(2d)` of `n/d`, every `a'/b'` with `0 ≤ b' ≤ B` within `1/(2d)` of `n/d` is equal
to it. -/
theorem unique_within (n d B a b a' b' : Int) (hb : 0 < b) (hbB : b ≤ B) (hdB : b * B ≤ d)
    (happ : 2 * |b * n - a * d| ≤ b) (hb' : 0 ≤ b') (hb'B : b' ≤ B)
    (happ' : 2 * |b' * n - a' * d| ≤ b') : a' * b = a * b' := by
  apply cross_eq_of_lt n d a b a' b' hb.le hb'
  have hd : 0 < d := by nlinarith
  have p1 : b * (2 * |b' * n - a' * d|) ≤ b * b' := mul_le_mul_of_nonneg_left happ' hb.le
  have p2 : b' * (2 * |b * n - a * d|) ≤ b' * b := mul_le_mul_of_nonneg_left happ hb'
  have p3 : b * b' ≤ b * B := mul_le_mul_of_nonneg_left hb'B hb.le
  rcases residual_zero_or_margin n d B a b hb hdB happ with hz | hlt
  · rw [hz, abs_zero, mul_zero, add_zero]
    nlinarith
  · nlinarith

/-- Best approximation, arithmetic core: a lattice vector `X*u1 + Y*u2` whose second
coordinate `b = X*s1 + Y*s2` lies strictly between `0` and `s2` has a first coordinate
`X*r1 - Y*r2` of absolute value at least `r1`. -/
theorem best_approx_core (X Y s1 s2 r1 r2 b : Int) (hs1 : 0 ≤ s1) (hr1 : 0 ≤ r1)
    (hr2 : 0 ≤ r2) (hb : 0 < b) (hlt : b < s2) (hbe : b = X * s1 + Y * s2) :
    r1 ≤ |X * r1 - Y * r2| := by
  rcases le_or_lt Y 0 with hY | hY
  · have h1 : 0 ≤ -Y * s2 := mul_nonneg (by omega) (by omega)
    have hX : 1 ≤ X := by
      by_contra hX
      have : X * s1 ≤ 0 := mul_nonpos_of_nonpos_of_nonneg (by omega) hs1
      nlinarith
    have h2 : 0 ≤ (X - 1) * r1 := mul_nonneg (by omega) hr1
    have h3 : 0 ≤ -Y * r2 := mul_nonneg (by omega) hr2
    calc r1 ≤ X * r1 - Y * r2 := by nlinarith
      _ ≤ |X * r1 - Y * r2| := le_abs_self _
  · have h1 : 0 ≤ (Y - 1) * s2 := mul_nonneg (by omega) (by omega)
    have hX : X ≤ -1 := by
      by_contra hX
      have : 0 ≤ X * s1 := mul_nonneg (by omega) hs1
      nlinarith
    have h2 : 0 ≤ (-1 - X) * r1 := mul_nonneg (by omega) hr1
    have h3 : 0 ≤ Y * r2 := mul_nonneg (by omega) hr2
    calc r1 ≤ -(X * r1 - Y * r2) := by nlinarith
      _ ≤ |X * r1 - Y * r2| := neg_le_abs _

/-- Absolute values of the two denominators of a state, through the ghost sign. -/
theorem HInv.abs_b1 {n d B a0 a1 σ r0 b0 r1 b1 : Int}
    (h : HInv n d B a0 a1 σ r0 b0 r1 b1) : |b1| = σ * b1 := by
  have := h.sb1
  rcases h.sgn with rfl | rfl
  · rw [one_mul] at *; exact abs_of_nonneg this
  · rw [abs_of_nonpos (by linarith)]; ring

/-- The pair `(r1, b1)` of a state, seen as the fraction `(σ*a1)/|b1|`:
its residual is `σ*r1`. -/
theorem HInv.residual1 {n d B a0 a1 σ r0 b0 r1 b1 : Int}
    (h : HInv n d B a0 a1 σ r0 b0 r1 b1) : |b1| * n - σ * a1 * d = σ * r1 := by
  rw [h.abs_b1, h.eq1]; ring

theorem HInv.sq {n d B a0 a1 σ r0 b0 r1 b1 : Int}
    (h : HInv n d B a0 a1 σ r0 b0 r1 b1) : σ * σ = 1 := by
  rcases h.sgn with rfl | rfl <;> norm_num

theorem HInv.abs_residual1 {n d B a0 a1 σ r0 b0 r1 b1 : Int}
    (h : HInv n d B a0 a1 σ r0 b0 r1 b1) : |(|b1| * n - σ * a1 * d)| = r1 := by
  rw [h.residual1]
  have := h.r1_pos
  rcases h.sgn with rfl | rfl
  · rw [one_mul]; exact abs_of_pos this
  · rw [abs_of_neg (by linarith)]; ring

/-- Key step of completeness. If a fraction `a/b` in lowest terms with `0 < b ≤ B`,
`b*B ≤ d` is within `1/(2d)` of `n/d`, and the current denominator has `|b1| ≤ b` (and was
not accepted), then the next denominator still has `|b| ≤ b`: the search cannot jump over
`a/b`. -/
theorem HInv.next_le_target {n d B a0 a1 σ r0 b0 r1 b1 : Int}
    (h : HInv n d B a0 a1 σ r0 b0 r1 b1) (a b : Int) (hb : 0 < b) (hbB : b ≤ B)
    (hdB : b * B ≤ d) (hcop : IsCoprime a b) (happ : 2 * |b * n - a * d| ≤ b)
    (hb1 : |b1| ≤ b) : |b0 - Int.tdiv r0 r1 * b1| ≤ b := by
  obtain ⟨g1, g2, g3, g4, g5, g6, g7, g8⟩ := h.next
  have hsq := h.sq
  have habs1 := h.abs_b1
  have hres1 := h.abs_residual1
  have hnw := h.notwell
  have hdet := h.det
  have hr1 := h.r1_pos
  have he1 := h.eq1
  generalize Int.tdiv r0 r1 = q at *
  generalize Int.tmod r0 r1 = r2 at *
  by_contra hgt
  rw [not_le] at hgt
  have habs2 : |b0 - q * b1| = -σ * (b0 - q * b1) := by
    rcases h.sgn with rfl | rfl
    · rw [abs_of_nonpos (by linarith)]; ring
    · rw [abs_of_nonneg (by linarith)]; ring
  -- the target as an integer combination of the two pairs
  have hbe : b = (a * (b0 - q * b1) - b * (a0 - q * a1)) * |b1|
      + (a * b1 - b * a1) * |b0 - q * b1| := by
    rw [habs1, habs2]
    linear_combination (-b) * hsq + (σ * b) * g6
  have hρ : |b * n - a * d| = |(a * (b0 - q * b1) - b * (a0 - q * a1)) * r1
      - (a * b1 - b * a1) * r2| := by
    have e : (a * (b0 - q * b1) - b * (a0 - q * a1)) * r1 - (a * b1 - b * a1) * r2
        = σ * (b * n - a * d) := by
      rw [g1, he1]
      linear_combination (-(b * n - a * d)) * g6
    rw [e, abs_mul]
    rcases h.sgn with rfl | rfl <;> simp
  have hbest : r1 ≤ |b * n - a * d| := by
    rw [hρ]
    exact best_approx_core _ _ |b1| |b0 - q * b1| r1 r2 b (abs_nonneg _) hr1.le g2 hb hgt hbe
  -- hence the current pair is the same fraction as the target
  have hx : σ * a1 * b = a * |b1| := by
    apply cross_eq_of_lt n d a b (σ * a1) |b1| hb.le (abs_nonneg _)
    rw [hres1]
    have p1 : b * r1 ≤ b * |b * n - a * d| := mul_le_mul_of_nonneg_left hbest hb.le
    have p2 : |b1| * |b * n - a * d| ≤ b * |b * n - a * d| :=
      mul_le_mul_of_nonneg_right hb1 (abs_nonneg _)
    have p3 : b * (2 * |b * n - a * d|) ≤ b * b := mul_le_mul_of_nonneg_left happ hb.le
    have p4 : b * b ≤ b * B := mul_le_mul_of_nonneg_left hbB hb.le
    rcases residual_zero_or_margin n d B a b hb hdB happ with hz | hlt
    · rw [hz, abs_zero] at hbest
      omega
    · nlinarith
  have hdvd : b ∣ |b1| := by
    have : b ∣ |b1| * a := ⟨σ * a1, by linear_combination -hx⟩
    exact (IsCoprime.symm hcop).dvd_of_dvd_mul_right this
  rcases (abs_nonneg b1).eq_or_lt with h0 | hpos
  · -- `b1 = 0` contradicts the determinant
    have hb10 : b1 = 0 := abs_eq_zero.mp h0.symm
    rw [← h0, mul_zero] at hx
    have ha1 : σ * a1 = 0 := by
      rcases mul_eq_zero.mp hx with h' | h'
      · exact h'
      · omega
    have : σ * σ = 0 := by
      have e : σ * σ = (σ * a1) * b0 - σ * a0 * b1 := by linear_combination (-σ) * hdet
      rw [e, ha1, hb10]; ring
    omega
  · -- `|b1| = b` makes the current pair well approximated
    have hle : b ≤ |b1| := Int.le_of_dvd hpos hdvd
    have hbeq : |b1| = b := le_antisymm hb1 hle
    rw [hbeq] at hx
    have ha : σ * a1 = a := by
      have := mul_right_cancel₀ (ne_of_gt hb) hx
      exact this
    rw [hbeq, ha] at hres1
    rw [hres1] at happ
    omega

/-- Completeness of `partial_hegcd`: for `n ≥ 0`, if a fraction `a/b` in lowest terms with
`0 < b ≤ B` and `b*B ≤ d` is within `1/(2d)` of `n/d`, the search returns `found` with a
denominator of absolute value `b`. -/
theorem partial_hegcd_complete (n d B a b : Int) (hn : 0 ≤ n) (hb : 0 < b) (hbB : b ≤ B)
    (hdB : b * B ≤ d) (hcop : IsCoprime a b) (happ : 2 * |b * n - a * d| ≤ b) :
    ∃ res, partial_hegcd n d B = some res ∧ res.found = true ∧ |res.b| = b := by
  have hd : 0 < d := by nlinarith
  unfold partial_hegcd
  apply partial_hegcd.loop_rule B
    (fun r0 b0 r1 b1 => ∃ a0 a1 σ, HInv n d B a0 a1 σ r0 b0 r1 b1 ∧ |b1| ≤ b)
    (fun res => res.found = true ∧ |res.b| = b)
  · rintro r0 b0 r1 b1 ⟨a0, a1, σ, h, _⟩; exact h.r1_pos
  · rintro r0 b0 r1 b1 ⟨a0, a1, σ, h, hb1⟩ hw hB
    exact ⟨_, _, _, h.step hw hB, h.next_le_target a b hb hbB hdB hcop happ hb1⟩
  · rintro r0 b0 r1 b1 ⟨a0, a1, σ, h, hb1⟩ hB
    have := h.next_le_target a b hb hbB hdB hcop happ hb1
    exact absurd (le_trans this hbB) hB
  · rintro r0 b0 r1 b1 ⟨a0, a1, σ, h, hb1⟩ hw hB
    refine ⟨rfl, ?_⟩
    have hle := h.next_le_target a b hb hbB hdB hcop happ hb1
    obtain ⟨g1, g2, _, g4, _, _, g7, _⟩ := h.next
    generalize Int.tdiv r0 r1 = q at *
    generalize Int.tmod r0 r1 = r2 at *
    show |b0 - q * b1| = b
    have habs2 : |b0 - q * b1| = -σ * (b0 - q * b1) := by
      rcases h.sgn with rfl | rfl
      · rw [abs_of_nonpos (by linarith)]; ring
      · rw [abs_of_nonneg (by linarith)]; ring
    have hres : |(|b0 - q * b1| * n - -σ * (a0 - q * a1) * d)| = r2 := by
      have e : |b0 - q * b1| * n - -σ * (a0 - q * a1) * d = -σ * r2 := by
        rw [habs2, g1]; ring
      rw [e]
      rcases h.sgn with rfl | rfl
      · rw [abs_of_nonpos (by linarith)]; ring
      · rw [abs_of_nonneg (by linarith)]; ring
    have hx : -σ * (a0 - q * a1) * b = a * |b0 - q * b1| :=
      unique_within n d B a b _ _ hb hbB hdB happ (abs_nonneg _) hB (by rw [hres]; exact hw)
    have hdvd : b ∣ |b0 - q * b1| := by
      have : b ∣ |b0 - q * b1| * a := ⟨-σ * (a0 - q * a1), by linear_combination -hx⟩
      exact (IsCoprime.symm hcop).dvd_of_dvd_mul_right this
    exact le_antisymm hle (Int.le_of_dvd (by omega) hdvd)
  · exact ⟨0, -1, -1, HInv.init n d B hn hd, by simpa using hb.le⟩
  · omega

/-- Value correctness of the scalar `dyadicToRational` up to and including the boundary:
if `a/b` is in lowest terms with `0 < b ≤ B`, `b*B ≤ d`, and `n` is an integer nearest to
`a*d/b`, the outputs are exactly `(a, b)`, with return code 2 when `b*B < d` and 1 when
`b*B = d`. -/
theorem dyadicToRational_complete (n d B a b : Int) (hb : 0 < b) (hbB : b ≤ B)
    (hdB : b * B ≤ d) (hcop : IsCoprime a b) (happ : 2 * |b * n - a * d| ≤ b) :
    dyadicToRational n d B = some ⟨a, b, if b * B < d then 2 else 1⟩ := by
  have hd : 0 < d := by nlinarith
  obtain ⟨res, A, hres, hout, _, habs, heq⟩ := dyadicToRational_spec n d B hd
  have hfb : res.found = true ∧ |res.b| = b := by
    by_cases hn : n < 0
    · obtain ⟨res2, h2, hf⟩ := partial_hegcd_complete |n| d B (-a) b (abs_nonneg n) hb hbB hdB
        (IsCoprime.neg_left hcop) (by
          have : b * |n| - -a * d = -(b * n - a * d) := by rw [abs_of_neg hn]; ring
          rw [this, abs_neg]; exact happ)
      rw [hres] at h2
      obtain rfl := Option.some.inj h2
      exact hf
    · obtain ⟨res2, h2, hf⟩ := partial_hegcd_complete |n| d B a b (abs_nonneg n) hb hbB hdB
        hcop (by rw [abs_of_nonneg (not_lt.mp hn)]; exact happ)
      rw [hres] at h2
      obtain rfl := Option.some.inj h2
      exact hf
  obtain ⟨hfound, hbeq⟩ := hfb
  obtain ⟨_, _, _, _, _, _, _, hf, _⟩ := hout
  have hwell := (hf hfound).1
  rw [hbeq] at habs heq hwell
  have hx : (if n < 0 then -A else A) * b = a * b :=
    unique_within n d B a b _ b hb hbB hdB happ hb.le hbB (by rw [habs]; exact hwell)
  have ha : (if n < 0 then -A else A) = a := mul_right_cancel₀ (ne_of_gt hb) hx
  rw [heq, ha, hfound]
  by_cases hg : b * B < d
  · simp [hg]
  · simp [hg]

/-- Every fraction `j/k` with `k > 0` has a reduced form `a/b` with `0 < b ≤ k`. -/
theorem exists_reduced (j k : Int) (hk : 0 < k) :
    ∃ a b g : Int, 0 < g ∧ j = g * a ∧ k = g * b ∧ 0 < b ∧ b ≤ k ∧ IsCoprime a b := by
  have hg0 : 0 < Int.gcd j k := Int.gcd_pos_of_ne_zero_right j (ne_of_gt hk)
  have hgpos : (0 : Int) < (Int.gcd j k : Int) := by exact_mod_cast hg0
  obtain ⟨a, ha⟩ := Int.gcd_dvd_left (a := j) (b := k)
  obtain ⟨b, hb⟩ := Int.gcd_dvd_right (a := j) (b := k)
  have hbpos : 0 < b := by
    by_contra hneg
    have : (Int.gcd j k : Int) * b ≤ 0 :=
      mul_nonpos_of_nonneg_of_nonpos hgpos.le (by omega)
    omega
  have hble : b ≤ k := by
    have : 0 ≤ ((Int.gcd j k : Int) - 1) * b := mul_nonneg (by omega) hbpos.le
    nlinarith
  refine ⟨a, b, Int.gcd j k, hgpos, ha, hb, hbpos, hble, ?_⟩
  rw [Int.isCoprime_iff_gcd_eq_one]
  have h1 : Int.gcd ((Int.gcd j k : Int) * a) ((Int.gcd j k : Int) * b) = Int.gcd j k := by
    rw [← ha, ← hb]
  rw [Int.gcd_mul_left, Int.natAbs_ofNat] at h1
  have h2 : Int.gcd j k * Int.gcd a b = Int.gcd j k * 1 := by rw [mul_one]; exact h1
  exact Nat.eq_of_mul_eq_mul_left hg0 h2

/-- The integer `roundHalfAway p q` is a nearest integer to `p/q`, for `q > 0`. -/
theorem roundHalfAway_nearest (p q : Int) (hq : 0 < q) :
    2 * |roundHalfAway p q * q - p| ≤ q := by
  unfold roundHalfAway
  have key : ∀ x : Int, 0 ≤ x → 2 * |(2 * x + q) / (2 * q) * q - x| ≤ q := by
    intro x _
    have h2q : 0 < 2 * q := by omega
    have e1 := Int.emod_add_ediv (2 * x + q) (2 * q)
    have e2 := Int.emod_nonneg (2 * x + q) (ne_of_gt h2q)
    have e3 := Int.emod_lt_of_pos (2 * x + q) h2q
    have e4 : 2 * q * ((2 * x + q) / (2 * q)) = 2 * ((2 * x + q) / (2 * q) * q) := by ring
    rw [e4] at e1
    rcases abs_cases ((2 * x + q) / (2 * q) * q - x) with ⟨h, _⟩ | ⟨h, _⟩ <;> rw [h] <;> omega
  by_cases hp : p < 0
  · rw [if_pos hp]
    have := key (-p) (by omega)
    have e : -((2 * -p + q) / (2 * q)) * q - p = -((2 * -p + q) / (2 * q) * q - -p) := by ring
    rw [e, abs_neg]; exact this
  · rw [if_neg hp]
    exact key p (by omega)

/-! ## Claims -/

/-- C1. Scalar reconstruction on `n = 13`, `d = 20`, `B = 5` returns `a = 2`, `b = 3` and
return code 2 (Guaranteed). -/
theorem C1_scenario_13_20_5 : dyadicToRational 13 20 5 = some ⟨2, 3, 2⟩ := by
  decide

/-- C10. Scalar reconstruction on `n = 13`, `d = 20`, `B = 2` returns a result whose code is
0 or is 1 with output denominator `b ≤ 2`, and which is not `(2, 3, 2)`; concretely it is
`(a, b, code) = (1, 2, 1)`. -/
theorem C10_scenario_13_20_2 :
    ∃ r, dyadicToRational 13 20 2 = some r ∧ (r.ret = 0 ∨ (r.ret = 1 ∧ r.b ≤ 2)) ∧
      r ≠ ⟨2, 3, 2⟩ ∧ r = ⟨1, 2, 1⟩ :=
  ⟨⟨1, 2, 1⟩, by decide, by decide, by decide, rfl⟩

/-- C5. Soundness of Guaranteed: for `d > 0` and `B > 0`, if the scalar `dyadicToRational`
returns 2 with outputs `(a, b)`, then `a/b` has its denominator in `1..B` and lies within
`1/(2d)` of `n/d`, and it is the only such rational: every `a'/b'` with `0 < b' ≤ B` and
`2*|b'*n - a'*d| ≤ b'` satisfies `a'*b = a*b'`. -/
theorem C5_guaranteed_sound (n d B : Int) (hd : 0 < d) (_hB : 0 < B) (r : ScalarResult)
    (h : dyadicToRational n d B = some r) (h2 : r.ret = 2) :
    (0 < r.b ∧ r.b ≤ B ∧ 2 * |r.b * n - r.a * d| ≤ r.b) ∧
      ∀ a' b' : Int, 0 < b' → b' ≤ B → 2 * |b' * n - a' * d| ≤ b' → a' * r.b = r.a * b' := by
  obtain ⟨w1, w2, w3, w4⟩ := dyadicToRational_ret_two n d B hd r h h2
  refine ⟨⟨by omega, w2, w4⟩, fun a' b' hb' hb'B happ => ?_⟩
  apply cross_eq_of_lt n d r.a r.b a' b' (by omega) hb'.le
  have p1 : r.b * (2 * |b' * n - a' * d|) ≤ r.b * b' :=
    mul_le_mul_of_nonneg_left happ (by omega)
  have p2 : b' * (2 * |r.b * n - r.a * d|) ≤ b' * r.b :=
    mul_le_mul_of_nonneg_left w4 hb'.le
  have p3 : r.b * b' ≤ r.b * B := mul_le_mul_of_nonneg_left hb'B (by omega)
  nlinarith

theorem C5_guaranteed_sound_witness :
    ((0 : Int) < 3 ∧ (3 : Int) ≤ 5 ∧ 2 * |(3 : Int) * 13 - 2 * 20| ≤ 3) ∧
      ∀ a' b' : Int, 0 < b' → b' ≤ 5 → 2 * |b' * 13 - a' * 20| ≤ b' → a' * 3 = 2 * b' :=
  C5_guaranteed_sound 13 20 5 (by decide) (by decide) ⟨2, 3, 2⟩ (by decide) rfl

/-- C6. Classification of the return code of the scalar `dyadicToRational`, with `found` the
boolean returned by `partial_hegcd (|n|, d, B)` and `b` the non-negative output denominator:
the code is 0 exactly when `b = 0` and not `found`, 2 exactly when `found` and `b*B < d`,
and 1 exactly in the remaining cases (`found` with `d ≤ b*B`, or not `found` with `b > 0`);
for `d > 0` the code is 0 exactly when `b = 0`. -/
theorem C6_classification (n d B : Int) (res : HegcdResult)
    (h : partial_hegcd |n| d B = some res) :
    ∃ r, dyadicToRational n d B = some r ∧ r.b = |res.b| ∧ 0 ≤ r.b ∧
      (r.ret = 0 ↔ (r.b = 0 ∧ res.found = false)) ∧
      (r.ret = 2 ↔ (res.found = true ∧ r.b * B < d)) ∧
      (r.ret = 1 ↔ ((res.found = true ∧ d ≤ r.b * B) ∨ (res.found = false ∧ 0 < r.b))) ∧
      (0 < d → (r.ret = 0 ↔ r.b = 0)) := by
  refine ⟨_, dyadicToRational_eq n d B res h, rfl, abs_nonneg _, ?_⟩
  have hnn : 0 ≤ |res.b| := abs_nonneg _
  have hfd : 0 < d → res.found = true → 1 ≤ |res.b| := by
    intro hd hf
    obtain ⟨res2, h2, hout⟩ := partial_hegcd_spec |n| d B (abs_nonneg n) hd
    rw [h] at h2
    obtain rfl := Option.some.inj h2
    obtain ⟨_, _, _, _, _, _, _, hfnd, _⟩ := hout
    exact (hfnd hf).2.2
  simp only
  cases hfound : res.found with
  | false =>
    by_cases hb : |res.b| > 0
    · have : |res.b| ≠ 0 := by omega
      simp [hb, this]
    · have : |res.b| = 0 := by omega
      simp [this]
  | true =>
    have hfd2 : 0 < d → |res.b| ≠ 0 := fun hd => by have := hfd hd hfound; omega
    by_cases hg : |res.b| * B < d
    · have : ¬ d ≤ |res.b| * B := by omega
      simp [hg, this]
      exact fun hd hz => hfd2 hd (by simp [hz])
    · have : d ≤ |res.b| * B := by omega
      simp [hg, this]
      exact fun hd hz => hfd2 hd (by simp [hz])

theorem C6_classification_witness :
    ∃ r, dyadicToRational 13 20 5 = some r ∧ r.b = |(-3 : Int)| ∧ 0 ≤ r.b ∧
      (r.ret = 0 ↔ (r.b = 0 ∧ true = false)) ∧
      (r.ret = 2 ↔ (true = true ∧ r.b * 5 < 20)) ∧
      (r.ret = 1 ↔ ((true = true ∧ 20 ≤ r.b * 5) ∨ (true = false ∧ 0 < r.b))) ∧
      ((0 : Int) < 20 → (r.ret = 0 ↔ r.b = 0)) :=
  C6_classification 13 20 5 ⟨true, 1, -3⟩ (by decide)

/-- C7. Whenever the scalar `dyadicToRational (n, d, B)` with `d > 0` returns 2, its outputs
`(a, b)` satisfy the guarantee margin `b*B < d` and are well approximated:
`2*|b*n - a*d| ≤ b`. -/
theorem C7_ret_two_margin (n d B : Int) (hd : 0 < d) (r : ScalarResult)
    (h : dyadicToRational n d B = some r) (h2 : r.ret = 2) :
    r.b * B < d ∧ 2 * |r.b * n - r.a * d| ≤ r.b := by
  obtain ⟨_, _, w3, w4⟩ := dyadicToRational_ret_two n d B hd r h h2
  exact ⟨w3, w4⟩

theorem C7_ret_two_margin_witness :
    (3 : Int) * 5 < 20 ∧ 2 * |(3 : Int) * 13 - 2 * 20| ≤ 3 :=
  C7_ret_two_margin 13 20 5 (by decide) ⟨2, 3, 2⟩ (by decide) rfl

/-- C8, counterexample. On `n = 2`, `d = 5`, `B = 2` the scalar `dyadicToRational` returns 2
with `(a, b) = (1, 2)`, for which `2*|b*n - a*d| = 2 = b`: the strict inequality fails. -/
theorem C8_strict_counterexample :
    dyadicToRational 2 5 2 = some ⟨1, 2, 2⟩ ∧ ¬ (2 * |(2 : Int) * 2 - 1 * 5| < 2) := by
  decide

/-- C8, amended. For `d > 0`, a pair returned as found by `partial_hegcd (|n|, d, B)` has
`2*e ≤ |b|` (not strict), and when the scalar `dyadicToRational` returns 2 its outputs
satisfy `2*|b*n - a*d| ≤ b`, i.e. `|a/b - n/d| ≤ 1/(2d)`, where equality can occur. -/
theorem C8_nonstrict_approximation (n d B : Int) (hd : 0 < d) :
    ∃ res r, partial_hegcd |n| d B = some res ∧ dyadicToRational n d B = some r ∧
      (res.found = true → 2 * res.e ≤ |res.b|) ∧
      (r.ret = 2 → 2 * |r.b * n - r.a * d| ≤ r.b) := by
  obtain ⟨res, A, hres, hout, _, _, heq⟩ := dyadicToRational_spec n d B hd
  obtain ⟨_, _, _, _, _, _, _, hf, _⟩ := hout
  exact ⟨res, _, hres, heq, fun h => (hf h).1,
    fun h2 => (dyadicToRational_ret_two n d B hd _ heq h2).2.2.2⟩

theorem C8_nonstrict_approximation_witness :
    (0 : Int) < 5 ∧ ∃ res r, partial_hegcd |2| 5 2 = some res ∧
      dyadicToRational 2 5 2 = some r ∧
      (res.found = true → 2 * res.e ≤ |res.b|) ∧
      (r.ret = 2 → 2 * |r.b * 2 - r.a * 5| ≤ r.b) :=
  ⟨by decide, C8_nonstrict_approximation 2 5 2 (by decide)⟩

/-- C9. For every integer `n` and all `d > 0`, `B ≥ 1`, the scalar `dyadicToRational` returns
and its output denominator satisfies `0 < b ≤ B`; so it never returns 2 with a denominator
larger than `B`. -/
theorem C9_denominator_in_bound (n d B : Int) (hd : 0 < d) (hB : 1 ≤ B) :
    ∃ r, dyadicToRational n d B = some r ∧ 0 < r.b ∧ r.b ≤ B ∧ ¬ (r.ret = 2 ∧ B < r.b) := by
  obtain ⟨res, A, _, hout, _, _, heq⟩ := dyadicToRational_spec n d B hd
  obtain ⟨_, _, _, _, _, _, _, hf, hnf⟩ := hout
  refine ⟨_, heq, ?_⟩
  simp only
  have key : 1 ≤ |res.b| ∧ |res.b| ≤ B := by
    cases hfound : res.found with
    | true => exact ⟨(hf hfound).2.2, (hf hfound).2.1⟩
    | false =>
      rcases hnf hfound with ⟨_, _, hlt⟩ | ⟨g1, g2, _⟩
      · omega
      · exact ⟨g1, g2⟩
  exact ⟨by omega, key.2, fun hc => by omega⟩

theorem C9_denominator_in_bound_witness :
    (0 : Int) < 20 ∧ (1 : Int) ≤ 2 ∧
      ∃ r, dyadicToRational 13 20 2 = some r ∧ 0 < r.b ∧ r.b ≤ 2 ∧ ¬ (r.ret = 2 ∧ 2 < r.b) :=
  ⟨by decide, by decide, C9_denominator_in_bound 13 20 2 (by decide) (by decide)⟩

/-- C2, counterexample. For `a/b = 1/2`, `B = 2` and `d = b*B = 4` (equality), the rounded
numerator is `n = 2` and the scalar `dyadicToRational` outputs `(1, 2)` with return code 1,
not 2. -/
theorem C2_boundary_counterexample :
    (Int.gcd 1 2 = 1 ∧ (0 : Int) < 2 ∧ (2 : Int) ≤ 2 ∧ (2 : Int) * 2 ≤ 4) ∧
      roundHalfAway (1 * 4) 2 = 2 ∧
      dyadicToRational (roundHalfAway (1 * 4) 2) 4 2 = some ⟨1, 2, 1⟩ ∧
      dyadicToRational (roundHalfAway (1 * 4) 2) 4 2 ≠ some ⟨1, 2, 2⟩ := by
  decide

/-- C2, amended. For all coprime integers `a`, `b` with `0 < b ≤ B` and every `d ≥ b*B`,
with `n = round(a*d/b)` (ties away from zero), the scalar `dyadicToRational (n, d, B)`
outputs exactly `(a, b)`; the return code is 2 (Guaranteed) when `d > b*B` and 1 when
`d = b*B`. -/
theorem C2_round_trip (a b B d : Int) (hcop : Int.gcd a b = 1) (hb : 0 < b) (hbB : b ≤ B)
    (hdB : b * B ≤ d) :
    dyadicToRational (roundHalfAway (a * d) b) d B
      = some ⟨a, b, if b * B < d then 2 else 1⟩ := by
  apply dyadicToRational_complete _ d B a b hb hbB hdB
    (Int.isCoprime_iff_gcd_eq_one.mpr hcop)
  rw [mul_comm b]
  exact roundHalfAway_nearest (a * d) b hb

theorem C2_round_trip_witness :
    dyadicToRational (roundHalfAway (2 * 20) 3) 20 5
      = some ⟨2, 3, if (3 : Int) * 5 < 20 then 2 else 1⟩ :=
  C2_round_trip 2 3 5 20 (by decide) (by decide) (by decide) (by decide)

/-- C3. Round trip with a strict margin: for all integers `a`, `b` with `gcd(a, b) = 1`,
`0 < b ≤ B` and `b*B < d`, and every integer `n` nearest to `a*d/b`
(`2*|n*b - a*d| ≤ b`), the scalar `dyadicToRational (n, d, B)` returns 2 and outputs exactly
`(a, b)`. Family of the third test: for every `k ≥ 1` and `-(k+2) ≤ j ≤ k+1`, with
`d = k*k + 2*k`, `B = k+1` and `n = j*(k+2)`, the return value is 2 and `a*k = j*b`. -/
theorem C3_round_trip_strict :
    (∀ n d B a b : Int, Int.gcd a b = 1 → 0 < b → b ≤ B → b * B < d →
        2 * |n * b - a * d| ≤ b → dyadicToRational n d B = some ⟨a, b, 2⟩) ∧
    (∀ k j : Int, 1 ≤ k → -(k + 2) ≤ j → j ≤ k + 1 →
        ∃ r, dyadicToRational (j * (k + 2)) (k * k + 2 * k) (k + 1) = some r ∧
          r.ret = 2 ∧ r.a * k = j * r.b) := by
  have main : ∀ n d B a b : Int, Int.gcd a b = 1 → 0 < b → b ≤ B → b * B < d →
      2 * |n * b - a * d| ≤ b → dyadicToRational n d B = some ⟨a, b, 2⟩ := by
    intro n d B a b hcop hb hbB hlt happ
    have h := dyadicToRational_complete n d B a b hb hbB hlt.le
      (Int.isCoprime_iff_gcd_eq_one.mpr hcop) (by rw [mul_comm b]; exact happ)
    rw [if_pos hlt] at h
    exact h
  refine ⟨main, ?_⟩
  intro k j hk _ _
  obtain ⟨a, b, g, hg, hj, hkb, hb, hbk, hcop⟩ := exists_reduced j k (by omega)
  have hlt : b * (k + 1) < k * k + 2 * k := by nlinarith
  have hres : j * (k + 2) * b - a * (k * k + 2 * k) = 0 := by
    rw [hj]
    have : g * a * (k + 2) * b - a * (k * k + 2 * k) = a * (k + 2) * (g * b - k) := by ring
    rw [this, ← hkb]; ring
  refine ⟨⟨a, b, 2⟩, main _ _ _ a b (Int.isCoprime_iff_gcd_eq_one.mp hcop) hb (by omega) hlt
    (by rw [hres]; simpa using hb.le), rfl, ?_⟩
  show a * k = j * b
  rw [hj]
  conv_lhs => rw [hkb]
  ring

theorem C3_round_trip_strict_witness :
    dyadicToRational 13 20 5 = some ⟨2, 3, 2⟩ ∧
      ∃ r, dyadicToRational (2 * (3 + 2)) (3 * 3 + 2 * 3) (3 + 1) = some r ∧
        r.ret = 2 ∧ r.a * 3 = 2 * r.b :=
  ⟨C3_round_trip_strict.1 13 20 5 2 3 (by decide) (by decide) (by decide) (by decide)
      (by decide),
    C3_round_trip_strict.2 3 2 (by decide) (by decide) (by decide)⟩

/-- C4. Value correctness up to and including the boundary `d = b*B`: if `a/b` is in lowest
terms with `0 < b ≤ B`, `d ≥ b*B`, and `n` is an integer nearest to `a*d/b`
(`2*|n*b - a*d| ≤ b`), the scalar `dyadicToRational (n, d, B)` returns a nonzero code and
outputs exactly `(a, b)`. Family of the first test: for every `k ≥ 1` and
`-(k+2) ≤ j ≤ k+1`, with `d = k*k`, `B = k` and `n = j*k`, the return value is positive and
`a*k = j*b`. -/
theorem C4_value_at_boundary :
    (∀ n d B a b : Int, Int.gcd a b = 1 → 0 < b → b ≤ B → b * B ≤ d →
        2 * |n * b - a * d| ≤ b →
        ∃ r, dyadicToRational n d B = some r ∧ r.ret ≠ 0 ∧ r.a = a ∧ r.b = b) ∧
    (∀ k j : Int, 1 ≤ k → -(k + 2) ≤ j → j ≤ k + 1 →
        ∃ r, dyadicToRational (j * k) (k * k) k = some r ∧ 0 < r.ret ∧ r.a * k = j * r.b) := by
  have main : ∀ n d B a b : Int, Int.gcd a b = 1 → 0 < b → b ≤ B → b * B ≤ d →
      2 * |n * b - a * d| ≤ b →
      ∃ r, dyadicToRational n d B = some r ∧ 0 < r.ret ∧ r.a = a ∧ r.b = b := by
    intro n d B a b hcop hb hbB hdB happ
    refine ⟨_, dyadicToRational_complete n d B a b hb hbB hdB
      (Int.isCoprime_iff_gcd_eq_one.mpr hcop) (by rw [mul_comm b]; exact happ), ?_, rfl, rfl⟩
    show (0 : Int) < if b * B < d then 2 else 1
    split_ifs <;> decide
  refine ⟨fun n d B a b h1 h2 h3 h4 h5 => ?_, ?_⟩
  · obtain ⟨r, hr, hpos, ha, hb⟩ := main n d B a b h1 h2 h3 h4 h5
    exact ⟨r, hr, by omega, ha, hb⟩
  intro k j hk _ _
  obtain ⟨a, b, g, hg, hj, hkb, hb, hbk, hcop⟩ := exists_reduced j k (by omega)
  have hle : b * k ≤ k * k := mul_le_mul_of_nonneg_right hbk (by omega)
  have hres : j * k * b - a * (k * k) = 0 := by
    rw [hj]
    have : g * a * k * b - a * (k * k) = a * k * (g * b - k) := by ring
    rw [this, ← hkb]; ring
  obtain ⟨r, hr, hpos, ha, hbr⟩ := main (j * k) (k * k) k a b
    (Int.isCoprime_iff_gcd_eq_one.mp hcop) hb hbk hle (by rw [hres]; simpa using hb.le)
  refine ⟨r, hr, hpos, ?_⟩
  rw [ha, hbr, hj]
  conv_lhs => rw [hkb]
  ring

theorem C4_value_at_boundary_witness :
    (∃ r, dyadicToRational 2 4 2 = some r ∧ r.ret ≠ 0 ∧ r.a = 1 ∧ r.b = 2) ∧
      ∃ r, dyadicToRational (1 * 2) (2 * 2) 2 = some r ∧ 0 < r.ret ∧ r.a * 2 = 1 * r.b :=
  ⟨C4_value_at_boundary.1 2 4 2 1 2 (by decide) (by decide) (by decide) (by decide)
      (by decide),
    C4_value_at_boundary.2 2 1 (by decide) (by decide) (by decide)⟩

/-! ## The vector routine: final pass and agreement with the eager variant -/

theorem fixRange_getElem? (t : Int) (j : Nat) :
    ∀ (k : Nat) (num : List Int) (m : Nat),
      (fixRange t j k num)[m]? = (num[m]?).map (fun a => if j ≤ m ∧ m < k then a * t else a) := by
  intro k
  induction k with
  | zero => intro num m; simp [fixRange]
  | succ k ih =>
    intro num m
    unfold fixRange
    by_cases hjk : j ≤ k
    · rw [if_pos hjk, ih, List.getElem?_modify]
      cases num[m]? with
      | none => simp
      | some a =>
        simp only [Option.map_some', Option.map_eq_map]
        by_cases h1 : k = m
        · subst h1
          simp [hjk]
        · by_cases h2 : j ≤ m ∧ m < k
          · have : j ≤ m ∧ m < k + 1 := ⟨h2.1, by omega⟩
            simp [h1, h2, this]
          · have : ¬ (j ≤ m ∧ m < k + 1) := by omega
            simp [h1, h2, this]
    · rw [if_neg hjk]
      cases num[m]? with
      | none => simp
      | some a =>
        have : ¬ (j ≤ m ∧ m < k + 1) := by omega
        simp [this]

theorem pend_eq_one_of_le : ∀ (S : List (Nat × Int)) (n idx : Nat),
    StackOK S n → n ≤ idx → pend S idx = 1 := by
  intro S
  induction S with
  | nil => intro n idx h; exact absurd h (by simp [StackOK])
  | cons p S ih =>
    intro n idx h hle
    cases S with
    | nil =>
      simp only [StackOK] at h
      simp [pend, h]
    | cons q S =>
      simp only [StackOK] at h
      have h1 : ¬ idx < p.1 := by omega
      have := ih p.1 idx h.2 (by omega)
      simp only [pend] at this ⊢
      rw [if_neg h1, this]; ring

theorem StackOK.mono : ∀ (S : List (Nat × Int)) (n m : Nat), StackOK S n → n ≤ m → StackOK S m := by
  intro S n m h hle
  match S, h with
  | [p], h => exact h
  | p :: q :: S, h => exact ⟨le_trans h.1 hle, h.2⟩

/-- The final pass multiplies the entry of index `idx` below the top boundary by `t` times
its pending factor. -/
theorem fixShorties_getElem? : ∀ (S : List (Nat × Int)) (n : Nat) (t : Int) (num : List Int)
    (idx : Nat), StackOK S n →
    (fixShorties S t num)[idx]? = (num[idx]?).map (fun a => a * (if idx < (S.headD (0, 1)).1 then t * pend S idx else 1)) := by
  intro S
  induction S with
  | nil => intro n t num idx h; exact absurd h (by simp [StackOK])
  | cons p S ih =>
    intro n t num idx h
    cases S with
    | nil =>
      simp only [StackOK] at h
      simp [fixShorties, h]
    | cons q S =>
      simp only [StackOK] at h
      obtain ⟨_, hS⟩ := h
      have hq : q.1 ≤ p.1 := by
        cases S with
        | nil => simp only [StackOK] at hS; omega
        | cons r S => exact hS.1
      rw [fixShorties, ih p.1 (t * p.2) _ idx hS, fixRange_getElem?]
      cases num[idx]? with
      | none => simp
      | some a =>
        simp only [Option.map_some', List.headD_cons]
        congr 1
        by_cases h1 : idx < q.1
        · have h2 : idx < p.1 := by omega
          have h3 : ¬ (q.1 ≤ idx ∧ idx < p.1) := by omega
          rw [if_neg h3, if_pos h1, if_pos h2]
          simp only [pend, if_pos h1, if_pos h2]
          ring
        · by_cases h2 : idx < p.1
          · have h3 : q.1 ≤ idx ∧ idx < p.1 := ⟨by omega, h2⟩
            have h5 := pend_eq_one_of_le (q :: S) q.1 idx (by
              cases S with
              | nil => exact hS
              | cons r S => exact ⟨le_refl _, hS.2⟩) (by omega)
            rw [if_pos h3, if_neg h1, if_pos h2]
            simp only [pend] at h5 ⊢
            rw [if_pos h2, h5]; ring
          · have h3 : ¬ (q.1 ≤ idx ∧ idx < p.1) := by omega
            rw [if_neg h3, if_neg h1, if_neg h2]

theorem StackOK.top : ∀ (S : List (Nat × Int)) (n : Nat), StackOK S n →
    StackOK S (S.headD (0, 1)).1 := by
  intro S n h
  match S, h with
  | [p], h => exact h
  | p :: q :: S, h => exact ⟨le_refl _, h.2⟩

theorem StackOK.push (S : List (Nat × Int)) (n : Nat) (m : Int) (h : StackOK S n) :
    StackOK ((n, m) :: S) (n + 1) := by
  match S, h with
  | [p], h => exact ⟨by simp, h⟩
  | p :: q :: S, h => exact ⟨by simp, h⟩

theorem rescaleFrom_getElem? (S : List (Nat × Int)) : ∀ (l : List Int) (i k : Nat),
    (rescaleFrom S i l)[k]? = (l[k]?).map (fun a => a * pend S (i + k)) := by
  intro l
  induction l with
  | nil => intro i k; simp [rescaleFrom]
  | cons a l ih =>
    intro i k
    cases k with
    | zero => simp [rescaleFrom]
    | succ k =>
      simp only [rescaleFrom, List.getElem?_cons_succ, ih]
      have : i + 1 + k = i + (k + 1) := by omega
      rw [this]

theorem rescaleFrom_length (S : List (Nat × Int)) : ∀ (l : List Int) (i : Nat),
    (rescaleFrom S i l).length = l.length := by
  intro l
  induction l with
  | nil => intro i; simp [rescaleFrom]
  | cons a l ih => intro i; simp [rescaleFrom, ih]

/-- The final pass computes the rescaling by the pending factors. -/
theorem fixShorties_eq_rescaleFrom (S : List (Nat × Int)) (n : Nat) (num : List Int)
    (h : StackOK S n) : fixShorties S 1 num = rescaleFrom S 0 num := by
  apply List.ext_getElem?
  intro idx
  rw [fixShorties_getElem? S n 1 num idx h, rescaleFrom_getElem?]
  cases num[idx]? with
  | none => simp
  | some a =>
    simp only [Option.map_some', zero_add]
    congr 1
    by_cases h1 : idx < (S.headD (0, 1)).1
    · rw [if_pos h1]; ring_nf
    · rw [if_neg h1, pend_eq_one_of_le S _ idx (StackOK.top S n h) (by omega)]

theorem rescaleFrom_push (S : List (Nat × Int)) (n : Nat) (m : Int) (l : List Int)
    (hl : l.length ≤ n) :
    rescaleFrom ((n, m) :: S) 0 l = (rescaleFrom S 0 l).map (· * m) := by
  apply List.ext_getElem?
  intro idx
  rw [rescaleFrom_getElem?, List.getElem?_map, rescaleFrom_getElem?]
  by_cases hi : idx < l.length
  · rw [List.getElem?_eq_getElem hi]
    simp only [Option.map_some', zero_add, pend]
    have : idx < n := by omega
    simp only [this, if_true]
    congr 1; ring
  · rw [List.getElem?_eq_none (by omega)]; simp

theorem rescaleFrom_snoc (S : List (Nat × Int)) (l : List Int) (a : Int)
    (hp : pend S l.length = 1) :
    rescaleFrom S 0 (l ++ [a]) = rescaleFrom S 0 l ++ [a] := by
  apply List.ext_getElem?
  intro idx
  rw [rescaleFrom_getElem?]
  rcases lt_trichotomy idx l.length with hi | hi | hi
  · rw [List.getElem?_append_left hi,
      List.getElem?_append_left (by rw [rescaleFrom_length]; exact hi), rescaleFrom_getElem?]
  · subst hi
    rw [List.getElem?_append_right (le_refl _),
      List.getElem?_append_right (by rw [rescaleFrom_length])]
    simp [rescaleFrom_length, hp]
  · rw [List.getElem?_eq_none (by simp; omega),
      List.getElem?_eq_none (by simp [rescaleFrom_length]; omega)]
    simp

/-- A failed state is kept by the remaining coordinates of the eager variant. -/
theorem foldlM_eagerStep_failed (denx B denx2 : Int) : ∀ (xs : List Int) (st : VectorResult),
    st.ret = 0 → xs.foldlM (eagerStep denx B denx2) st = some st := by
  intro xs
  induction xs with
  | nil => intro st _; rfl
  | cons x xs ih =>
    intro st h
    rw [List.foldlM_cons]
    have : eagerStep denx B denx2 st x = some st := by simp [eagerStep, h]
    rw [this]
    exact ih st h

/-- The vector routine, started from any state of its loop, agrees with the eager variant
started from the state whose numerators are already rescaled by their pending factors and
run on the coordinates of `numx` that the loop reads. -/
theorem vectorLoop_agree (denx B denx2 : Int) :
    ∀ (rest numx done : List Int) (den : Int) (S : List (Nat × Int)) (ret : Int),
      rest.length ≤ numx.length → StackOK S done.length → ret ≠ 0 →
      Agree (vectorLoop denx B denx2 rest numx done den S ret)
        ((numx.take rest.length).foldlM (eagerStep denx B denx2)
          ⟨rescaleFrom S 0 done, den, ret⟩) := by
  intro rest
  induction rest with
  | nil =>
    intro numx done den S ret hlen hS hret
    simp only [vectorLoop, List.length_nil, List.take_zero, List.foldlM_nil]
    exact ⟨rfl, rfl, fun _ => fixShorties_eq_rescaleFrom S _ done hS⟩
  | cons r0 rest ih =>
    intro numx done den S ret hlen hS hret
    cases numx with
    | nil => simp at hlen
    | cons x xs =>
      have hlen2 : rest.length ≤ xs.length := by simpa using hlen
      rw [List.length_cons, List.take_succ_cons, List.foldlM_cons]
      simp only [vectorLoop, eagerStep, if_neg hret]
      by_cases hd : denx = 0
      · simp [hd, Agree]
      simp only [if_neg hd]
      by_cases hrej : 2 * |(balancedQuoRem |x| den denx denx2).2| > den
      · simp only [if_pos hrej]
        cases hsc : dyadicToRational |x| denx B with
        | none => simp [Agree]
        | some r =>
          simp only
          by_cases hr0 : r.ret = 0
          · simp only [if_pos hr0, Option.some_bind, Option.bind_eq_bind]
            rw [foldlM_eagerStep_failed _ _ _ _ _ rfl]
            exact ⟨rfl, rfl, fun h => absurd rfl h⟩
          simp only [if_neg hr0]
          by_cases hz : r.b = 0 ∨ den = 0
          · simp [hz, Agree]
          simp only [if_neg hz]
          by_cases hB : (Int.lcm r.b den : Int) > B
          · simp only [if_pos hB, Option.some_bind, Option.bind_eq_bind]
            rw [foldlM_eagerStep_failed _ _ _ _ _ rfl]
            exact ⟨rfl, rfl, fun h => absurd rfl h⟩
          simp only [if_neg hB, Option.some_bind, Option.bind_eq_bind]
          have hret2 : (if r.ret = 1 then 1 else ret) ≠ 0 := by
            split_ifs <;> [decide; exact hret]
          have := ih xs (done ++ [if x < 0 then -(r.a * Int.tdiv (Int.lcm r.b den) r.b)
              else r.a * Int.tdiv (Int.lcm r.b den) r.b]) (Int.lcm r.b den)
            ((done.length, Int.tdiv (Int.lcm r.b den) den) :: S) _ hlen2
            (by rw [List.length_append]; exact StackOK.push S _ _ hS) hret2
          rw [rescaleFrom_snoc _ _ _ (by
              simp only [pend, lt_irrefl, if_false, one_mul]
              exact pend_eq_one_of_le S _ _ hS (le_refl _)),
            rescaleFrom_push S _ _ _ (le_refl _)] at this
          exact this
      · simp only [if_neg hrej, Option.some_bind, Option.bind_eq_bind]
        have := ih xs (done ++ [if x < 0 then -(balancedQuoRem |x| den denx denx2).1
            else (balancedQuoRem |x| den denx denx2).1]) den S ret hlen2
          (StackOK.mono S _ _ hS (by simp)) hret
        rw [rescaleFrom_snoc S done _ (pend_eq_one_of_le S _ _ hS (le_refl _))] at this
        exact this

/-- When `numx` is shorter than `num` the loop cannot complete: a result, if any, is a
failure. -/
theorem vectorLoop_short (denx B denx2 : Int) :
    ∀ (rest numx done : List Int) (den : Int) (S : List (Nat × Int)) (ret : Int)
      (r : VectorResult), numx.length < rest.length →
      vectorLoop denx B denx2 rest numx done den S ret = some r → r.ret = 0 := by
  intro rest
  induction rest with
  | nil => intro numx done den S ret r hlen; simp at hlen
  | cons r0 rest ih =>
    intro numx done den S ret r hlen h
    cases numx with
    | nil => simp [vectorLoop] at h
    | cons x xs =>
      have hlen2 : xs.length < rest.length := by simpa using hlen
      simp only [vectorLoop] at h
      by_cases hd : denx = 0
      · simp [hd] at h
      simp only [if_neg hd] at h
      by_cases hrej : 2 * |(balancedQuoRem |x| den denx denx2).2| > den
      · simp only [if_pos hrej] at h
        cases hsc : dyadicToRational |x| denx B with
        | none => rw [hsc] at h; simp at h
        | some s =>
          rw [hsc] at h
          simp only at h
          by_cases hr0 : s.ret = 0
          · simp only [if_pos hr0] at h
            rw [← Option.some.inj h]
          simp only [if_neg hr0] at h
          by_cases hz : s.b = 0 ∨ den = 0
          · simp [hz] at h
          simp only [if_neg hz] at h
          by_cases hB : (Int.lcm s.b den : Int) > B
          · simp only [if_pos hB] at h
            rw [← Option.some.inj h]
          simp only [if_neg hB] at h
          exact ih _ _ _ _ _ r hlen2 h
      · simp only [if_neg hrej] at h
        exact ih _ _ _ _ _ r hlen2 h

/-- The vector routine agrees with the eager variant run on the first `num.length`
coordinates, when `numx` is at least as long as `num`. -/
theorem vector_agree_eager (num numx : List Int) (denx B : Int)
    (hlen : num.length ≤ numx.length) :
    Agree (dyadicToRationalVector num numx denx B)
      (dyadicToRationalVectorEager (numx.take num.length) denx B) := by
  have := vectorLoop_agree denx B (Int.tdiv denx 2) num numx [] 1 [(0, 1)] 2 hlen
    (by simp [StackOK]) (by decide)
  simpa [rescaleFrom] using this

/-- A result of the vector routine that is not a failure is the result of the eager variant
on the first `num.length` coordinates, and `numx` is at least as long as `num`. -/
theorem vector_eq_eager_of_ne_zero (num numx : List Int) (denx B : Int) (r : VectorResult)
    (h : dyadicToRationalVector num numx denx B = some r) (hret : r.ret ≠ 0) :
    num.length ≤ numx.length ∧
      dyadicToRationalVectorEager (numx.take num.length) denx B = some r := by
  have hlen : num.length ≤ numx.length := by
    by_contra hlt
    exact hret (vectorLoop_short denx B _ num numx [] 1 [(0, 1)] 2 r (by omega) h)
  refine ⟨hlen, ?_⟩
  have hag := vector_agree_eager num numx denx B hlen
  rw [h] at hag
  cases he : dyadicToRationalVectorEager (numx.take num.length) denx B with
  | none => rw [he] at hag; exact absurd hag (by simp [Agree])
  | some b =>
    rw [he] at hag
    obtain ⟨h1, h2, h3⟩ := hag
    have h4 := h3 hret
    cases r; cases b
    simp only at h1 h2 h4
    simp [h1, h2, h4]

/-- A result of the eager variant that is not a failure is the result of the vector
routine, when `numx` has the length of `num`. -/
theorem vector_eq_of_eager_ne_zero (num numx : List Int) (denx B : Int) (r : VectorResult)
    (hlen : num.length = numx.length)
    (h : dyadicToRationalVectorEager numx denx B = some r) (hret : r.ret ≠ 0) :
    dyadicToRationalVector num numx denx B = some r := by
  have hag := vector_agree_eager num numx denx B hlen.le
  rw [hlen, List.take_length, h] at hag
  cases he : dyadicToRationalVector num numx denx B with
  | none => rw [he] at hag; exact absurd hag (by simp [Agree])
  | some a =>
    rw [he] at hag
    obtain ⟨h1, h2, h3⟩ := hag
    have h4 := h3 (by rw [h2]; exact hret)
    cases r; cases a
    simp only at h1 h2 h4
    simp [h1, h2, h4]

/-- Facts about the result of the scalar routine for `d > 0`. -/
theorem dyadicToRational_facts (n d B : Int) (hd : 0 < d) :
    ∃ s res, dyadicToRational n d B = some s ∧ partial_hegcd |n| d B = some res ∧
      0 ≤ s.b ∧ (s.ret = 0 ∨ s.ret = 1 ∨ s.ret = 2) ∧ (s.ret ≠ 0 → 0 < s.b) ∧
      (0 ≤ n → 0 ≤ s.a) ∧ (s.ret = 2 → res.found = true) ∧
      (res.found = true → 2 * |s.b * n - s.a * d| ≤ s.b) := by
  obtain ⟨res, A, hres, hout, hA, habs, heq⟩ := dyadicToRational_spec n d B hd
  obtain ⟨_, _, _, _, _, _, _, hf, hnf⟩ := hout
  refine ⟨_, res, heq, hres, abs_nonneg _, ?_, ?_, ?_, ?_, ?_⟩
  · simp only
    split_ifs <;> simp
  · simp only
    cases hfound : res.found with
    | true =>
      intro _
      have := (hf hfound).2.2
      omega
    | false =>
      by_cases hb : |res.b| > 0
      · intro _; exact hb
      · simp [hb]
  · intro hn
    simp only
    rw [if_neg (not_lt.mpr hn)]; exact hA
  · simp only
    cases hfound : res.found with
    | true => simp
    | false =>
      by_cases hb : |res.b| > 0 <;> simp [hb]
  · intro hfound
    simp only
    rw [habs]; exact (hf hfound).1

/-- Case analysis of one coordinate of the eager variant from a state that has not failed,
for `denx > 0` and a positive current denominator. -/
theorem eagerStep_cases (denx B denx2 : Int) (hd : 0 < denx) (st : VectorResult) (x : Int)
    (hret : st.ret ≠ 0) (hden : 0 < st.den) :
    (¬ 2 * |(balancedQuoRem |x| st.den denx denx2).2| > st.den ∧
      eagerStep denx B denx2 st x = some
        ⟨st.num ++ [if x < 0 then -(balancedQuoRem |x| st.den denx denx2).1
          else (balancedQuoRem |x| st.den denx denx2).1], st.den, st.ret⟩) ∨
    (2 * |(balancedQuoRem |x| st.den denx denx2).2| > st.den ∧
      ∃ s, dyadicToRational |x| denx B = some s ∧
        ((s.ret = 0 ∧ eagerStep denx B denx2 st x = some ⟨st.num, st.den, 0⟩) ∨
         (s.ret ≠ 0 ∧ 0 < s.b ∧ (Int.lcm s.b st.den : Int) > B ∧
            eagerStep denx B denx2 st x = some ⟨st.num, Int.lcm s.b st.den, 0⟩) ∨
         (s.ret ≠ 0 ∧ 0 < s.b ∧ (Int.lcm s.b st.den : Int) ≤ B ∧
            eagerStep denx B denx2 st x = some
              ⟨st.num.map (· * ((Int.lcm s.b st.den : Int) / st.den)) ++
                [if x < 0 then -(s.a * ((Int.lcm s.b st.den : Int) / s.b))
                  else s.a * ((Int.lcm s.b st.den : Int) / s.b)],
               Int.lcm s.b st.den, if s.ret = 1 then 1 else st.ret⟩))) := by
  have hd0 : denx ≠ 0 := by omega
  by_cases hrej : 2 * |(balancedQuoRem |x| st.den denx denx2).2| > st.den
  · right
    refine ⟨hrej, ?_⟩
    obtain ⟨s, res, hs, _, hb0, _, hbpos, _, _, _⟩ := dyadicToRational_facts |x| denx B hd
    refine ⟨s, hs, ?_⟩
    by_cases hr0 : s.ret = 0
    · left
      refine ⟨hr0, ?_⟩
      simp [eagerStep, hret, hd0, hrej, hs, hr0]
    · right
      have hb := hbpos hr0
      have hz : ¬ (s.b = 0 ∨ st.den = 0) := by omega
      have hl : (0 : Int) ≤ (Int.lcm s.b st.den : Int) := Int.ofNat_nonneg _
      have e1 : Int.tdiv (Int.lcm s.b st.den : Int) st.den = (Int.lcm s.b st.den : Int) / st.den :=
        Int.tdiv_eq_ediv hl hden.le
      have e2 : Int.tdiv (Int.lcm s.b st.den : Int) s.b = (Int.lcm s.b st.den : Int) / s.b :=
        Int.tdiv_eq_ediv hl hb.le
      by_cases hB : (Int.lcm s.b st.den : Int) > B
      · left
        refine ⟨hr0, hb, hB, ?_⟩
        simp [eagerStep, hret, hd0, hrej, hs, hr0, hz, hB]
      · right
        refine ⟨hr0, hb, not_lt.mp hB, ?_⟩
        simp only [eagerStep, if_neg hret, if_neg hd0, if_pos hrej, hs, if_neg hr0, if_neg hz,
          if_neg hB, e1, e2]
  · left
    refine ⟨hrej, ?_⟩
    simp only [eagerStep, if_neg hret, if_neg hd0, if_neg hrej]

/-! ## States reached by the eager variant -/

theorem eager_append (xs ys : List Int) (denx B : Int) :
    dyadicToRationalVectorEager (xs ++ ys) denx B =
      (dyadicToRationalVectorEager xs denx B).bind
        (fun st => ys.foldlM (eagerStep denx B (Int.tdiv denx 2)) st) := by
  unfold dyadicToRationalVectorEager
  rw [List.foldlM_append]
  rfl

theorem eager_take_succ (xs : List Int) (denx B : Int) (i : Nat) (hi : i < xs.length) :
    dyadicToRationalVectorEager (xs.take (i + 1)) denx B =
      (dyadicToRationalVectorEager (xs.take i) denx B).bind
        (fun st => eagerStep denx B (Int.tdiv denx 2) st (xs.get ⟨i, hi⟩)) := by
  have : xs.take (i + 1) = xs.take i ++ [xs.get ⟨i, hi⟩] := by
    rw [List.take_succ, List.getElem?_eq_getElem hi]
    rfl
  rw [this, eager_append]
  congr 1
  funext st
  simp [List.foldlM_cons, List.foldlM_nil]

/-- The eager variant on the whole input continues its run on a prefix. -/
theorem eager_of_take (xs : List Int) (denx B : Int) (i : Nat) :
    dyadicToRationalVectorEager xs denx B =
      (dyadicToRationalVectorEager (xs.take i) denx B).bind
        (fun st => (xs.drop i).foldlM (eagerStep denx B (Int.tdiv denx 2)) st) := by
  conv_lhs => rw [← List.take_append_drop i xs]
  exact eager_append _ _ _ _

/-- A failure on a prefix is the result on the whole input. -/
theorem eager_failed_of_take (xs : List Int) (denx B : Int) (i : Nat) (st : VectorResult)
    (h : dyadicToRationalVectorEager (xs.take i) denx B = some st) (h0 : st.ret = 0) :
    dyadicToRationalVectorEager xs denx B = some st := by
  rw [eager_of_take xs denx B i, h]
  exact foldlM_eagerStep_failed _ _ _ _ _ h0

/-- When the eager variant does not fail, it has not failed on any prefix. -/
theorem eager_take_ne_zero (xs : List Int) (denx B : Int) (r : VectorResult)
    (h : dyadicToRationalVectorEager xs denx B = some r) (hret : r.ret ≠ 0) (i : Nat) :
    ∃ st, dyadicToRationalVectorEager (xs.take i) denx B = some st ∧ st.ret ≠ 0 := by
  cases hp : dyadicToRationalVectorEager (xs.take i) denx B with
  | none =>
    rw [eager_of_take xs denx B i, hp] at h
    simp at h
  | some st =>
    refine ⟨st, rfl, fun h0 => ?_⟩
    rw [eager_failed_of_take xs denx B i st hp h0] at h
    rw [← Option.some.inj h] at hret
    exact hret h0

/-- Induction over the states reached by the eager variant without failure. -/
theorem eager_induction (xs : List Int) (denx B : Int) (P : Nat → VectorResult → Prop)
    (h0 : P 0 ⟨[], 1, 2⟩)
    (hstep : ∀ (i : Nat) (hi : i < xs.length) (st st' : VectorResult),
      dyadicToRationalVectorEager (xs.take i) denx B = some st → st.ret ≠ 0 → P i st →
      eagerStep denx B (Int.tdiv denx 2) st (xs.get ⟨i, hi⟩) = some st' → st'.ret ≠ 0 →
      P (i + 1) st') :
    ∀ (i : Nat), i ≤ xs.length → ∀ st, dyadicToRationalVectorEager (xs.take i) denx B = some st →
      st.ret ≠ 0 → P i st := by
  intro i
  induction i with
  | zero =>
    intro _ st h _
    simp only [List.take_zero, dyadicToRationalVectorEager, List.foldlM_nil] at h
    rw [← Option.some.inj h]; exact h0
  | succ i ih =>
    intro hi st' h hret
    have hi' : i < xs.length := by omega
    rw [eager_take_succ xs denx B i hi'] at h
    cases hp : dyadicToRationalVectorEager (xs.take i) denx B with
    | none => rw [hp] at h; simp at h
    | some st =>
      rw [hp] at h
      simp only [Option.some_bind] at h
      have hst : st.ret ≠ 0 := by
        intro h0
        have : eagerStep denx B (Int.tdiv denx 2) st (xs.get ⟨i, hi'⟩) = some st := by
          simp [eagerStep, h0]
        rw [this] at h
        rw [← Option.some.inj h] at hret
        exact hret h0
      exact hstep i hi' st st' hp hst (ih (by omega) st hp hst) h hret

/-- A step of the eager variant that does not fail, from a state that has not failed:
the fast path accepts, or the scalar reconstruction succeeds and the new denominator is in
bound. -/
theorem eagerStep_ne_zero (denx B denx2 : Int) (hd : 0 < denx) (st st' : VectorResult) (x : Int)
    (hret : st.ret ≠ 0) (hden : 0 < st.den)
    (h : eagerStep denx B denx2 st x = some st') (hret' : st'.ret ≠ 0) :
    (¬ 2 * |(balancedQuoRem |x| st.den denx denx2).2| > st.den ∧
      st' = ⟨st.num ++ [if x < 0 then -(balancedQuoRem |x| st.den denx denx2).1
          else (balancedQuoRem |x| st.den denx denx2).1], st.den, st.ret⟩) ∨
    (2 * |(balancedQuoRem |x| st.den denx denx2).2| > st.den ∧
      ∃ s, dyadicToRational |x| denx B = some s ∧ s.ret ≠ 0 ∧ 0 < s.b ∧
        (Int.lcm s.b st.den : Int) ≤ B ∧
        st' = ⟨st.num.map (· * ((Int.lcm s.b st.den : Int) / st.den)) ++
                [if x < 0 then -(s.a * ((Int.lcm s.b st.den : Int) / s.b))
                  else s.a * ((Int.lcm s.b st.den : Int) / s.b)],
               Int.lcm s.b st.den, if s.ret = 1 then 1 else st.ret⟩) := by
  rcases eagerStep_cases denx B denx2 hd st x hret hden with ⟨h1, h2⟩ | ⟨h1, s, hs, hc⟩
  · left
    rw [h2] at h
    exact ⟨h1, (Option.some.inj h).symm⟩
  · right
    refine ⟨h1, s, hs, ?_⟩
    rcases hc with ⟨_, h2⟩ | ⟨_, _, _, h2⟩ | ⟨h3, h4, h5, h2⟩
    · rw [h2] at h; rw [← Option.some.inj h] at hret'; exact absurd rfl hret'
    · rw [h2] at h; rw [← Option.some.inj h] at hret'; exact absurd rfl hret'
    · rw [h2] at h
      exact ⟨h3, h4, h5, (Option.some.inj h).symm⟩

theorem lcm_pos_of_pos (a b : Int) (ha : 0 < a) (hb : 0 < b) : (0 : Int) < (Int.lcm a b : Int) := by
  have : Int.lcm a b ≠ 0 := Int.lcm_ne_zero (by omega) (by omega)
  omega

/-- Basic facts of a state reached by the eager variant without failure, for `denx > 0`:
the denominator is positive (and at most `B` when `B ≥ 1`), the code is 1 or 2 and one
numerator has been written per coordinate. -/
theorem eager_good (xs : List Int) (denx B : Int) (hd : 0 < denx) (i : Nat)
    (hi : i ≤ xs.length) (st : VectorResult)
    (h : dyadicToRationalVectorEager (xs.take i) denx B = some st) (hret : st.ret ≠ 0) :
    0 < st.den ∧ (st.ret = 1 ∨ st.ret = 2) ∧ st.num.length = i ∧ (1 ≤ B → st.den ≤ B) := by
  refine eager_induction xs denx B
    (fun i st => 0 < st.den ∧ (st.ret = 1 ∨ st.ret = 2) ∧ st.num.length = i ∧
      (1 ≤ B → st.den ≤ B))
    ⟨by decide, Or.inr rfl, rfl, fun h => h⟩ ?_ i hi st h hret
  intro i hi st st' _ hst ⟨p1, p2, p3, p4⟩ hstep hst'
  rcases eagerStep_ne_zero denx B _ hd st st' _ hst p1 hstep hst' with
    ⟨_, rfl⟩ | ⟨_, s, _, _, hb, hB, rfl⟩
  · exact ⟨p1, p2, by simp [p3], p4⟩
  · refine ⟨lcm_pos_of_pos _ _ hb p1, ?_, by simp [p3], fun _ => hB⟩
    simp only
    split_ifs
    · left; rfl
    · exact p2

theorem ediv_mul_ediv_chain (a b c : Int) (ha : 0 < a) (hba : b ∣ a) (hac : a ∣ c) :
    (a / b) * (c / a) = c / b := by
  obtain ⟨k, rfl⟩ := hba
  obtain ⟨l, rfl⟩ := hac
  have hb : b ≠ 0 := by rintro rfl; simp at ha
  have hbk : b * k ≠ 0 := by omega
  rw [Int.mul_ediv_cancel_left _ hb, Int.mul_ediv_cancel_left _ hbk, mul_assoc,
    Int.mul_ediv_cancel_left _ hb]

/-- What a step of the eager variant that does not fail does to the state: the denominator
grows to a positive multiple, the code does not increase, and every earlier numerator is
multiplied by the growth factor. -/
theorem eagerStep_old (denx B denx2 : Int) (hd : 0 < denx) (st st' : VectorResult) (x : Int)
    (hret : st.ret = 1 ∨ st.ret = 2) (hden : 0 < st.den)
    (h : eagerStep denx B denx2 st x = some st') (hret' : st'.ret ≠ 0) :
    st.den ∣ st'.den ∧ 0 < st'.den ∧ st'.ret ≤ st.ret ∧
      ∀ idx, idx < st.num.length →
        st'.num[idx]? = (st.num[idx]?).map (· * (st'.den / st.den)) := by
  rcases eagerStep_ne_zero denx B _ hd st st' _ (by omega) hden h hret' with
    ⟨_, rfl⟩ | ⟨_, s, _, _, hb, hB, rfl⟩
  · refine ⟨dvd_refl _, hden, le_refl _, fun idx hidx => ?_⟩
    simp only
    rw [List.getElem?_append_left hidx, Int.ediv_self (by omega), List.getElem?_eq_getElem hidx]
    simp
  · refine ⟨Int.dvd_lcm_right, lcm_pos_of_pos _ _ hb hden, ?_, fun idx hidx => ?_⟩
    · simp only
      split_ifs <;> omega
    · simp only
      rw [List.getElem?_append_left (by simpa using hidx), List.getElem?_map]

/-- Between two states reached without failure, the later denominator is a multiple of the
earlier one, the code does not increase and the numerators written before the earlier state
are multiplied by the quotient of the denominators. -/
theorem eager_chain (xs : List Int) (denx B : Int) (hd : 0 < denx) (i : Nat)
    (hile : i ≤ xs.length) (sti : VectorResult)
    (hsti : dyadicToRationalVectorEager (xs.take i) denx B = some sti) (hreti : sti.ret ≠ 0)
    (j : Nat) (hj : j ≤ xs.length) (stj : VectorResult)
    (hstj : dyadicToRationalVectorEager (xs.take j) denx B = some stj) (hretj : stj.ret ≠ 0)
    (hij : i ≤ j) :
    sti.den ∣ stj.den ∧ stj.ret ≤ sti.ret ∧
      ∀ idx, idx < i → stj.num[idx]? = (sti.num[idx]?).map (· * (stj.den / sti.den)) := by
  obtain ⟨gi1, gi2, gi3, _⟩ := eager_good xs denx B hd i hile sti hsti hreti
  have base : sti.den ∣ sti.den ∧ sti.ret ≤ sti.ret ∧
      ∀ idx, idx < i → sti.num[idx]? = (sti.num[idx]?).map (· * (sti.den / sti.den)) := by
    refine ⟨dvd_refl _, le_refl _, fun idx hidx => ?_⟩
    rw [Int.ediv_self (by omega), List.getElem?_eq_getElem (by omega)]
    simp
  refine eager_induction xs denx B
    (fun j st => i ≤ j → sti.den ∣ st.den ∧ st.ret ≤ sti.ret ∧
      ∀ idx, idx < i → st.num[idx]? = (sti.num[idx]?).map (· * (st.den / sti.den)))
    ?_ ?_ j hj stj hstj hretj hij
  · intro h0
    have : i = 0 := by omega
    subst this
    simp only [List.take_zero, dyadicToRationalVectorEager, List.foldlM_nil] at hsti
    obtain rfl := Option.some.inj hsti
    exact base
  · intro j hj st st' hst hstne ih hstep hst' hle
    have hnext : dyadicToRationalVectorEager (xs.take (j + 1)) denx B = some st' := by
      rw [eager_take_succ xs denx B j hj, hst]; exact hstep
    rcases Nat.lt_or_ge j i with hlt | hge
    · have : i = j + 1 := by omega
      subst this
      rw [hsti] at hnext
      obtain rfl := Option.some.inj hnext
      exact base
    · obtain ⟨q1, q2, q3⟩ := ih hge
      obtain ⟨g1, g2, g3, _⟩ := eager_good xs denx B hd j (by omega) st hst hstne
      obtain ⟨o1, o2, o3, o4⟩ := eagerStep_old denx B _ hd st st' _ g2 g1 hstep hst'
      refine ⟨dvd_trans q1 o1, le_trans o3 q2, fun idx hidx => ?_⟩
      rw [o4 idx (by omega), q3 idx hidx]
      cases sti.num[idx]? with
      | none => simp
      | some a =>
        simp only [Option.map_some']
        rw [mul_assoc, ediv_mul_ediv_chain _ _ _ g1 q1 o1]

theorem eager_take_length (xs : List Int) (denx B : Int) :
    dyadicToRationalVectorEager (xs.take xs.length) denx B
      = dyadicToRationalVectorEager xs denx B := by
  rw [List.take_length]

/-- What the eager variant, when it does not fail, has done at coordinate `i`: with `sti`
the state reached before the coordinate, either the fast path accepted the quotient `q` and
`num[i] = ±q * (den / sti.den)`, or the scalar reconstruction returned `s` with a nonzero
code, `lcm (s.b, sti.den) ≤ B`, and `num[i] = ±s.a * (den / s.b)`. -/
theorem eager_coordinate (xs : List Int) (denx B : Int) (hd : 0 < denx) (r : VectorResult)
    (h : dyadicToRationalVectorEager xs denx B = some r) (hret : r.ret ≠ 0)
    (i : Nat) (hi : i < xs.length) :
    ∃ sti, dyadicToRationalVectorEager (xs.take i) denx B = some sti ∧ sti.ret ≠ 0 ∧
      0 < sti.den ∧ sti.den ∣ r.den ∧ 0 < r.den ∧ r.ret ≤ sti.ret ∧
      ((¬ 2 * |(balancedQuoRem |xs.get ⟨i, hi⟩| sti.den denx (Int.tdiv denx 2)).2| > sti.den ∧
          r.num[i]? = some ((if xs.get ⟨i, hi⟩ < 0
            then -(balancedQuoRem |xs.get ⟨i, hi⟩| sti.den denx (Int.tdiv denx 2)).1
            else (balancedQuoRem |xs.get ⟨i, hi⟩| sti.den denx (Int.tdiv denx 2)).1)
              * (r.den / sti.den))) ∨
       (2 * |(balancedQuoRem |xs.get ⟨i, hi⟩| sti.den denx (Int.tdiv denx 2)).2| > sti.den ∧
          ∃ s, dyadicToRational |xs.get ⟨i, hi⟩| denx B = some s ∧ (s.ret = 1 ∨ s.ret = 2) ∧
            0 < s.b ∧ (Int.lcm s.b sti.den : Int) ≤ B ∧ s.b ∣ r.den ∧ r.ret ≤ s.ret ∧
            r.num[i]? = some ((if xs.get ⟨i, hi⟩ < 0 then -s.a else s.a) * (r.den / s.b)))) := by
  obtain ⟨sti, hsti, hreti⟩ := eager_take_ne_zero xs denx B r h hret i
  obtain ⟨stn, hstn, hretn⟩ := eager_take_ne_zero xs denx B r h hret (i + 1)
  have hr := h
  rw [← eager_take_length] at hr
  obtain ⟨gi1, gi2, gi3, _⟩ := eager_good xs denx B hd i (by omega) sti hsti hreti
  obtain ⟨gn1, gn2, gn3, _⟩ := eager_good xs denx B hd (i + 1) (by omega) stn hstn hretn
  obtain ⟨gr1, gr2, gr3, _⟩ := eager_good xs denx B hd xs.length (le_refl _) r hr hret
  obtain ⟨c1, c2, c3⟩ := eager_chain xs denx B hd (i + 1) (by omega) stn hstn hretn xs.length
    (le_refl _) r hr hret (by omega)
  obtain ⟨d1, d2, _⟩ := eager_chain xs denx B hd i (by omega) sti hsti hreti (i + 1)
    (by omega) stn hstn hretn (by omega)
  have hstep := hstn
  rw [eager_take_succ xs denx B i hi, hsti] at hstep
  have hnum := c3 i (by omega)
  refine ⟨sti, hsti, hreti, gi1, dvd_trans d1 c1, gr1, le_trans c2 d2, ?_⟩
  rcases eagerStep_ne_zero denx B _ hd sti stn _ hreti gi1 hstep hretn with
    ⟨h1, rfl⟩ | ⟨h1, s, hs, hs0, hb, hB, rfl⟩
  · left
    refine ⟨h1, ?_⟩
    rw [hnum]
    simp only
    rw [List.getElem?_append_right (by omega)]
    simp [gi3]
  · right
    refine ⟨h1, s, hs, ?_, hb, hB, dvd_trans Int.dvd_lcm_left c1, ?_, ?_⟩
    · obtain ⟨s', _, hs', _, _, f4, _⟩ := dyadicToRational_facts |xs.get ⟨i, hi⟩| denx B hd
      rw [hs] at hs'
      obtain rfl := Option.some.inj hs'
      omega
    · simp only at c2
      obtain ⟨s', _, hs', _, _, f4, _⟩ := dyadicToRational_facts |xs.get ⟨i, hi⟩| denx B hd
      rw [hs] at hs'
      obtain rfl := Option.some.inj hs'
      split_ifs at c2 <;> omega
    · rw [hnum]
      simp only
      rw [List.getElem?_append_right (by simp [gi3])]
      simp only [List.length_map, gi3, Nat.sub_self, List.getElem?_cons_zero, Option.map_some']
      congr 1
      have key := ediv_mul_ediv_chain (Int.lcm s.b sti.den : Int) s.b r.den gn1
        Int.dvd_lcm_left c1
      split_ifs
      · rw [← key]; ring
      · rw [← key]; ring

/-! ## Observers of the vector routine and the eager variant -/

/-- The state of the vector routine before coordinate `i`, when it has not failed, is the
state reached by the eager variant. -/
theorem stateBefore_iff (num numx : List Int) (denx B : Int) (hlen : num.length ≤ numx.length)
    (i : Nat) (hi : i ≤ num.length) (st : VectorResult) (hret : st.ret ≠ 0) :
    stateBefore num numx denx B i = some st ↔
      dyadicToRationalVectorEager ((numx.take num.length).take i) denx B = some st := by
  have e1 : (numx.take num.length).take i = numx.take i := by
    rw [List.take_take, min_eq_left hi]
  have e2 : (num.take i).length = (numx.take i).length := by
    rw [List.length_take, List.length_take]; omega
  have e3 : (numx.take i).take (num.take i).length = numx.take i := by
    rw [e2, List.take_length]
  rw [e1]
  unfold stateBefore
  constructor
  · intro h
    have := (vector_eq_eager_of_ne_zero _ _ denx B st h hret).2
    rwa [e3] at this
  · intro h
    exact vector_eq_of_eager_ne_zero _ _ denx B st e2 h hret

theorem take_get_eq (numx : List Int) (n i : Nat) (h1 : i < (numx.take n).length)
    (h2 : i < numx.length) : (numx.take n).get ⟨i, h1⟩ = numx.get ⟨i, h2⟩ := by
  simp [List.getElem_take']

theorem rejectedAt_iff (num numx : List Int) (denx B : Int) (hlen : num.length ≤ numx.length)
    (i : Nat) (d : Int) (s : ScalarResult) :
    rejectedAt num numx denx B i = some (d, s) ↔
      EagerRejected (numx.take num.length) denx B i d s := by
  have hxl : (numx.take num.length).length = num.length := by
    rw [List.length_take]; omega
  constructor
  · intro h
    unfold rejectedAt at h
    cases hsb : stateBefore num numx denx B i with
    | none => rw [hsb] at h; simp at h
    | some st =>
      cases hx : numx[i]? with
      | none => rw [hsb, hx] at h; simp at h
      | some x =>
        rw [hsb, hx] at h
        simp only at h
        split_ifs at h with hc
        obtain ⟨hi, hret, hrej⟩ := hc
        cases hs : dyadicToRational |x| denx B with
        | none => rw [hs] at h; simp at h
        | some s' =>
          rw [hs] at h
          simp only [Option.map_some', Option.some.injEq, Prod.mk.injEq] at h
          obtain ⟨rfl, rfl⟩ := h
          have hi2 : i < numx.length := by omega
          have hxe : (numx.take num.length).get ⟨i, by omega⟩ = x := by
            rw [take_get_eq numx _ i (by omega) hi2]
            rw [List.getElem?_eq_getElem hi2] at hx
            exact Option.some.inj hx
          refine ⟨by omega, st,
            (stateBefore_iff num numx denx B hlen i hi.le st hret).mp hsb, hret, rfl, ?_, ?_⟩
          · rw [hxe]; exact hrej
          · rw [hxe]; exact hs
  · rintro ⟨hi, sti, hst, hret, rfl, hrej, hs⟩
    have hi1 : i < num.length := by omega
    have hi2 : i < numx.length := by omega
    have hxe := take_get_eq numx num.length i hi hi2
    rw [hxe] at hrej hs
    unfold rejectedAt
    rw [(stateBefore_iff num numx denx B hlen i hi1.le sti hret).mpr hst,
      List.getElem?_eq_getElem hi2]
    simp only
    rw [if_pos ⟨hi1, hret, hrej⟩]
    simp only [List.get_eq_getElem] at hs
    rw [hs]
    rfl

theorem acceptedAt_iff (num numx : List Int) (denx B : Int) (hlen : num.length ≤ numx.length)
    (i : Nat) (d q : Int) :
    acceptedAt num numx denx B i = some (d, q) ↔
      EagerAccepted (numx.take num.length) denx B i d q := by
  have hxl : (numx.take num.length).length = num.length := by
    rw [List.length_take]; omega
  constructor
  · intro h
    unfold acceptedAt at h
    cases hsb : stateBefore num numx denx B i with
    | none => rw [hsb] at h; simp at h
    | some st =>
      cases hx : numx[i]? with
      | none => rw [hsb, hx] at h; simp at h
      | some x =>
        rw [hsb, hx] at h
        simp only at h
        split_ifs at h with hc
        obtain ⟨hi, hret, hrej⟩ := hc
        simp only [Option.some.injEq, Prod.mk.injEq] at h
        obtain ⟨rfl, rfl⟩ := h
        have hi2 : i < numx.length := by omega
        have hxe : (numx.take num.length).get ⟨i, by omega⟩ = x := by
          rw [take_get_eq numx _ i (by omega) hi2]
          rw [List.getElem?_eq_getElem hi2] at hx
          exact Option.some.inj hx
        refine ⟨by omega, st,
          (stateBefore_iff num numx denx B hlen i hi.le st hret).mp hsb, hret, rfl, ?_, ?_⟩
        · rw [hxe]; exact hrej
        · rw [hxe]
  · rintro ⟨hi, sti, hst, hret, rfl, hrej, rfl⟩
    have hi1 : i < num.length := by omega
    have hi2 : i < numx.length := by omega
    have hxe := take_get_eq numx num.length i hi hi2
    rw [hxe] at hrej ⊢
    unfold acceptedAt
    rw [(stateBefore_iff num numx denx B hlen i hi1.le sti hret).mpr hst,
      List.getElem?_eq_getElem hi2]
    simp only
    rw [if_pos ⟨hi1, hret, hrej⟩]
    rfl

/-- For `denx > 0` the eager variant returns on every prefix, and a failure on a prefix
comes from a coordinate rejected by the fast path whose scalar reconstruction returned 0 or
whose new denominator exceeds the bound. -/
theorem eager_total_take (xs : List Int) (denx B : Int) (hd : 0 < denx) :
    ∀ j, j ≤ xs.length → ∃ st, dyadicToRationalVectorEager (xs.take j) denx B = some st ∧
      (st.ret = 0 → ∃ i d s, i < j ∧ EagerRejected xs denx B i d s ∧
        (s.ret = 0 ∨ (Int.lcm s.b d : Int) > B)) := by
  intro j
  induction j with
  | zero =>
    intro _
    refine ⟨⟨[], 1, 2⟩, by simp [dyadicToRationalVectorEager], fun h => ?_⟩
    simp at h
  | succ j ih =>
    intro hj
    have hj' : j < xs.length := by omega
    obtain ⟨st, hst, hfail⟩ := ih (by omega)
    rw [eager_take_succ xs denx B j hj', hst]
    simp only [Option.some_bind]
    by_cases h0 : st.ret = 0
    · refine ⟨st, by simp [eagerStep, h0], fun _ => ?_⟩
      obtain ⟨i, d, s, hi, hrej, hc⟩ := hfail h0
      exact ⟨i, d, s, by omega, hrej, hc⟩
    · obtain ⟨g1, _, _, _⟩ := eager_good xs denx B hd j (by omega) st hst h0
      rcases eagerStep_cases denx B (Int.tdiv denx 2) hd st (xs.get ⟨j, hj'⟩) h0 g1 with
        ⟨_, h2⟩ | ⟨h1, s, hs, hc⟩
      · exact ⟨_, h2, fun h => absurd h h0⟩
      · rcases hc with ⟨h3, h2⟩ | ⟨_, _, h3, h2⟩ | ⟨h3, _, _, h2⟩
        · exact ⟨_, h2, fun _ => ⟨j, st.den, s, by omega,
            ⟨hj', st, hst, h0, rfl, h1, hs⟩, Or.inl h3⟩⟩
        · exact ⟨_, h2, fun _ => ⟨j, st.den, s, by omega,
            ⟨hj', st, hst, h0, rfl, h1, hs⟩, Or.inr h3⟩⟩
        · refine ⟨_, h2, fun h => ?_⟩
          simp only at h
          split_ifs at h
          · simp at h
          · exact absurd h h0

/-- A coordinate rejected by the fast path whose scalar reconstruction returns 0, or whose
new denominator exceeds the bound, makes the eager variant fail. -/
theorem eager_failed_of_rejected (xs : List Int) (denx B : Int) (hd : 0 < denx)
    (i : Nat) (d : Int) (s : ScalarResult) (hrej : EagerRejected xs denx B i d s)
    (hc : s.ret = 0 ∨ (Int.lcm s.b d : Int) > B) :
    ∃ r, dyadicToRationalVectorEager xs denx B = some r ∧ r.ret = 0 := by
  obtain ⟨hi, sti, hst, hret, rfl, h1, hs⟩ := hrej
  obtain ⟨g1, _, _, _⟩ := eager_good xs denx B hd i (by omega) sti hst hret
  have hnext := eager_take_succ xs denx B i hi
  rw [hst] at hnext
  simp only [Option.some_bind] at hnext
  rcases eagerStep_cases denx B (Int.tdiv denx 2) hd sti (xs.get ⟨i, hi⟩) hret g1 with
    ⟨h1', _⟩ | ⟨_, s', hs', hcase⟩
  · exact absurd h1 h1'
  · rw [hs] at hs'
    obtain rfl := Option.some.inj hs'
    rcases hcase with ⟨_, h2⟩ | ⟨_, _, _, h2⟩ | ⟨h3, _, h4, _⟩
    · rw [h2] at hnext
      exact ⟨_, eager_failed_of_take xs denx B (i + 1) _ hnext rfl, rfl⟩
    · rw [h2] at hnext
      exact ⟨_, eager_failed_of_take xs denx B (i + 1) _ hnext rfl, rfl⟩
    · rcases hc with hc | hc
      · exact absurd hc h3
      · omega

/-- When the eager variant does not fail, its code is 2 or is the code 1 of the scalar
reconstruction of some rejected coordinate. -/
theorem eager_ret_attained (xs : List Int) (denx B : Int) (hd : 0 < denx) (r : VectorResult)
    (h : dyadicToRationalVectorEager xs denx B = some r) (hret : r.ret ≠ 0) :
    r.ret = 2 ∨ ∃ i d s, EagerRejected xs denx B i d s ∧ s.ret = r.ret := by
  rw [← eager_take_length] at h
  refine eager_induction xs denx B
    (fun _ st => st.ret = 2 ∨ ∃ i d s, EagerRejected xs denx B i d s ∧ s.ret = st.ret)
    (Or.inl rfl) ?_ xs.length (le_refl _) r h hret
  intro i hi st st' hst hstne ih hstep hst'
  obtain ⟨g1, _, _, _⟩ := eager_good xs denx B hd i (by omega) st hst hstne
  rcases eagerStep_ne_zero denx B _ hd st st' _ hstne g1 hstep hst' with
    ⟨_, rfl⟩ | ⟨h1, s, hs, _, _, _, rfl⟩
  · exact ih
  · simp only
    by_cases hs1 : s.ret = 1
    · right
      exact ⟨i, st.den, s, ⟨hi, st, hst, hstne, rfl, h1, hs⟩, by simp [hs1]⟩
    · simpa [hs1] using ih

/-- The balanced quotient and remainder of lines 154-159: `nx*den = q*denx + e`, with
`q ≥ 0` for non-negative `nx`, `den` and positive `denx`. -/
theorem balancedQuoRem_spec (nx den denx denx2 : Int) (hnx : 0 ≤ nx) (hden : 0 ≤ den)
    (hd : 0 < denx) :
    nx * den = (balancedQuoRem nx den denx denx2).1 * denx + (balancedQuoRem nx den denx denx2).2 ∧
      0 ≤ (balancedQuoRem nx den denx denx2).1 := by
  obtain ⟨e1, _, _, e4, _⟩ := tdiv_tmod_facts (nx * den) denx (mul_nonneg hnx hden) hd
  unfold balancedQuoRem
  simp only
  split_ifs
  · simp only
    constructor
    · linarith
    · omega
  · exact ⟨e1, e4⟩

/-- A residual bound over the denominator `β` carries over to every positive multiple `D`. -/
theorem residual_scale (x denx c β D : Int) (hβ : 0 < β) (hdvd : β ∣ D) (hD : 0 ≤ D)
    (hloc : 2 * |x * β - c * denx| ≤ β) : 2 * |x * D - c * (D / β) * denx| ≤ D := by
  obtain ⟨M, rfl⟩ := hdvd
  have hM : 0 ≤ M := by
    by_contra hneg
    have : β * M < 0 := mul_neg_of_pos_of_neg hβ (by omega)
    omega
  rw [Int.mul_ediv_cancel_left _ (by omega)]
  have e : x * (β * M) - c * M * denx = M * (x * β - c * denx) := by ring
  rw [e, abs_mul, abs_of_nonneg hM]
  have := mul_le_mul_of_nonneg_left hloc hM
  linarith

/-- Facts of a rejected coordinate in a run of the eager variant that does not fail. -/
theorem eager_rejected_facts (xs : List Int) (denx B : Int) (hd : 0 < denx) (r : VectorResult)
    (h : dyadicToRationalVectorEager xs denx B = some r) (hret : r.ret ≠ 0)
    (i : Nat) (d : Int) (s : ScalarResult) (hrej : EagerRejected xs denx B i d s) :
    (s.ret = 1 ∨ s.ret = 2) ∧ 0 < s.b ∧ (Int.lcm s.b d : Int) ≤ B ∧ s.b ∣ r.den ∧
      r.ret ≤ s.ret ∧ 0 < r.den ∧ 0 ≤ s.a ∧
      r.num[i]? = some ((if xs.getD i 0 < 0 then -s.a else s.a) * (r.den / s.b)) := by
  obtain ⟨hi, sti, hst, _, rfl, h1, hs⟩ := hrej
  obtain ⟨sti', hst', _, _, _, hrpos, _, hc⟩ := eager_coordinate xs denx B hd r h hret i hi
  rw [hst] at hst'
  obtain rfl := Option.some.inj hst'
  have hx : xs.getD i 0 = xs.get ⟨i, hi⟩ := by
    simp [List.getD_eq_getElem?_getD, List.getElem?_eq_getElem hi]
  rcases hc with ⟨h1', _⟩ | ⟨_, s', hs', c1, c2, c3, c4, c5, c6⟩
  · exact absurd h1 h1'
  · rw [hs] at hs'
    obtain rfl := Option.some.inj hs'
    obtain ⟨s', _, hs', _, _, _, _, f5, _⟩ := dyadicToRational_facts |xs.get ⟨i, hi⟩| denx B hd
    rw [hs] at hs'
    obtain rfl := Option.some.inj hs'
    rw [hx]
    exact ⟨c1, c2, c3, c4, c5, hrpos, f5 (abs_nonneg _), c6⟩

/-- Facts of a coordinate accepted on the fast path in a run of the eager variant that does
not fail. -/
theorem eager_accepted_facts (xs : List Int) (denx B : Int) (hd : 0 < denx) (r : VectorResult)
    (h : dyadicToRationalVectorEager xs denx B = some r) (hret : r.ret ≠ 0)
    (i : Nat) (d q : Int) (hacc : EagerAccepted xs denx B i d q) :
    0 < d ∧ d ∣ r.den ∧ 0 < r.den ∧ 0 ≤ q ∧
      2 * |(|xs.getD i 0| * d - q * denx)| ≤ d ∧
      r.num[i]? = some ((if xs.getD i 0 < 0 then -q else q) * (r.den / d)) := by
  obtain ⟨hi, sti, hst, _, rfl, h1, rfl⟩ := hacc
  obtain ⟨sti', hst', _, hdpos, hdvd, hrpos, _, hc⟩ := eager_coordinate xs denx B hd r h hret i hi
  rw [hst] at hst'
  obtain rfl := Option.some.inj hst'
  have hx : xs.getD i 0 = xs.get ⟨i, hi⟩ := by
    simp [List.getD_eq_getElem?_getD, List.getElem?_eq_getElem hi]
  obtain ⟨b1, b2⟩ := balancedQuoRem_spec |xs.get ⟨i, hi⟩| sti.den denx (Int.tdiv denx 2)
    (abs_nonneg _) hdpos.le hd
  rcases hc with ⟨_, c1⟩ | ⟨h1', _⟩
  · rw [hx]
    refine ⟨hdpos, hdvd, hrpos, b2, ?_, c1⟩
    have : |xs.get ⟨i, hi⟩| * sti.den
        - (balancedQuoRem |xs.get ⟨i, hi⟩| sti.den denx (Int.tdiv denx 2)).1 * denx
        = (balancedQuoRem |xs.get ⟨i, hi⟩| sti.den denx (Int.tdiv denx 2)).2 := by
      rw [b1]; ring
    rw [this]
    exact not_lt.mp h1
  · exact absurd h1' h1

/-- The residual of a signed coordinate, from the residual of its absolute value. -/
theorem abs_signed_residual (x β c denx : Int) :
    |x * β - (if x < 0 then -c else c) * denx| = |(|x| * β - c * denx)| := by
  by_cases hx : x < 0
  · rw [if_pos hx, abs_of_neg hx]
    have : x * β - -c * denx = -(-x * β - c * denx) := by ring
    rw [this, abs_neg]
  · rw [if_neg hx, abs_of_nonneg (not_lt.mp hx)]

/-- When the eager variant does not fail, every coordinate was either rejected by the fast
path and reconstructed, or accepted on the fast path. -/
theorem eager_coverage (xs : List Int) (denx B : Int) (hd : 0 < denx) (r : VectorResult)
    (h : dyadicToRationalVectorEager xs denx B = some r) (hret : r.ret ≠ 0)
    (i : Nat) (hi : i < xs.length) :
    (∃ d s, EagerRejected xs denx B i d s) ∨ (∃ d q, EagerAccepted xs denx B i d q) := by
  obtain ⟨sti, hst, hreti⟩ := eager_take_ne_zero xs denx B r h hret i
  by_cases hrej :
      2 * |(balancedQuoRem |xs.get ⟨i, hi⟩| sti.den denx (Int.tdiv denx 2)).2| > sti.den
  · left
    obtain ⟨s, _, hs, _⟩ := dyadicToRational_facts |xs.get ⟨i, hi⟩| denx B hd
    exact ⟨sti.den, s, hi, sti, hst, hreti, rfl, hrej, hs⟩
  · right
    exact ⟨sti.den, _, hi, sti, hst, hreti, rfl, hrej, rfl⟩

/-- A result of the vector routine that is not a failure, seen as a run of the eager
variant on `xs = numx.take num.length`. -/
theorem vector_run_eager (num numx : List Int) (denx B : Int) (r : VectorResult)
    (h : dyadicToRationalVector num numx denx B = some r) (hret : r.ret ≠ 0) :
    num.length ≤ numx.length ∧ (numx.take num.length).length = num.length ∧
      dyadicToRationalVectorEager (numx.take num.length) denx B = some r ∧
      ∀ i, i < num.length → (numx.take num.length).getD i 0 = numx.getD i 0 := by
  obtain ⟨hlen, he⟩ := vector_eq_eager_of_ne_zero num numx denx B r h hret
  refine ⟨hlen, by rw [List.length_take]; omega, he, fun i hi => ?_⟩
  simp only [List.getD_eq_getElem?_getD]
  rw [List.getElem?_take_of_lt hi]

theorem getD_of_getElem? (l : List Int) (i : Nat) (v : Int) (h : l[i]? = some v) :
    l.getD i 0 = v := by
  simp [List.getD_eq_getElem?_getD, h]

/-! ## Claims on the vector routine -/

/-- C16. For `denx > 0` and `B ≥ 1`, whenever the vector `dyadicToRational` returns a code
that is not Failed (1 or 2), the output shared denominator satisfies `1 ≤ den ≤ B`. -/
theorem C16_vector_den_in_bound (num numx : List Int) (denx B : Int) (hd : 0 < denx)
    (hB : 1 ≤ B) (r : VectorResult) (h : dyadicToRationalVector num numx denx B = some r)
    (hret : r.ret = 1 ∨ r.ret = 2) : 1 ≤ r.den ∧ r.den ≤ B := by
  have hne : r.ret ≠ 0 := by omega
  obtain ⟨_, _, he, _⟩ := vector_run_eager num numx denx B r h hne
  rw [← eager_take_length] at he
  obtain ⟨g1, _, _, g4⟩ := eager_good _ denx B hd _ (le_refl _) r he hne
  exact ⟨by omega, g4 hB⟩

theorem C16_vector_den_in_bound_witness : (1 : Int) ≤ 3 ∧ (3 : Int) ≤ 12 :=
  C16_vector_den_in_bound [0, 0] [13, -7] 20 12 (by decide) (by decide) ⟨[2, -1], 3, 1⟩
    (by decide) (Or.inl rfl)

/-- C17, counterexample. On `numx = [13]`, `denx = 20`, `B = 2` the vector
`dyadicToRational` returns code 1 with `num = [1]`, `den = 2`, and
`2*|13*2 - 1*20| = 12 > 2`: the residual bound fails. -/
theorem C17_residual_counterexample :
    dyadicToRationalVector [0] [13] 20 2 = some ⟨[1], 2, 1⟩ ∧
      ¬ (2 * |(13 : Int) * 2 - 1 * 20| ≤ 2) := by
  decide

/-- C17, amended. For `denx > 0`, whenever the vector `dyadicToRational` returns a code
that is not Failed, every coordinate `i` satisfies `2*|numx[i]*den - num[i]*denx| ≤ den`
over the final denominator, except possibly the coordinates rejected by the fast path whose
scalar reconstruction returned code 1 with a pair that `partial_hegcd` did not find well
approximated; in particular every coordinate satisfies the bound when the code is 2. -/
theorem C17_vector_residual (num numx : List Int) (denx B : Int) (hd : 0 < denx)
    (r : VectorResult) (h : dyadicToRationalVector num numx denx B = some r)
    (hret : r.ret ≠ 0) :
    (∀ i, i < num.length →
      2 * |numx.getD i 0 * r.den - r.num.getD i 0 * denx| ≤ r.den ∨
      ∃ d s res, rejectedAt num numx denx B i = some (d, s) ∧ s.ret = 1 ∧
        partial_hegcd |numx.getD i 0| denx B = some res ∧ res.found = false) ∧
    (r.ret = 2 → ∀ i, i < num.length →
      2 * |numx.getD i 0 * r.den - r.num.getD i 0 * denx| ≤ r.den) := by
  obtain ⟨hlen, hxl, he, hget⟩ := vector_run_eager num numx denx B r h hret
  have main : ∀ i, i < num.length →
      2 * |numx.getD i 0 * r.den - r.num.getD i 0 * denx| ≤ r.den ∨
      ∃ d s res, rejectedAt num numx denx B i = some (d, s) ∧ s.ret = 1 ∧ r.ret ≤ 1 ∧
        partial_hegcd |numx.getD i 0| denx B = some res ∧ res.found = false := by
    intro i hi
    rcases eager_coverage _ denx B hd r he hret i (by omega) with ⟨d, s, hrej⟩ | ⟨d, q, hacc⟩
    · obtain ⟨f1, f2, _, f4, f5, f6, _, f8⟩ :=
        eager_rejected_facts _ denx B hd r he hret i d s hrej
      rw [hget i hi] at f8
      obtain ⟨s', res, hs', hres, _, _, _, _, g7, g8⟩ :=
        dyadicToRational_facts |numx.getD i 0| denx B hd
      have hs : dyadicToRational |numx.getD i 0| denx B = some s := by
        obtain ⟨hi', _, _, _, _, _, hs⟩ := hrej
        have : (numx.take num.length).get ⟨i, hi'⟩ = numx.getD i 0 := by
          rw [← hget i hi]
          simp [List.getD_eq_getElem?_getD, List.getElem?_eq_getElem hi']
        rw [this] at hs
        exact hs
      rw [hs] at hs'
      obtain rfl := Option.some.inj hs'
      cases hfound : res.found with
      | true =>
        left
        rw [getD_of_getElem? _ _ _ f8]
        have hloc : 2 * |numx.getD i 0 * s.b - (if numx.getD i 0 < 0 then -s.a else s.a) * denx|
            ≤ s.b := by
          rw [abs_signed_residual]
          have := g8 hfound
          rwa [mul_comm s.b] at this
        exact residual_scale _ denx _ s.b r.den f2 f4 f6.le hloc
      | false =>
        right
        have hs1 : s.ret = 1 := by
          rcases f1 with h1 | h2
          · exact h1
          · have := g7 h2
            rw [hfound] at this
            exact absurd this (by decide)
        exact ⟨d, s, res, (rejectedAt_iff num numx denx B hlen i d s).mpr hrej, hs1,
          by omega, by rwa [abs_abs] at hres, hfound⟩
    · left
      obtain ⟨f1, f2, f3, _, f5, f6⟩ := eager_accepted_facts _ denx B hd r he hret i d q hacc
      rw [hget i hi] at f5 f6
      rw [getD_of_getElem? _ _ _ f6]
      have hloc : 2 * |numx.getD i 0 * d - (if numx.getD i 0 < 0 then -q else q) * denx| ≤ d := by
        rw [abs_signed_residual]; exact f5
      exact residual_scale _ denx _ d r.den f1 f2 f3.le hloc
  refine ⟨fun i hi => ?_, fun h2 i hi => ?_⟩
  · rcases main i hi with hb | ⟨d, s, res, e1, e2, _, e4, e5⟩
    · exact Or.inl hb
    · exact Or.inr ⟨d, s, res, e1, e2, e4, e5⟩
  · rcases main i hi with hb | ⟨_, _, _, _, _, e3, _⟩
    · exact hb
    · omega

theorem C17_vector_residual_witness :
    (∀ i, i < ([0, 0] : List Int).length →
      2 * |([13, -7] : List Int).getD i 0 * 3 - ([2, -1] : List Int).getD i 0 * 20| ≤ 3 ∨
      ∃ d s res, rejectedAt [0, 0] [13, -7] 20 12 i = some (d, s) ∧ s.ret = 1 ∧
        partial_hegcd |([13, -7] : List Int).getD i 0| 20 12 = some res ∧ res.found = false) ∧
    ((1 : Int) = 2 → ∀ i, i < ([0, 0] : List Int).length →
      2 * |([13, -7] : List Int).getD i 0 * 3 - ([2, -1] : List Int).getD i 0 * 20| ≤ 3) :=
  C17_vector_residual [0, 0] [13, -7] 20 12 (by decide) ⟨[2, -1], 3, 1⟩ (by decide)
    (by decide)

/-- C18. For `denx > 0`, when the vector `dyadicToRational` does not fail, its return code
is the minimum of the scalar return codes over exactly the coordinates rejected by the fast
path: every such code is 1 or 2 and is at least the return code, the return code is 2 or is
the code of one of these scalar reconstructions, and it is 2 when no coordinate required
scalar reconstruction. -/
theorem C18_vector_code_min (num numx : List Int) (denx B : Int) (hd : 0 < denx)
    (r : VectorResult) (h : dyadicToRationalVector num numx denx B = some r)
    (hret : r.ret ≠ 0) :
    (∀ i d s, rejectedAt num numx denx B i = some (d, s) →
      (s.ret = 1 ∨ s.ret = 2) ∧ r.ret ≤ s.ret) ∧
    (r.ret = 2 ∨ ∃ i d s, rejectedAt num numx denx B i = some (d, s) ∧ s.ret = r.ret) ∧
    ((∀ i, rejectedAt num numx denx B i = none) → r.ret = 2) := by
  obtain ⟨hlen, hxl, he, hget⟩ := vector_run_eager num numx denx B r h hret
  have hatt : r.ret = 2 ∨ ∃ i d s, rejectedAt num numx denx B i = some (d, s) ∧
      s.ret = r.ret := by
    rcases eager_ret_attained _ denx B hd r he hret with h2 | ⟨i, d, s, hrej, hs⟩
    · exact Or.inl h2
    · exact Or.inr ⟨i, d, s, (rejectedAt_iff num numx denx B hlen i d s).mpr hrej, hs⟩
  refine ⟨fun i d s hrej => ?_, hatt, fun hnone => ?_⟩
  · obtain ⟨f1, _, _, _, f5, _⟩ := eager_rejected_facts _ denx B hd r he hret i d s
      ((rejectedAt_iff num numx denx B hlen i d s).mp hrej)
    exact ⟨f1, f5⟩
  · rcases hatt with h2 | ⟨i, d, s, hrej, _⟩
    · exact h2
    · rw [hnone i] at hrej
      exact absurd hrej (by simp)

theorem C18_vector_code_min_witness :
    (∀ i d s, rejectedAt [0, 0] [13, -7] 20 12 i = some (d, s) →
      (s.ret = 1 ∨ s.ret = 2) ∧ (1 : Int) ≤ s.ret) ∧
    ((1 : Int) = 2 ∨ ∃ i d s, rejectedAt [0, 0] [13, -7] 20 12 i = some (d, s) ∧ s.ret = 1) ∧
    ((∀ i, rejectedAt [0, 0] [13, -7] 20 12 i = none) → (1 : Int) = 2) :=
  C18_vector_code_min [0, 0] [13, -7] 20 12 (by decide) ⟨[2, -1], 3, 1⟩ (by decide)
    (by decide)

/-- C19. For `denx > 0` and `numx` at least as long as `num`, the vector `dyadicToRational`
returns, and it returns Failed (0) if and only if some coordinate `i`, reached with the
denominator `d`, is rejected by the fast path and either its scalar reconstruction `s`
returns 0 or `lcm (s.b, d) > B`. In every other case the code is 1 or 2 and every coordinate
has been processed: `num` keeps its length and each coordinate was either reconstructed or
accepted on the fast path. -/
theorem C19_vector_failed_iff (num numx : List Int) (denx B : Int) (hd : 0 < denx)
    (hlen : num.length ≤ numx.length) :
    ∃ r, dyadicToRationalVector num numx denx B = some r ∧
      (r.ret = 0 ↔ ∃ i d s, rejectedAt num numx denx B i = some (d, s) ∧
        (s.ret = 0 ∨ (Int.lcm s.b d : Int) > B)) ∧
      (r.ret ≠ 0 → (r.ret = 1 ∨ r.ret = 2) ∧ r.num.length = num.length ∧
        ∀ i, i < num.length → (∃ d s, rejectedAt num numx denx B i = some (d, s)) ∨
          (∃ d q, acceptedAt num numx denx B i = some (d, q))) := by
  have hxl : (numx.take num.length).length = num.length := by
    rw [List.length_take]; omega
  obtain ⟨re, hre, hfail⟩ := eager_total_take (numx.take num.length) denx B hd
    (numx.take num.length).length (le_refl _)
  rw [eager_take_length] at hre
  have hag := vector_agree_eager num numx denx B hlen
  rw [hre] at hag
  cases hv : dyadicToRationalVector num numx denx B with
  | none => rw [hv] at hag; exact absurd hag (by simp [Agree])
  | some r =>
    rw [hv] at hag
    obtain ⟨_, a2, _⟩ := hag
    refine ⟨r, rfl, ⟨fun h0 => ?_, fun hex => ?_⟩, fun hne => ?_⟩
    · obtain ⟨i, d, s, _, hrej, hc⟩ := hfail (by rw [← a2]; exact h0)
      exact ⟨i, d, s, (rejectedAt_iff num numx denx B hlen i d s).mpr hrej, hc⟩
    · obtain ⟨i, d, s, hrej, hc⟩ := hex
      obtain ⟨r', hr', h0⟩ := eager_failed_of_rejected _ denx B hd i d s
        ((rejectedAt_iff num numx denx B hlen i d s).mp hrej) hc
      rw [hre] at hr'
      obtain rfl := Option.some.inj hr'
      rw [a2]; exact h0
    · obtain ⟨_, _, he, _⟩ := vector_run_eager num numx denx B r hv hne
      have he' := he
      rw [← eager_take_length] at he'
      obtain ⟨_, g2, g3, _⟩ := eager_good _ denx B hd _ (le_refl _) r he' hne
      refine ⟨g2, by rw [g3, hxl], fun i hi => ?_⟩
      rcases eager_coverage _ denx B hd r he hne i (by omega) with ⟨d, s, hrej⟩ | ⟨d, q, hacc⟩
      · exact Or.inl ⟨d, s, (rejectedAt_iff num numx denx B hlen i d s).mpr hrej⟩
      · exact Or.inr ⟨d, q, (acceptedAt_iff num numx denx B hlen i d q).mpr hacc⟩

theorem C19_vector_failed_iff_witness :
    (0 : Int) < 20 ∧
    ∃ r, dyadicToRationalVector [0, 0] [13, -7] 20 2 = some r ∧
      (r.ret = 0 ↔ ∃ i d s, rejectedAt [0, 0] [13, -7] 20 2 i = some (d, s) ∧
        (s.ret = 0 ∨ (Int.lcm s.b d : Int) > 2)) ∧
      (r.ret ≠ 0 → (r.ret = 1 ∨ r.ret = 2) ∧ r.num.length = ([0, 0] : List Int).length ∧
        ∀ i, i < ([0, 0] : List Int).length →
          (∃ d s, rejectedAt [0, 0] [13, -7] 20 2 i = some (d, s)) ∨
          (∃ d q, acceptedAt [0, 0] [13, -7] 20 2 i = some (d, q))) :=
  ⟨by decide, C19_vector_failed_iff [0, 0] [13, -7] 20 2 (by decide) (by decide)⟩

/-- C20. For `denx > 0`, on a return of the vector `dyadicToRational` that is not Failed,
every numerator is expressed over the final `den`: for each coordinate `i` rejected by the
fast path, with scalar result `(a_i, b_i)` for `|numx[i]|`, `b_i` divides `den` and
`|num[i]| = a_i*(den/b_i)`; for each coordinate accepted on the fast path with quotient `q`
against the then-current denominator `den_i`, `den_i` divides `den` and
`|num[i]| = q*(den/den_i)`. -/
theorem C20_vector_numerators (num numx : List Int) (denx B : Int) (hd : 0 < denx)
    (r : VectorResult) (h : dyadicToRationalVector num numx denx B = some r)
    (hret : r.ret ≠ 0) :
    (∀ i d s, rejectedAt num numx denx B i = some (d, s) →
      s.b ∣ r.den ∧ |r.num.getD i 0| = s.a * (r.den / s.b)) ∧
    (∀ i d q, acceptedAt num numx denx B i = some (d, q) →
      d ∣ r.den ∧ |r.num.getD i 0| = q * (r.den / d)) := by
  obtain ⟨hlen, hxl, he, hget⟩ := vector_run_eager num numx denx B r h hret
  have habs : ∀ (x c M : Int), 0 ≤ c → 0 ≤ M → |(if x < 0 then -c else c) * M| = c * M := by
    intro x c M hc hM
    split_ifs
    · rw [neg_mul, abs_neg, abs_of_nonneg (mul_nonneg hc hM)]
    · rw [abs_of_nonneg (mul_nonneg hc hM)]
  constructor
  · intro i d s hrej
    obtain ⟨_, f2, _, f4, _, f6, f7, f8⟩ := eager_rejected_facts _ denx B hd r he hret i d s
      ((rejectedAt_iff num numx denx B hlen i d s).mp hrej)
    rw [getD_of_getElem? _ _ _ f8]
    exact ⟨f4, habs _ _ _ f7 (Int.ediv_nonneg f6.le f2.le)⟩
  · intro i d q hacc
    obtain ⟨f1, f2, f3, f4, _, f6⟩ := eager_accepted_facts _ denx B hd r he hret i d q
      ((acceptedAt_iff num numx denx B hlen i d q).mp hacc)
    rw [getD_of_getElem? _ _ _ f6]
    exact ⟨f2, habs _ _ _ f4 (Int.ediv_nonneg f3.le f1.le)⟩

theorem C20_vector_numerators_witness :
    (∀ i d s, rejectedAt [0, 0] [13, -7] 20 12 i = some (d, s) →
      s.b ∣ (3 : Int) ∧ |([2, -1] : List Int).getD i 0| = s.a * (3 / s.b)) ∧
    (∀ i d q, acceptedAt [0, 0] [13, -7] 20 12 i = some (d, q) →
      d ∣ (3 : Int) ∧ |([2, -1] : List Int).getD i 0| = q * (3 / d)) :=
  C20_vector_numerators [0, 0] [13, -7] 20 12 (by decide) ⟨[2, -1], 3, 1⟩ (by decide)
    (by decide)

/-- C14, counterexample. On `numx = [13, -7]`, `denx = 20`, `B = 12` the vector
`dyadicToRational` ends with `den = 3`, not 12. -/
theorem C14_scenario_counterexample :
    ∃ r, dyadicToRationalVector [0, 0] [13, -7] 20 12 = some r ∧ r.den = 3 ∧ r.den ≠ 12 :=
  ⟨⟨[2, -1], 3, 1⟩, by decide, rfl, by decide⟩

/-- C14, amended. On `numx = [13, -7]`, `denx = 20`, `B = 12` the vector `dyadicToRational`
ends with `num = [2, -1]` and the shared denominator `den = 3` (coordinate 0 is reconstructed
as `2/3`, coordinate 1 is accepted on the fast path against `den = 3` with quotient 1), and
its return code 1 equals the minimum of the codes of the scalar reconstructions of `13/20`
and `-7/20` with `B = 12`, which are both 1. -/
theorem C14_scenario_13_m7_20_12 :
    dyadicToRationalVector [0, 0] [13, -7] 20 12 = some ⟨[2, -1], 3, 1⟩ ∧
      rejectedAt [0, 0] [13, -7] 20 12 0 = some (1, ⟨2, 3, 1⟩) ∧
      acceptedAt [0, 0] [13, -7] 20 12 1 = some (3, 1) ∧
      dyadicToRational 13 20 12 = some ⟨2, 3, 1⟩ ∧
      dyadicToRational (-7) 20 12 = some ⟨-1, 3, 1⟩ ∧
      (1 : Int) = min 1 1 := by
  decide

/-! ## Round trip of the vector routine -/

/-- The reduced form of `j/k` for `k > 0`, with `g = gcd (j, k)`. -/
theorem reduced_form (j k : Int) (hk : 0 < k) :
    0 < (Int.gcd j k : Int) ∧ j = (Int.gcd j k : Int) * (j / (Int.gcd j k : Int)) ∧
      k = (Int.gcd j k : Int) * (k / (Int.gcd j k : Int)) ∧ 0 < k / (Int.gcd j k : Int) ∧
      k / (Int.gcd j k : Int) ≤ k ∧ k / (Int.gcd j k : Int) ∣ k ∧
      IsCoprime (j / (Int.gcd j k : Int)) (k / (Int.gcd j k : Int)) := by
  have hg0 : 0 < Int.gcd j k := Int.gcd_pos_of_ne_zero_right j (ne_of_gt hk)
  have hgpos : (0 : Int) < (Int.gcd j k : Int) := by exact_mod_cast hg0
  have hj : j = (Int.gcd j k : Int) * (j / (Int.gcd j k : Int)) :=
    (Int.mul_ediv_cancel' (Int.gcd_dvd_left)).symm
  have hkk : k = (Int.gcd j k : Int) * (k / (Int.gcd j k : Int)) :=
    (Int.mul_ediv_cancel' (Int.gcd_dvd_right)).symm
  have hbpos : 0 < k / (Int.gcd j k : Int) := by
    by_contra hneg
    have : (Int.gcd j k : Int) * (k / (Int.gcd j k : Int)) ≤ 0 :=
      mul_nonpos_of_nonneg_of_nonpos hgpos.le (by omega)
    omega
  have hble : k / (Int.gcd j k : Int) ≤ k := by
    have : 0 ≤ ((Int.gcd j k : Int) - 1) * (k / (Int.gcd j k : Int)) :=
      mul_nonneg (by omega) hbpos.le
    nlinarith
  refine ⟨hgpos, hj, hkk, hbpos, hble, ⟨(Int.gcd j k : Int), by rw [mul_comm]; exact hkk⟩, ?_⟩
  rw [Int.isCoprime_iff_gcd_eq_one]
  exact Int.gcd_div_gcd_div_gcd hg0

theorem lcm_eq_right_of_dvd (b d : Int) (hd : 0 < d) (h : b ∣ d) : (Int.lcm b d : Int) = d := by
  apply Int.dvd_antisymm (Int.ofNat_nonneg _) hd.le
  · exact Int.lcm_dvd h (dvd_refl d)
  · exact Int.dvd_lcm_right

/-- One coordinate of the round trip: from a state with code 2 whose denominator divides
`D`, on an `x` nearest to `tj*denx/D`, the eager variant goes to the denominator
`lcm (D / gcd (tj, D), den)`, keeps code 2, rescales the earlier numerators and writes a
numerator `v` with `v*D = tj*den`. -/
theorem eagerStep_round_trip (denx B D : Int) (hD : 0 < D) (hDB : D ≤ B)
    (hmargin : D * B < denx) (st : VectorResult) (x tj : Int) (hret : st.ret = 2)
    (hden : 0 < st.den) (hdvd : st.den ∣ D) (hnear : 2 * |x * D - tj * denx| ≤ D) :
    ∃ v, eagerStep denx B (Int.tdiv denx 2) st x = some
        ⟨st.num.map (· * ((Int.lcm (D / (Int.gcd tj D : Int)) st.den : Int) / st.den)) ++ [v],
          Int.lcm (D / (Int.gcd tj D : Int)) st.den, 2⟩ ∧
      v * D = tj * (Int.lcm (D / (Int.gcd tj D : Int)) st.den : Int) ∧
      (Int.lcm (D / (Int.gcd tj D : Int)) st.den : Int) ∣ D := by
  obtain ⟨hg, htj, hDg, hb, hbD, hbdvd, hcop⟩ := reduced_form tj D hD
  generalize hgdef : (Int.gcd tj D : Int) = g at *
  generalize hbdef : D / g = b at *
  generalize ha0def : tj / g = a0 at *
  have hB : 1 ≤ B := by omega
  have hd : 0 < denx := by nlinarith
  have hldvd : (Int.lcm b st.den : Int) ∣ D := Int.lcm_dvd hbdvd hdvd
  have hlpos : (0 : Int) < (Int.lcm b st.den : Int) := lcm_pos_of_pos _ _ hb hden
  have hlB : (Int.lcm b st.den : Int) ≤ B := le_trans (Int.le_of_dvd hD hldvd) hDB
  have hdenB : st.den ≤ B := le_trans (Int.le_of_dvd hD hdvd) hDB
  have hbB : b * B < denx := by
    have : b * B ≤ D * B := mul_le_mul_of_nonneg_right hbD (by omega)
    omega
  -- the target fraction for `|x|`
  have hloc : 2 * |x * b - a0 * denx| ≤ b := by
    have e : x * D - tj * denx = g * (x * b - a0 * denx) := by
      rw [hDg, htj]; ring
    rw [e, abs_mul, abs_of_pos hg] at hnear
    have : g * (2 * |x * b - a0 * denx|) ≤ g * b := by rw [← hDg]; linarith
    exact le_of_mul_le_mul_left this hg
  have hsgn : (if x < 0 then -(if x < 0 then -a0 else a0) else (if x < 0 then -a0 else a0))
      = a0 := by
    split_ifs <;> simp
  have hloc' : 2 * |b * |x| - (if x < 0 then -a0 else a0) * denx| ≤ b := by
    have e : |b * |x| - (if x < 0 then -a0 else a0) * denx| = |x * b - a0 * denx| := by
      by_cases hx : x < 0
      · rw [if_pos hx, abs_of_neg hx]
        have : b * -x - -a0 * denx = -(x * b - a0 * denx) := by ring
        rw [this, abs_neg]
      · rw [if_neg hx, abs_of_nonneg (not_lt.mp hx), mul_comm b]
    rw [e]; exact hloc
  have hcop' : IsCoprime (if x < 0 then -a0 else a0) b := by
    split_ifs
    · exact IsCoprime.neg_left hcop
    · exact hcop
  have hsc := dyadicToRational_complete |x| denx B _ b hb (by omega) hbB.le hcop' hloc'
  rw [if_pos hbB] at hsc
  rcases eagerStep_cases denx B (Int.tdiv denx 2) hd st x (by omega) hden with
    ⟨h1, h2⟩ | ⟨_, s, hs, hc⟩
  · -- accepted on the fast path
    obtain ⟨b1, b2⟩ := balancedQuoRem_spec |x| st.den denx (Int.tdiv denx 2)
      (abs_nonneg _) hden.le hd
    generalize (balancedQuoRem |x| st.den denx (Int.tdiv denx 2)).1 = q at *
    generalize (balancedQuoRem |x| st.den denx (Int.tdiv denx 2)).2 = e at *
    have happ' : 2 * |st.den * |x| - q * denx| ≤ st.den := by
      have : st.den * |x| - q * denx = e := by linarith
      rw [this]; exact not_lt.mp h1
    have hx := unique_within |x| denx B _ b q st.den hb (by omega) hbB.le hloc' hden.le hdenB
      happ'
    have hbden : b ∣ st.den := by
      have : b ∣ st.den * (if x < 0 then -a0 else a0) := ⟨q, by linear_combination -hx⟩
      exact (IsCoprime.symm hcop').dvd_of_dvd_mul_right this
    have hl : (Int.lcm b st.den : Int) = st.den := lcm_eq_right_of_dvd b st.den hden hbden
    refine ⟨if x < 0 then -q else q, ?_, ?_, hldvd⟩
    · rw [h2, hl, Int.ediv_self (by omega), hret]
      simp
    · rw [hl]
      have e1 : (if x < 0 then -q else q) * b = a0 * st.den := by
        have : (if x < 0 then -q else q) * b
            = (if x < 0 then -(q * b) else q * b) := by split_ifs <;> ring
        rw [this, hx]
        conv_rhs => rw [← hsgn]
        split_ifs <;> ring
      rw [hDg, htj]
      linear_combination g * e1
  · -- reconstructed
    rw [hsc] at hs
    obtain rfl := Option.some.inj hs
    rcases hc with ⟨h3, _⟩ | ⟨_, _, h3, _⟩ | ⟨_, _, _, h2⟩
    · simp at h3
    · simp only at h3; omega
    · simp only at h2
      refine ⟨if x < 0 then -((if x < 0 then -a0 else a0) * ((Int.lcm b st.den : Int) / b))
          else (if x < 0 then -a0 else a0) * ((Int.lcm b st.den : Int) / b), ?_, ?_, hldvd⟩
      · rw [h2, hret]
        simp
      · obtain ⟨c, hc⟩ : b ∣ (Int.lcm b st.den : Int) := Int.dvd_lcm_left
        have hbne : b ≠ 0 := by omega
        rw [hc, Int.mul_ediv_cancel_left _ hbne]
        have e1 : (if x < 0 then -((if x < 0 then -a0 else a0) * c)
            else (if x < 0 then -a0 else a0) * c) = a0 * c := by
          split_ifs <;> ring
        rw [e1, hDg, htj]
        ring

/-- Round trip of the eager variant, prefix by prefix: the state reached after `j`
coordinates has code 2, its denominator is the least common multiple of the reduced
denominators `D / gcd (t[i], D)` of the first `j` targets, and its numerators satisfy
`num[i]*D = t[i]*den`. -/
theorem eager_round_trip (xs t : List Int) (denx B D : Int) (hD : 0 < D) (hDB : D ≤ B)
    (hmargin : D * B < denx) (htlen : t.length = xs.length)
    (hnear : ∀ i, i < xs.length → 2 * |xs.getD i 0 * D - t.getD i 0 * denx| ≤ D) :
    ∀ j, j ≤ xs.length → ∃ st, dyadicToRationalVectorEager (xs.take j) denx B = some st ∧
      st.ret = 2 ∧ 0 < st.den ∧ st.den ∣ D ∧
      st.den = (t.take j).foldl (fun acc ti => (Int.lcm (D / (Int.gcd ti D : Int)) acc : Int)) 1 ∧
      st.num.length = j ∧
      ∀ idx, idx < j → ∃ v, st.num[idx]? = some v ∧ v * D = t.getD idx 0 * st.den := by
  intro j
  induction j with
  | zero =>
    intro _
    refine ⟨⟨[], 1, 2⟩, by simp [dyadicToRationalVectorEager], rfl, by decide, one_dvd _,
      by simp, rfl, fun idx h => absurd h (by omega)⟩
  | succ j ih =>
    intro hj
    have hj' : j < xs.length := by omega
    have hjt : j < t.length := by omega
    obtain ⟨st, hst, hret, hden, hdvd, hfold, hlen, hnum⟩ := ih (by omega)
    have hxj : xs.getD j 0 = xs.get ⟨j, hj'⟩ := by
      simp [List.getD_eq_getElem?_getD, List.getElem?_eq_getElem hj']
    have htj : t.getD j 0 = t.get ⟨j, hjt⟩ := by
      simp [List.getD_eq_getElem?_getD, List.getElem?_eq_getElem hjt]
    have hn := hnear j hj'
    rw [hxj] at hn
    obtain ⟨v, hstep, hv, hldvd⟩ := eagerStep_round_trip denx B D hD hDB hmargin st
      (xs.get ⟨j, hj'⟩) (t.getD j 0) hret hden hdvd hn
    have hlpos : (0 : Int) < (Int.lcm (D / (Int.gcd (t.getD j 0) D : Int)) st.den : Int) := by
      rcases (Int.ofNat_nonneg (Int.lcm (D / (Int.gcd (t.getD j 0) D : Int)) st.den)).eq_or_lt
        with h0 | hpos
      · rw [← h0] at hldvd
        have := eq_zero_of_zero_dvd hldvd
        omega
      · exact hpos
    refine ⟨_, by rw [eager_take_succ xs denx B j hj', hst]; exact hstep, rfl, hlpos, hldvd,
      ?_, by simp [hlen], fun idx hidx => ?_⟩
    · have : t.take (j + 1) = t.take j ++ [t.getD j 0] := by
        rw [List.take_succ, List.getElem?_eq_getElem hjt, htj]
        rfl
      rw [this, List.foldl_append, ← hfold]
      rfl
    · simp only
      rcases Nat.lt_or_ge idx j with hlt | hge
      · obtain ⟨v0, hv0, hv0D⟩ := hnum idx hlt
        refine ⟨v0 * ((Int.lcm (D / (Int.gcd (t.getD j 0) D : Int)) st.den : Int) / st.den),
          ?_, ?_⟩
        · rw [List.getElem?_append_left (by simp [hlen]; exact hlt), List.getElem?_map, hv0]
          rfl
        · have hdl : st.den ∣ (Int.lcm (D / (Int.gcd (t.getD j 0) D : Int)) st.den : Int) :=
            Int.dvd_lcm_right
          have e := Int.ediv_mul_cancel hdl
          calc v0 * ((Int.lcm (D / (Int.gcd (t.getD j 0) D : Int)) st.den : Int) / st.den) * D
              = (v0 * D) * ((Int.lcm (D / (Int.gcd (t.getD j 0) D : Int)) st.den : Int)
                  / st.den) := by ring
            _ = t.getD idx 0 * ((Int.lcm (D / (Int.gcd (t.getD j 0) D : Int)) st.den : Int)
                  / st.den * st.den) := by rw [hv0D]; ring
            _ = _ := by rw [e]
      · have : idx = j := by omega
        subst this
        refine ⟨v, ?_, hv⟩
        rw [List.getElem?_append_right (by simp [hlen])]
        simp [hlen]

/-- Round trip of the vector routine: for `0 < D ≤ B`, `D*B < denx` and targets `t`, if each
`numx[i]` is nearest to `t[i]*denx/D`, the routine returns code 2, `den` is the least common
multiple of the `D / gcd (t[i], D)` and divides `D`, and `num[i]*D = t[i]*den`. -/
theorem vector_round_trip (num numx t : List Int) (denx B D : Int) (hD : 0 < D) (hDB : D ≤ B)
    (hmargin : D * B < denx) (hlen : num.length = numx.length) (htlen : t.length = numx.length)
    (hnear : ∀ i, i < numx.length → 2 * |numx.getD i 0 * D - t.getD i 0 * denx| ≤ D) :
    ∃ r, dyadicToRationalVector num numx denx B = some r ∧ r.ret = 2 ∧
      r.den = t.foldl (fun acc ti => (Int.lcm (D / (Int.gcd ti D : Int)) acc : Int)) 1 ∧
      0 < r.den ∧ r.den ∣ D ∧ r.num.length = numx.length ∧
      ∀ i, i < numx.length → r.num.getD i 0 * D = t.getD i 0 * r.den := by
  obtain ⟨st, hst, hret, hden, hdvd, hfold, hl, hnum⟩ :=
    eager_round_trip numx t denx B D hD hDB hmargin htlen hnear numx.length (le_refl _)
  rw [eager_take_length] at hst
  rw [← htlen, List.take_length] at hfold
  refine ⟨st, vector_eq_of_eager_ne_zero num numx denx B st hlen hst (by omega), hret, hfold,
    hden, hdvd, hl, fun i hi => ?_⟩
  obtain ⟨v, hv, hvD⟩ := hnum i hi
  rw [getD_of_getElem? _ _ _ hv]
  exact hvD

theorem getD_map_range (f : Nat → Int) (n i : Nat) (hi : i < n) :
    ((List.range n).map f).getD i 0 = f i := by
  simp [List.getD_eq_getElem?_getD, List.getElem?_map, List.getElem?_range hi]

/-- C15. Vector round trip: for every `D` with `0 < D ≤ B` and `D*B < denx`, and every
integer vector `t`, if each `numx[i]` is an integer nearest to `t[i]*denx/D`
(`2*|numx[i]*D - t[i]*denx| ≤ D`), the vector `dyadicToRational` returns 2, `den` equals the
least common multiple over `i` of `D / gcd (t[i], D)` (1 for the empty vector), and
`num[i]*D = t[i]*den` for every `i`. Test families: for every `k ≥ 1`, on the `2k+4` entries
`numx[i] = (i-(k+2))*(k+2)` with `denx = k*k+2*k`, `B = k+1`, the result is code 2,
`den = k`, `num[i] = i-(k+2)`; on the 10-entry special case with `denx = 2^64`, `B = 2^32`,
the result is code 2, `den = 691617936` and `num = ntrue`. -/
theorem C15_vector_round_trip :
    (∀ (num numx t : List Int) (denx B D : Int), 0 < D → D ≤ B → D * B < denx →
      num.length = numx.length → t.length = numx.length →
      (∀ i, i < numx.length → 2 * |numx.getD i 0 * D - t.getD i 0 * denx| ≤ D) →
      ∃ r, dyadicToRationalVector num numx denx B = some r ∧ r.ret = 2 ∧
        r.den = t.foldl (fun acc ti => (Int.lcm (D / (Int.gcd ti D : Int)) acc : Int)) 1 ∧
        ∀ i, i < numx.length → r.num.getD i 0 * D = t.getD i 0 * r.den) ∧
    (∀ (k : Nat) (num : List Int), 1 ≤ k → num.length = 2 * k + 4 →
      ∃ r, dyadicToRationalVector num
          ((List.range (2 * k + 4)).map (fun i : Nat => ((i : Int) - (k + 2)) * (k + 2)))
          ((k : Int) * k + 2 * k) (k + 1) = some r ∧
        r.ret = 2 ∧ r.den = k ∧ ∀ i, i < 2 * k + 4 → r.num.getD i 0 = (i : Int) - (k + 2)) ∧
    dyadicToRationalVector [0, 0, 0, 0, 0, 0, 0, 0, 0, 0]
        [-143298423624962150784, 239120348615509085366, -4959983787562075119, 27008864641551149627, 62971469325838237476, 190559070838297135961, 176172593329811309753, -70861003759845628342, -228416339507338896853, -14398832745762391791]
        18446744073709551616 4294967296
      = some ⟨[-5372642434, 8965263534, -185963102, 1012634812, 2360969365, 7144570919, 6605183272, -2656769182, -8563941509, -539850878], 691617936, 2⟩ := by
  refine ⟨?_, ?_, by decide⟩
  · intro num numx t denx B D hD hDB hmargin hlen htlen hnear
    obtain ⟨r, h1, h2, h3, _, _, _, h7⟩ :=
      vector_round_trip num numx t denx B D hD hDB hmargin hlen htlen hnear
    exact ⟨r, h1, h2, h3, h7⟩
  · intro k num hk hnum
    have hkpos : (0 : Int) < (k : Int) := by exact_mod_cast hk
    obtain ⟨r, h1, h2, _, h4, h5, _, h7⟩ := vector_round_trip num
      ((List.range (2 * k + 4)).map (fun i : Nat => ((i : Int) - (k + 2)) * (k + 2)))
      ((List.range (2 * k + 4)).map (fun i : Nat => (i : Int) - (k + 2)))
      ((k : Int) * k + 2 * k) (k + 1) k hkpos (by omega) (by nlinarith)
      (by simp [hnum]) (by simp)
      (by
        intro i hi
        simp only [List.length_map, List.length_range] at hi
        rw [getD_map_range _ _ _ hi, getD_map_range _ _ _ hi]
        have : ((i : Int) - (k + 2)) * (k + 2) * k - ((i : Int) - (k + 2)) * ((k : Int) * k + 2 * k)
            = 0 := by ring
        rw [this]
        simp)
    simp only [List.length_map, List.length_range] at h7
    have hden : r.den = k := by
      have h := h7 (k + 3) (by omega)
      rw [getD_map_range _ _ _ (by omega)] at h
      have e : ((((k + 3 : Nat) : Int)) - (k + 2)) = 1 := by push_cast; ring
      rw [e, one_mul] at h
      have hk_dvd : (k : Int) ∣ r.den := ⟨r.num.getD (k + 3) 0, by rw [← h]; ring⟩
      exact Int.dvd_antisymm h4.le hkpos.le h5 hk_dvd
    refine ⟨r, h1, h2, hden, fun i hi => ?_⟩
    have h := h7 i hi
    rw [getD_map_range _ _ _ hi, hden] at h
    exact mul_right_cancel₀ (ne_of_gt hkpos) h

theorem C15_vector_round_trip_witness :
    ∃ r, dyadicToRationalVector [0, 0, 0, 0, 0, 0, 0, 0, 0, 0]
        [-143298423624962150784, 239120348615509085366, -4959983787562075119, 27008864641551149627, 62971469325838237476, 190559070838297135961, 176172593329811309753, -70861003759845628342, -228416339507338896853, -14398832745762391791]
        18446744073709551616 4294967296 = some r ∧ r.ret = 2 ∧
      r.den = ([-5372642434, 8965263534, -185963102, 1012634812, 2360969365, 7144570919, 6605183272, -2656769182, -8563941509, -539850878] : List Int).foldl
        (fun acc ti => (Int.lcm (691617936 / (Int.gcd ti 691617936 : Int)) acc : Int)) 1 ∧
      ∀ i, i < ([-143298423624962150784, 239120348615509085366, -4959983787562075119, 27008864641551149627, 62971469325838237476, 190559070838297135961, 176172593329811309753, -70861003759845628342, -228416339507338896853, -14398832745762391791] : List Int).length →
        r.num.getD i 0 * 691617936 = ([-5372642434, 8965263534, -185963102, 1012634812, 2360969365, 7144570919, 6605183272, -2656769182, -8563941509, -539850878] : List Int).getD i 0 * r.den :=
  C15_vector_round_trip.1 [0, 0, 0, 0, 0, 0, 0, 0, 0, 0]
    [-143298423624962150784, 239120348615509085366, -4959983787562075119, 27008864641551149627, 62971469325838237476, 190559070838297135961, 176172593329811309753, -70861003759845628342, -228416339507338896853, -14398832745762391791]
    [-5372642434, 8965263534, -185963102, 1012634812, 2360969365, 7144570919, 6605183272, -2656769182, -8563941509, -539850878]
    18446744073709551616 4294967296 691617936 (by decide) (by decide) (by decide) (by decide)
    (by decide) (by decide)

/-! ## Further claims on the scalar routine -/

/-- The pair returned by `partial_hegcd` on `n ≥ 0`, `d > 0` is on the lattice with a
numerator coefficient coprime to its denominator. -/
theorem partial_hegcd_coprime (n d B : Int) (hn : 0 ≤ n) (hd : 0 < d) :
    ∃ res a, partial_hegcd n d B = some res ∧ res.e = res.b * n - a * d ∧
      IsCoprime a res.b := by
  have key : ∃ res, partial_hegcd n d B = some res ∧
      ∃ a, res.e = res.b * n - a * d ∧ IsCoprime a res.b := by
    unfold partial_hegcd
    apply partial_hegcd.loop_rule B
      (fun r0 b0 r1 b1 => ∃ a0 a1 σ, HInv n d B a0 a1 σ r0 b0 r1 b1)
      (fun res => ∃ a, res.e = res.b * n - a * d ∧ IsCoprime a res.b)
    · rintro r0 b0 r1 b1 ⟨a0, a1, σ, h⟩; exact h.r1_pos
    · rintro r0 b0 r1 b1 ⟨a0, a1, σ, h⟩ hw hB
      exact ⟨_, _, _, h.step hw hB⟩
    · rintro r0 b0 r1 b1 ⟨a0, a1, σ, h⟩ _
      refine ⟨a1, h.eq1, σ * b0, -(σ * a0), ?_⟩
      have := h.sq
      have hdet := h.det
      linear_combination σ * hdet + this
    · rintro r0 b0 r1 b1 ⟨a0, a1, σ, h⟩ _ _
      obtain ⟨g1, _, _, _, _, g6, _, _⟩ := h.next
      refine ⟨_, g1, -(σ * b1), σ * a1, ?_⟩
      have := h.sq
      linear_combination (-σ) * g6 + this
    · exact ⟨0, -1, -1, HInv.init n d B hn hd⟩
    · omega
  obtain ⟨res, h1, a, h2, h3⟩ := key
  exact ⟨res, a, h1, h2, h3⟩

/-- For `d > 0` and `B ≥ 1` the scalar routine returns a denominator in `1..B` and a code
1 or 2. -/
theorem dyadicToRational_pos (n d B : Int) (hd : 0 < d) (hB : 1 ≤ B) :
    ∃ r, dyadicToRational n d B = some r ∧ 0 < r.b ∧ r.b ≤ B ∧ (r.ret = 1 ∨ r.ret = 2) := by
  obtain ⟨res, A, _, hout, _, _, heq⟩ := dyadicToRational_spec n d B hd
  obtain ⟨_, _, _, _, _, _, _, hf, hnf⟩ := hout
  refine ⟨_, heq, ?_⟩
  simp only
  have key : 1 ≤ |res.b| ∧ |res.b| ≤ B := by
    cases hfound : res.found with
    | true => exact ⟨(hf hfound).2.2, (hf hfound).2.1⟩
    | false =>
      rcases hnf hfound with ⟨_, _, hlt⟩ | ⟨g1, g2, _⟩
      · omega
      · exact ⟨g1, g2⟩
  refine ⟨by omega, key.2, ?_⟩
  have hb : |res.b| > 0 := by omega
  cases hfound : res.found with
  | true =>
    by_cases hg : |res.b| * B < d <;> simp [hg]
  | false => simp [hb]

/-- C12. For every integer `n` and all `d > 0`, `B ≥ 1`, the scalar `dyadicToRational`
returns with code 1 or 2 and its output pair `(a, b)` is in lowest terms:
`gcd(|a|, b) = 1`. -/
theorem C12_lowest_terms (n d B : Int) (hd : 0 < d) (hB : 1 ≤ B) :
    ∃ r, dyadicToRational n d B = some r ∧ (r.ret = 1 ∨ r.ret = 2) ∧
      Int.gcd |r.a| r.b = 1 := by
  obtain ⟨r, hr, _, _, hret⟩ := dyadicToRational_pos n d B hd hB
  obtain ⟨res, a, hres, he, hcop⟩ := partial_hegcd_coprime |n| d B (abs_nonneg n) hd
  refine ⟨r, hr, hret, ?_⟩
  rw [dyadicToRational_eq n d B res hres] at hr
  obtain rfl := Option.some.inj hr
  have hdiv : Int.tdiv (res.e - res.b * |n|) d = -a := by
    have : res.e - res.b * |n| = -a * d := by rw [he]; ring
    rw [this]; exact Int.mul_tdiv_cancel _ (by omega)
  have hg : Int.gcd a res.b = 1 := Int.isCoprime_iff_gcd_eq_one.mp hcop
  simp only [hdiv]
  split_ifs <;> simpa [Int.gcd, Int.natAbs_abs, Int.natAbs_neg] using hg

theorem C12_lowest_terms_witness :
    (0 : Int) < 20 ∧ (1 : Int) ≤ 5 ∧
      ∃ r, dyadicToRational 13 20 5 = some r ∧ (r.ret = 1 ∨ r.ret = 2) ∧
        Int.gcd |r.a| r.b = 1 :=
  ⟨by decide, by decide, C12_lowest_terms 13 20 5 (by decide) (by decide)⟩

/-- C11, counterexample. For `a*/b* = 1/3`, `B = 2 < 3`, `d = 5` and the nearest integer
`n = 2` to `5/3`, the scalar `dyadicToRational` returns 2 (Guaranteed), with `(a, b) = (1, 2)`. -/
theorem C11_boundary_counterexample :
    (Int.gcd 1 3 = 1 ∧ (0 : Int) < 2 ∧ (2 : Int) < 3 ∧ (0 : Int) < 5 ∧
        2 * |(2 : Int) * 3 - 1 * 5| ≤ 3) ∧
      dyadicToRational 2 5 2 = some ⟨1, 2, 2⟩ := by
  decide

/-- C11, amended. For all coprime integers `a*`, `b*` and every bound `B` with
`0 < B < b*`, every `d > 0`, and `n` a nearest integer to `a*·d/b*`, the scalar
`dyadicToRational (n, d, B)` never returns the denominator `b*`: it returns code 1 or 2 with
a denominator `0 < b ≤ B`, different from `b*`; it does not return Guaranteed when
`b*·B < d`. -/
theorem C11_boundary (a b B d n : Int) (hcop : Int.gcd a b = 1) (hB : 0 < B) (hBb : B < b)
    (hd : 0 < d) (happ : 2 * |n * b - a * d| ≤ b) :
    ∃ r, dyadicToRational n d B = some r ∧ (r.ret = 1 ∨ r.ret = 2) ∧ 0 < r.b ∧ r.b ≤ B ∧
      r.b ≠ b ∧ (b * B < d → r.ret = 1) := by
  obtain ⟨r, hr, hpos, hle, hret⟩ := dyadicToRational_pos n d B hd (by omega)
  refine ⟨r, hr, hret, hpos, hle, by omega, fun hlt => ?_⟩
  rcases hret with h1 | h2
  · exact h1
  · exfalso
    obtain ⟨w1, w2, _, w4⟩ := dyadicToRational_ret_two n d B hd r hr h2
    have happ' : 2 * |b * n - a * d| ≤ b := by rw [mul_comm b]; exact happ
    have hx : r.a * b = a * r.b := by
      apply cross_eq_of_lt n d a b r.a r.b (by omega) (by omega)
      have p1 : b * (2 * |r.b * n - r.a * d|) ≤ b * r.b :=
        mul_le_mul_of_nonneg_left w4 (by omega)
      have p2 : r.b * (2 * |b * n - a * d|) ≤ r.b * b :=
        mul_le_mul_of_nonneg_left happ' (by omega)
      have p3 : b * r.b ≤ b * B := mul_le_mul_of_nonneg_left w2 (by omega)
      nlinarith
    have hdvd : b ∣ r.b := by
      have : b ∣ r.b * a := ⟨r.a, by linear_combination -hx⟩
      exact (IsCoprime.symm (Int.isCoprime_iff_gcd_eq_one.mpr hcop)).dvd_of_dvd_mul_right this
    have := Int.le_of_dvd hpos hdvd
    omega

theorem C11_boundary_witness :
    ∃ r, dyadicToRational 2 5 2 = some r ∧ (r.ret = 1 ∨ r.ret = 2) ∧ 0 < r.b ∧ r.b ≤ 2 ∧
      r.b ≠ 3 ∧ ((3 : Int) * 2 < 5 → r.ret = 1) :=
  C11_boundary 1 3 2 5 2 (by decide) (by decide) (by decide) (by decide) (by decide)

/-- C13, counterexample. For `n = 0`, `d = 1`, `B = 0` the scalar `dyadicToRational`
returns `(a, b, c) = (1, 0, 0)`, and on `-n = 0` it returns the same, not `(-1, 0, 0)`. -/
theorem C13_sign_counterexample :
    dyadicToRational 0 1 0 = some ⟨1, 0, 0⟩ ∧
      dyadicToRational (-0) 1 0 ≠ some ⟨-1, 0, 0⟩ := by
  decide

/-- C13, amended. Sign normalisation: for every `n`, `d > 0` and `B`, the scalar
`dyadicToRational` returns a result `(a, b, c)` with `b ≥ 0`, with `a ≥ 0` when `n ≥ 0`,
and the result for `|n|` is `(|a|, b, c)`; when `n ≠ 0` or `B ≥ 1`, the result for `-n` is
`(-a, b, c)`. -/
theorem C13_sign_normalisation (n d B : Int) (hd : 0 < d) :
    ∃ r, dyadicToRational n d B = some r ∧ 0 ≤ r.b ∧ (0 ≤ n → 0 ≤ r.a) ∧
      dyadicToRational |n| d B = some ⟨|r.a|, r.b, r.ret⟩ ∧
      ((n ≠ 0 ∨ 1 ≤ B) → dyadicToRational (-n) d B = some ⟨-r.a, r.b, r.ret⟩) := by
  obtain ⟨res, hres, _⟩ := partial_hegcd_spec |n| d B (abs_nonneg n) hd
  have h1 := dyadicToRational_eq n d B res hres
  have h2 := dyadicToRational_eq (-n) d B res (by rw [abs_neg]; exact hres)
  have h3 := dyadicToRational_eq |n| d B res (by rw [abs_abs]; exact hres)
  rw [abs_neg] at h2
  rw [abs_abs] at h3
  refine ⟨_, h1, abs_nonneg _, fun hn => ?_, ?_, fun hnB => ?_⟩
  · simp only
    rw [if_neg (not_lt.mpr hn)]
    exact abs_nonneg _
  · rw [h3]
    simp only
    have hnn : ¬ |n| < 0 := not_lt.mpr (abs_nonneg n)
    rw [if_neg hnn]
    split_ifs <;> simp
  · rw [h2]
    simp only
    rcases lt_trichotomy n 0 with hn | hn | hn
    · have : ¬ -n < 0 := by omega
      rw [if_neg this, if_pos hn, neg_neg]
    · subst hn
      have hB : 1 ≤ B := by
        rcases hnB with h | h
        · exact absurd rfl h
        · exact h
      have hres0 : partial_hegcd |(0 : Int)| d B = some ⟨true, 0, 1⟩ := by
        have hd0 : d ≠ 0 := by omega
        simp [partial_hegcd, partial_hegcd.loop, hd0, hB]
      rw [hres0] at hres
      obtain rfl := Option.some.inj hres
      simp
    · have h1' : -n < 0 := by omega
      have h2' : ¬ n < 0 := by omega
      rw [if_pos h1', if_neg h2']

theorem C13_sign_normalisation_witness :
    (0 : Int) < 20 ∧
    ∃ r, dyadicToRational 13 20 5 = some r ∧ 0 ≤ r.b ∧ ((0 : Int) ≤ 13 → 0 ≤ r.a) ∧
      dyadicToRational |13| 20 5 = some ⟨|r.a|, r.b, r.ret⟩ ∧
      (((13 : Int) ≠ 0 ∨ (1 : Int) ≤ 5) → dyadicToRational (-13) 20 5 = some ⟨-r.a, r.b, r.ret⟩) :=
  ⟨by decide, C13_sign_normalisation 13 20 5 (by decide)⟩

/-! ## The run of `partial_hegcd` along the remainder sequence -/

/-- After the first two iterations the coefficient strictly grows in absolute value. -/
theorem HInv.next_strict {n d B a0 a1 σ r0 b0 r1 b1 : Int}
    (h : HInv n d B a0 a1 σ r0 b0 r1 b1) (hlt0 : r1 < r0) (hb0 : 1 ≤ |b0|) :
    |b1| < |b0 - Int.tdiv r0 r1 * b1| := by
  obtain ⟨hdiv, hr2, hlt, hq, hq1⟩ := tdiv_tmod_facts r0 r1 h.r0_nonneg h.r1_pos
  have hq1' : 1 ≤ Int.tdiv r0 r1 := hq1 hlt0.le
  generalize Int.tdiv r0 r1 = q at *
  have hsb0 := h.sb0
  have hsb1 := h.sb1
  have hmul : 0 ≤ (q - 1) * (σ * b1) := mul_nonneg (by linarith) h.sb1
  rcases h.sgn with rfl | rfl
  · rw [one_mul] at hsb0 hsb1 hmul
    rw [abs_of_nonneg hsb1, abs_of_nonpos (by nlinarith)]
    rw [abs_of_nonpos hsb0] at hb0
    nlinarith
  · have h1 : b1 ≤ 0 := by linarith
    have h0 : 0 ≤ b0 := by linarith
    rw [abs_of_nonpos h1, abs_of_nonneg (by nlinarith)]
    rw [abs_of_nonneg h0] at hb0
    nlinarith

theorem remSeq_succ (n d : Int) (k : Nat) : remSeq n d (k + 1) = (hegcdState n d k).r1 := rfl

theorem coefSeq_succ (n d : Int) (k : Nat) : coefSeq n d (k + 1) = (hegcdState n d k).b1 := rfl

theorem remSeq_succ_succ (n d : Int) (k : Nat) :
    remSeq n d (k + 2) = Int.tmod (remSeq n d k) (remSeq n d (k + 1)) := rfl

theorem coefSeq_succ_succ (n d : Int) (k : Nat) :
    coefSeq n d (k + 2) =
      coefSeq n d k - Int.tdiv (remSeq n d k) (remSeq n d (k + 1)) * coefSeq n d (k + 1) := rfl

theorem TraceInv.stepOK {n d B r0 b0 r1 b1 a0 a1 : Int} {k : Nat}
    (h : HInv n d B a0 a1 ((-1) ^ (k + 1)) r0 b0 r1 b1)
    (e0 : r0 = remSeq n d k) (f0 : b0 = coefSeq n d k) (e1 : r1 = remSeq n d (k + 1))
    (f1 : b1 = coefSeq n d (k + 1)) (hall : ∀ j, 1 ≤ j → j ≤ k → HegcdStepOK n d B j) :
    ∀ j, 1 ≤ j → j ≤ k + 1 → HegcdStepOK n d B j := by
  intro j hj1 hjk
  rcases Nat.lt_or_ge j (k + 1) with hlt | hge
  · exact hall j hj1 (by omega)
  have hj : j = k + 1 := by omega
  subst hj
  obtain ⟨g1, g2, g3, g4, g5, g6, g7, g8⟩ := h.next
  have e2 : remSeq n d (k + 1 + 1) = Int.tmod r0 r1 := by
    rw [remSeq_succ_succ, ← e0, ← e1]
  have f2 : coefSeq n d (k + 1 + 1) = b0 - Int.tdiv r0 r1 * b1 := by
    rw [coefSeq_succ_succ, ← e0, ← e1, ← f0, ← f1]
  have hnw := h.notwell
  have hb1 : 1 ≤ k → 1 ≤ |b1| := by
    intro hk
    have := (hall k hk le_rfl).2.2.2.2.2.2.1
    rwa [← f1] at this
  have hph : 1 ≤ k → r1 < r0 ∧ |b1| ≤ B := by
    intro hk
    rcases h.phase with ⟨_, hz⟩ | ⟨p1, _, p3⟩
    · have := hb1 hk
      rw [hz] at this; simp at this
    · exact ⟨p1, p3⟩
  refine ⟨?_, ?_, ?_, ?_, ?_, ?_, ?_, ?_, ?_, ?_⟩
  · rw [← e1]; exact h.r1_pos
  · rw [← e1, ← f1]; omega
  · intro hk2
    rw [← f1]; exact (hph (by omega)).2
  · rw [e2]; exact g2
  · rw [e2, ← e1]; exact g3
  · rw [f2, ← f1]; exact g8
  · rw [f2]; exact g7
  · rw [← f1]; exact h.sb1
  · rw [f2]
    have : (-1 : Int) ^ (k + 1 + 1) = -(-1) ^ (k + 1) := by ring
    rw [this]; exact g4
  · intro hk3
    rw [f2, ← f1]
    refine h.next_strict (hph (by omega)).1 ?_
    have := (hall (k - 1) (by omega) (by omega)).2.2.2.2.2.2.1
    have hk : k - 1 + 1 = k := by omega
    rw [hk] at this
    rwa [f0]

/-- Every run of the loop of `partial_hegcd` from the initial state, with any fuel
exceeding `d`, returns, and what it returns is described by the remainder sequence. -/
theorem partial_hegcd_trace (n d B : Int) (hn : 0 ≤ n) (hd : 0 < d) (fuel : Nat)
    (hfuel : d.toNat < fuel) :
    ∃ res, partial_hegcd.loop B fuel n 1 d 0 = some res ∧ HegcdTrace n d B res := by
  refine partial_hegcd.loop_rule B (TraceInv n d B) (HegcdTrace n d B) ?_ ?_ ?_ ?_
    fuel n 1 d 0 ⟨0, -1, 0, by simpa using HInv.init n d B hn hd, rfl, rfl, rfl, rfl,
      fun j h1 h2 => by omega⟩ hfuel
  · rintro r0 b0 r1 b1 ⟨a0, a1, k, h, -⟩
    exact h.r1_pos
  · rintro r0 b0 r1 b1 ⟨a0, a1, k, h, e0, f0, e1, f1, hall⟩ hw hB
    refine ⟨a1, a0 - Int.tdiv r0 r1 * a1, k + 1, ?_, e1, f1, ?_, ?_,
      TraceInv.stepOK h e0 f0 e1 f1 hall⟩
    · have : (-1 : Int) ^ (k + 1 + 1) = -(-1) ^ (k + 1) := by ring
      rw [this]; exact h.step hw hB
    · rw [remSeq_succ_succ, ← e0, ← e1]
    · rw [coefSeq_succ_succ, ← e0, ← e1, ← f0, ← f1]
  · rintro r0 b0 r1 b1 ⟨a0, a1, k, h, e0, f0, e1, f1, hall⟩ hB
    have f2 : coefSeq n d (k + 2) = b0 - Int.tdiv r0 r1 * b1 := by
      rw [coefSeq_succ_succ, ← e0, ← e1, ← f0, ← f1]
    refine ⟨k + 2, by omega, fun j h1 h2 => TraceInv.stepOK h e0 f0 e1 f1 hall j h1 (by omega),
      Or.inr (by rw [f2]; omega), ?_⟩
    rw [f2, if_neg hB]
    simp [e1, f1]
  · rintro r0 b0 r1 b1 ⟨a0, a1, k, h, e0, f0, e1, f1, hall⟩ hw hB
    have e2 : remSeq n d (k + 2) = Int.tmod r0 r1 := by
      rw [remSeq_succ_succ, ← e0, ← e1]
    have f2 : coefSeq n d (k + 2) = b0 - Int.tdiv r0 r1 * b1 := by
      rw [coefSeq_succ_succ, ← e0, ← e1, ← f0, ← f1]
    refine ⟨k + 2, by omega, fun j h1 h2 => TraceInv.stepOK h e0 f0 e1 f1 hall j h1 (by omega),
      Or.inl (by rw [e2, f2]; exact hw), ?_⟩
    rw [f2, e2, if_pos hB]

/-- More fuel does not change a result of the loop of `partial_hegcd`. -/
theorem partial_hegcd.loop_fuel_mono (B : Int) : ∀ (fuel fuel2 : Nat) (r0 b0 r1 b1 : Int)
    (res : HegcdResult), fuel ≤ fuel2 → partial_hegcd.loop B fuel r0 b0 r1 b1 = some res →
    partial_hegcd.loop B fuel2 r0 b0 r1 b1 = some res := by
  intro fuel
  induction fuel with
  | zero => intro fuel2 r0 b0 r1 b1 res _ h; simp [partial_hegcd.loop] at h
  | succ k ih =>
    intro fuel2 r0 b0 r1 b1 res hle h
    obtain ⟨m, rfl⟩ : ∃ m, fuel2 = m + 1 := ⟨fuel2 - 1, by omega⟩
    unfold partial_hegcd.loop at h ⊢
    by_cases hr : r1 = 0
    · simp [hr] at h
    · simp only [if_neg hr] at h ⊢
      split_ifs at h ⊢ with h1 h2
      · exact ih m _ _ _ _ res (by omega) h
      · exact h
      · exact h

/-- The run described by `HegcdTrace` in the terms of `HegcdStopsAt` and `hegcdOutput`,
with the chains of inequalities along the sequence. -/
theorem HegcdTrace.facts {n d B : Int} {res : HegcdResult} (h : HegcdTrace n d B res) :
    ∃ i, HegcdStopsAt n d B i ∧ res = hegcdOutput n d B i ∧
      (∀ j, 1 ≤ j → j < i → HegcdStepOK n d B j) ∧
      (∀ j k, 1 ≤ j → j ≤ k → k ≤ i → |coefSeq n d j| ≤ |coefSeq n d k|) ∧
      (∀ j k, 1 ≤ j → j ≤ k → k ≤ i → remSeq n d k + ((k - j : Nat) : Int) ≤ remSeq n d j) := by
  obtain ⟨i, hi, hall, hstop, hres⟩ := h
  refine ⟨i, ⟨hi, fun j h2 hj => ⟨(hall j (by omega) hj).2.1, (hall j (by omega) hj).2.2.1 h2⟩,
    hstop⟩, hres, hall, ?_, ?_⟩
  · intro j k hj hjk
    induction k with
    | zero => intro _; omega
    | succ m ih =>
      intro hm
      rcases Nat.lt_or_ge j (m + 1) with hlt | hge
      · exact le_trans (ih (by omega) (by omega)) (hall m (by omega) (by omega)).2.2.2.2.2.1
      · have : j = m + 1 := by omega
        subst this; exact le_rfl
  · intro j k hj hjk
    induction k with
    | zero => intro _; omega
    | succ m ih =>
      intro hm
      rcases Nat.lt_or_ge j (m + 1) with hlt | hge
      · have h1 := ih (by omega) (by omega)
        have h2 := (hall m (by omega) (by omega)).2.2.2.2.1
        have h3 : ((m + 1 - j : Nat) : Int) = ((m - j : Nat) : Int) + 1 := by omega
        omega
      · have : j = m + 1 := by omega
        subst this; simp

theorem partial_hegcd_run (n d B : Int) (hn : 0 ≤ n) (hd : 0 < d) :
    ∃ res, partial_hegcd n d B = some res ∧ HegcdTrace n d B res :=
  partial_hegcd_trace n d B hn hd (d.natAbs + 1) (by omega)

theorem remSeq_zero (n d : Int) : remSeq n d 0 = n := rfl

theorem coefSeq_zero (n d : Int) : coefSeq n d 0 = 1 := rfl

theorem remSeq_one (n d : Int) : remSeq n d 1 = d := rfl

theorem coefSeq_one (n d : Int) : coefSeq n d 1 = 0 := rfl

theorem coefSeq_two (n d : Int) : coefSeq n d 2 = 1 := by
  simp [coefSeq, hegcdState, hegcdStep]

theorem remSeq_two (n d : Int) : remSeq n d 2 = Int.tmod n d := rfl

/-- On `n = 0` the loop stops on the pair of index 2, which is `(0, 1)`. -/
theorem hegcd_stop_zero {d B : Int} {i : Nat}
    (hall : ∀ j, 1 ≤ j → j < i → HegcdStepOK 0 d B j) (hi : 2 ≤ i) : i = 2 := by
  by_contra hne
  have := (hall 2 (by omega) (by omega)).1
  rw [remSeq_two] at this
  simp at this

/-- Every pair of the remainder sequence is on the lattice `r = b*n - a*d`, together with
its successor. -/
theorem seq_lattice (n d : Int) : ∀ i : Nat,
    (∃ a, remSeq n d i = coefSeq n d i * n - a * d) ∧
    (∃ a, remSeq n d (i + 1) = coefSeq n d (i + 1) * n - a * d) := by
  intro i
  induction i with
  | zero =>
    refine ⟨⟨0, ?_⟩, ⟨-1, ?_⟩⟩
    · rw [remSeq_zero, coefSeq_zero]; ring
    · rw [remSeq_one, coefSeq_one]; ring
  | succ k ih =>
    obtain ⟨⟨a0, h0⟩, ⟨a1, h1⟩⟩ := ih
    refine ⟨⟨a1, h1⟩, ⟨a0 - Int.tdiv (remSeq n d k) (remSeq n d (k + 1)) * a1, ?_⟩⟩
    rw [remSeq_succ_succ, coefSeq_succ_succ]
    have e := Int.tmod_add_tdiv (remSeq n d k) (remSeq n d (k + 1))
    generalize Int.tdiv (remSeq n d k) (remSeq n d (k + 1)) = q at *
    generalize Int.tmod (remSeq n d k) (remSeq n d (k + 1)) = r at *
    linear_combination e + h0 - q * h1

/-! ## Claims on `partial_hegcd` and its remainder sequence -/

/-- C23: for `n ≥ 0`, `d > 0`, `B ≥ 1`, `partial_hegcd` returns, and when it returns `true`
its output `(e, b)` is the first pair `(r_i, b_i)` of the recursion `(r_0, b_0) = (n, 1)`,
`(r_1, b_1) = (d, 0)`, `r_{i+1} = r_{i-1} mod r_i`, `b_{i+1} = b_{i-1} - q*b_i` with
`2*r_i ≤ |b_i|`, and that pair has `|b_i| ≤ B`. -/
theorem C23_found_is_first_well_approximated (n d B : Int) (hn : 0 ≤ n) (hd : 0 < d)
    (hB : 1 ≤ B) :
    ∃ res, partial_hegcd n d B = some res ∧
      (res.found = true → ∃ i : Nat, res.e = remSeq n d i ∧ res.b = coefSeq n d i ∧
        2 * remSeq n d i ≤ |coefSeq n d i| ∧ |coefSeq n d i| ≤ B ∧
        ∀ j, j < i → ¬ (2 * remSeq n d j ≤ |coefSeq n d j|)) := by
  obtain ⟨res, hres, htr⟩ := partial_hegcd_run n d B hn hd
  refine ⟨res, hres, fun hfound => ?_⟩
  obtain ⟨i, hi, hall, hstop, hout⟩ := htr
  by_cases hin : |coefSeq n d i| ≤ B
  swap
  · rw [if_neg hin] at hout
    rw [hout] at hfound
    simp at hfound
  rw [if_pos hin] at hout
  have hwell : 2 * remSeq n d i ≤ |coefSeq n d i| := by
    rcases hstop with h | h
    · exact h
    · omega
  rcases eq_or_lt_of_le hn with hn0 | hnpos
  · subst hn0
    have hi2 : i = 2 := hegcd_stop_zero hall hi
    subst hi2
    refine ⟨0, ?_, ?_, ?_, ?_, fun j hj => by omega⟩
    · rw [hout, remSeq_two, remSeq_zero]; simp
    · rw [hout, coefSeq_two, coefSeq_zero]
    · rw [remSeq_zero, coefSeq_zero]; simp
    · rw [coefSeq_zero]; simpa using hB
  · refine ⟨i, by rw [hout], by rw [hout], hwell, hin, fun j hj => ?_⟩
    rcases Nat.eq_zero_or_pos j with hj0 | hjpos
    · subst hj0
      rw [remSeq_zero, coefSeq_zero]; simp; omega
    · exact (hall j hjpos hj).2.1

theorem C23_found_is_first_well_approximated_witness :
    ∃ res, partial_hegcd 13 20 5 = some res ∧
      (res.found = true → ∃ i : Nat, res.e = remSeq 13 20 i ∧ res.b = coefSeq 13 20 i ∧
        2 * remSeq 13 20 i ≤ |coefSeq 13 20 i| ∧ |coefSeq 13 20 i| ≤ 5 ∧
        ∀ j, j < i → ¬ (2 * remSeq 13 20 j ≤ |coefSeq 13 20 j|)) :=
  C23_found_is_first_well_approximated 13 20 5 (by decide) (by decide) (by decide)

/-- C24: for `n ≥ 0`, `d > 0`, `B ≥ 1`, `partial_hegcd` returns, and when it returns `false`
its output `(e, b)` is the pair `(r_k, b_k)` produced immediately before the first pair with
`|b_{k+1}| > B`; every pair up to and including it is in bound, `|b_k|` is the largest of
their `|b_j|`, and none of them satisfies `2*r_j ≤ |b_j|`. -/
theorem C24_not_found_is_last_in_bound (n d B : Int) (hn : 0 ≤ n) (hd : 0 < d) (hB : 1 ≤ B) :
    ∃ res, partial_hegcd n d B = some res ∧
      (res.found = false → ∃ k : Nat, res.e = remSeq n d k ∧ res.b = coefSeq n d k ∧
        B < |coefSeq n d (k + 1)| ∧ |res.b| ≤ B ∧
        ∀ j, j ≤ k → |coefSeq n d j| ≤ B ∧ |coefSeq n d j| ≤ |coefSeq n d k| ∧
          ¬ (2 * remSeq n d j ≤ |coefSeq n d j|)) := by
  obtain ⟨res, hres, htr⟩ := partial_hegcd_run n d B hn hd
  refine ⟨res, hres, fun hfound => ?_⟩
  obtain ⟨i, ⟨hi, _, hstop⟩, hout, hall, hmono, _⟩ := htr.facts
  unfold hegcdOutput at hout
  by_cases hin : |coefSeq n d i| ≤ B
  · rw [if_pos hin] at hout
    rw [hout] at hfound
    simp at hfound
  rw [if_neg hin] at hout
  have hi3 : 3 ≤ i := by
    by_contra hlt
    have : i = 2 := by omega
    subst this
    rw [coefSeq_two] at hin
    simp at hin; omega
  have hnpos : 0 < n := by
    rcases eq_or_lt_of_le hn with hn0 | hnpos
    · subst hn0
      have := hegcd_stop_zero hall hi
      omega
    · exact hnpos
  have hk : i - 1 + 1 = i := by omega
  have hbk : 1 ≤ |coefSeq n d (i - 1)| := by
    have := (hall (i - 2) (by omega) (by omega)).2.2.2.2.2.2.1
    have e : i - 2 + 1 = i - 1 := by omega
    rwa [e] at this
  have hkB : |coefSeq n d (i - 1)| ≤ B := (hall (i - 1) (by omega) (by omega)).2.2.1 (by omega)
  refine ⟨i - 1, by rw [hout], by rw [hout], by rw [hk]; omega, by rw [hout]; exact hkB,
    fun j hj => ?_⟩
  rcases Nat.eq_zero_or_pos j with hj0 | hjpos
  · subst hj0
    rw [remSeq_zero, coefSeq_zero]
    refine ⟨by simpa using hB, by simpa using hbk, by simp; omega⟩
  · have hs := hall j hjpos (by omega)
    refine ⟨?_, hmono j (i - 1) hjpos hj (by omega), hs.2.1⟩
    exact le_trans (hmono j (i - 1) hjpos hj (by omega)) hkB

theorem C24_not_found_is_last_in_bound_witness :
    ∃ res, partial_hegcd 13 20 2 = some res ∧
      (res.found = false → ∃ k : Nat, res.e = remSeq 13 20 k ∧ res.b = coefSeq 13 20 k ∧
        2 < |coefSeq 13 20 (k + 1)| ∧ |res.b| ≤ 2 ∧
        ∀ j, j ≤ k → |coefSeq 13 20 j| ≤ 2 ∧ |coefSeq 13 20 j| ≤ |coefSeq 13 20 k| ∧
          ¬ (2 * remSeq 13 20 j ≤ |coefSeq 13 20 j|)) :=
  C24_not_found_is_last_in_bound 13 20 2 (by decide) (by decide) (by decide)

/-- C25: for `n ≥ 0` and `d > 0`, every pair `(r_i, b_i)` of the remainder sequence of
`partial_hegcd` satisfies `r_i = b_i*n - a*d` for some integer `a`; `partial_hegcd` returns
a pair `(e, b)` with `e = b*n - a*d` for some `a`, so `d` divides `e - b*|n|` and the
division `(e - b*|n|)/d` of the scalar `dyadicToRational` is exact. -/
theorem C25_convergent_invariant (n d B : Int) (hn : 0 ≤ n) (hd : 0 < d) :
    (∀ i : Nat, ∃ a, remSeq n d i = coefSeq n d i * n - a * d) ∧
    ∃ res, partial_hegcd n d B = some res ∧ (∃ a, res.e = res.b * n - a * d) ∧
      d ∣ res.e - res.b * |n| ∧
      Int.tdiv (res.e - res.b * |n|) d * d = res.e - res.b * |n| := by
  refine ⟨fun i => (seq_lattice n d i).1, ?_⟩
  obtain ⟨res, hres, i, hi, _, _, hout⟩ := partial_hegcd_run n d B hn hd
  have hlat : ∃ a, res.e = res.b * n - a * d := by
    by_cases hin : |coefSeq n d i| ≤ B
    · rw [if_pos hin] at hout
      rw [hout]; exact (seq_lattice n d i).1
    · rw [if_neg hin] at hout
      rw [hout]; exact (seq_lattice n d (i - 1)).1
  obtain ⟨a, ha⟩ := hlat
  have hdvd : d ∣ res.e - res.b * |n| := by
    rw [abs_of_nonneg hn]
    exact ⟨-a, by rw [ha]; ring⟩
  refine ⟨res, hres, ⟨a, ha⟩, hdvd, ?_⟩
  rw [Int.tdiv_eq_ediv_of_dvd hdvd]
  exact Int.ediv_mul_cancel hdvd

theorem C25_convergent_invariant_witness :
    (∀ i : Nat, ∃ a, remSeq 13 20 i = coefSeq 13 20 i * 13 - a * 20) ∧
    ∃ res, partial_hegcd 13 20 5 = some res ∧ (∃ a, res.e = res.b * 13 - a * 20) ∧
      (20 : Int) ∣ res.e - res.b * |13| ∧
      Int.tdiv (res.e - res.b * |13|) 20 * 20 = res.e - res.b * |13| :=
  C25_convergent_invariant 13 20 5 (by decide) (by decide)

/-- C26: `partial_hegcd` terminates for every `n ≥ 0`, `d > 0` and every bound `B`: with any
iteration budget above `d` the loop returns the same result, the one of `partial_hegcd`; it
stops on a pair `(r_i, b_i)` with `2 ≤ i ≤ d + 1`; every iteration is entered with a
positive remainder `r1 = r_j` and leaves a remainder `0 ≤ r_{j+1} < r_j`. -/
theorem C26_termination (n d B : Int) (hn : 0 ≤ n) (hd : 0 < d) :
    ∃ res, partial_hegcd n d B = some res ∧
      (∀ fuel : Nat, d.toNat < fuel → partial_hegcd.loop B fuel n 1 d 0 = some res) ∧
      ∃ i : Nat, HegcdStopsAt n d B i ∧ res = hegcdOutput n d B i ∧ (i : Int) ≤ d + 1 ∧
        ∀ j, 1 ≤ j → j < i →
          0 < remSeq n d j ∧ 0 ≤ remSeq n d (j + 1) ∧ remSeq n d (j + 1) < remSeq n d j := by
  obtain ⟨res, hres, htr⟩ := partial_hegcd_run n d B hn hd
  obtain ⟨i, hstop, hout, hall, _, hdesc⟩ := htr.facts
  refine ⟨res, hres, ?_, i, hstop, hout, ?_, fun j h1 h2 => ?_⟩
  · intro fuel hfuel
    obtain ⟨res2, hres2, -⟩ := partial_hegcd_trace n d B hn hd fuel hfuel
    have e1 := partial_hegcd.loop_fuel_mono B fuel (max fuel (d.natAbs + 1)) n 1 d 0 res2
      (le_max_left _ _) hres2
    have e2 := partial_hegcd.loop_fuel_mono B (d.natAbs + 1) (max fuel (d.natAbs + 1)) n 1 d 0
      res (le_max_right _ _) hres
    rw [e1] at e2
    rw [hres2, e2]
  · have h1 := hdesc 1 (i - 1) le_rfl (by have := hstop.1; omega) (by omega)
    have h2 := (hall (i - 1) (by have := hstop.1; omega) (by have := hstop.1; omega)).1
    rw [remSeq_one] at h1
    have := hstop.1
    omega
  · have hs := hall j h1 h2
    exact ⟨hs.1, hs.2.2.2.1, hs.2.2.2.2.1⟩

theorem C26_termination_witness :
    ∃ res, partial_hegcd 13 20 5 = some res ∧
      (∀ fuel : Nat, (20 : Int).toNat < fuel →
        partial_hegcd.loop 5 fuel 13 1 20 0 = some res) ∧
      ∃ i : Nat, HegcdStopsAt 13 20 5 i ∧ res = hegcdOutput 13 20 5 i ∧ (i : Int) ≤ 20 + 1 ∧
        ∀ j, 1 ≤ j → j < i →
          0 < remSeq 13 20 j ∧ 0 ≤ remSeq 13 20 (j + 1) ∧
            remSeq 13 20 (j + 1) < remSeq 13 20 j :=
  C26_termination 13 20 5 (by decide) (by decide)

/-- C27: for positive `n` and `d`, along the successive values `(r_j, b_j)`, `j = 1, 2, …, i`,
of `(r1, b1)` in `partial_hegcd`, from the initial `(d, 0)` to the pair on which the loop
stops, the remainders strictly decrease and the `|b_j|` do not decrease. -/
theorem C27_descent (n d B : Int) (hn : 0 < n) (hd : 0 < d) :
    ∃ res, partial_hegcd n d B = some res ∧
      ∃ i : Nat, HegcdStopsAt n d B i ∧ res = hegcdOutput n d B i ∧
        ∀ j k, 1 ≤ j → j < k → k ≤ i →
          remSeq n d k < remSeq n d j ∧ |coefSeq n d j| ≤ |coefSeq n d k| := by
  obtain ⟨res, hres, htr⟩ := partial_hegcd_run n d B hn.le hd
  obtain ⟨i, hstop, hout, _, hmono, hdesc⟩ := htr.facts
  refine ⟨res, hres, i, hstop, hout, fun j k h1 h2 h3 => ⟨?_, hmono j k h1 h2.le h3⟩⟩
  have := hdesc j k h1 h2.le h3
  have e : (1 : Int) ≤ ((k - j : Nat) : Int) := by omega
  omega

theorem C27_descent_witness :
    ∃ res, partial_hegcd 13 20 5 = some res ∧
      ∃ i : Nat, HegcdStopsAt 13 20 5 i ∧ res = hegcdOutput 13 20 5 i ∧
        ∀ j k, 1 ≤ j → j < k → k ≤ i →
          remSeq 13 20 k < remSeq 13 20 j ∧ |coefSeq 13 20 j| ≤ |coefSeq 13 20 k| :=
  C27_descent 13 20 5 (by decide) (by decide)

/-- C28 (counterexample): on `(n, d, B) = (13, 20, 5)` the loop stops on the pair of index 5
and returns it; the coefficient `b_3 = -1` is negative, and `|b_3| = |b_2| = 1` does not
increase. -/
theorem C28_sign_counterexample :
    partial_hegcd 13 20 5 = some (hegcdOutput 13 20 5 5) ∧
      hegcdOutput 13 20 5 5 = ⟨true, 1, -3⟩ ∧
      coefSeq 13 20 2 = 1 ∧ coefSeq 13 20 3 = -1 ∧ coefSeq 13 20 3 < 0 ∧
      ¬ (|coefSeq 13 20 2| < |coefSeq 13 20 3|) := by
  decide

/-- C28 (amended): for `n ≥ 0` and `d > 0`, along the pairs `(r_j, b_j)`, `j = 1, …, i`, held
by `partial_hegcd` until it stops, the `b_j` alternate in sign (`b_j ≥ 0` for even `j`,
`b_j ≤ 0` for odd `j`), the `|b_j|` do not decrease, and they strictly increase at every
step except possibly from `b_2` to `b_3`. -/
theorem C28_alternating_growth (n d B : Int) (hn : 0 ≤ n) (hd : 0 < d) :
    ∃ res, partial_hegcd n d B = some res ∧
      ∃ i : Nat, HegcdStopsAt n d B i ∧ res = hegcdOutput n d B i ∧
        (∀ j, 1 ≤ j → j ≤ i → 0 ≤ (-1) ^ j * coefSeq n d j) ∧
        ∀ j, 1 ≤ j → j < i → |coefSeq n d j| ≤ |coefSeq n d (j + 1)| ∧
          (j ≠ 2 → |coefSeq n d j| < |coefSeq n d (j + 1)|) := by
  obtain ⟨res, hres, htr⟩ := partial_hegcd_run n d B hn hd
  obtain ⟨i, hstop, hout, hall, _, _⟩ := htr.facts
  refine ⟨res, hres, i, hstop, hout, fun j h1 h2 => ?_, fun j h1 h2 => ?_⟩
  · rcases Nat.lt_or_ge j i with hlt | hge
    · exact (hall j h1 hlt).2.2.2.2.2.2.2.1
    · have hj : j = i := by omega
      subst hj
      have := (hall (j - 1) (by have := hstop.1; omega) (by omega)).2.2.2.2.2.2.2.2.1
      have e : j - 1 + 1 = j := by omega
      rwa [e] at this
  · have hs := hall j h1 h2
    refine ⟨hs.2.2.2.2.2.1, fun hne => ?_⟩
    rcases Nat.lt_or_ge j 3 with hlt | hge
    · have hj : j = 1 := by omega
      subst hj
      have := hs.2.2.2.2.2.2.1
      rw [coefSeq_one, abs_zero]; omega
    · exact hs.2.2.2.2.2.2.2.2.2 hge

theorem C28_alternating_growth_witness :
    ∃ res, partial_hegcd 13 20 5 = some res ∧
      ∃ i : Nat, HegcdStopsAt 13 20 5 i ∧ res = hegcdOutput 13 20 5 i ∧
        (∀ j, 1 ≤ j → j ≤ i → 0 ≤ (-1) ^ j * coefSeq 13 20 j) ∧
        ∀ j, 1 ≤ j → j < i → |coefSeq 13 20 j| ≤ |coefSeq 13 20 (j + 1)| ∧
          (j ≠ 2 → |coefSeq 13 20 j| < |coefSeq 13 20 (j + 1)|) :=
  C28_alternating_growth 13 20 5 (by decide) (by decide)

/-! ## The balanced remainder, integer inputs, and the eager loop -/

/-- C30: for `denx > 0` and `den ≥ 1` the quotient `q` and remainder `e` left by the
adjustment of the vector loop satisfy `|x|*den = q*denx + e` and
`-ceil(denx/2) ≤ e < floor(denx/2)`; a raw remainder equal to `floor(denx/2)` is rounded
up: `q` is the raw quotient plus one and `e = floor(denx/2) - denx` is negative. -/
theorem C30_balanced_remainder (x den denx : Int) (hd : 0 < denx) (hden : 1 ≤ den) :
    |x| * den = (balancedQuoRem |x| den denx (Int.tdiv denx 2)).1 * denx +
        (balancedQuoRem |x| den denx (Int.tdiv denx 2)).2 ∧
      -((denx + 1) / 2) ≤ (balancedQuoRem |x| den denx (Int.tdiv denx 2)).2 ∧
      (balancedQuoRem |x| den denx (Int.tdiv denx 2)).2 < denx / 2 ∧
      (Int.tmod (|x| * den) denx = denx / 2 →
        (balancedQuoRem |x| den denx (Int.tdiv denx 2)).1 = Int.tdiv (|x| * den) denx + 1 ∧
        (balancedQuoRem |x| den denx (Int.tdiv denx 2)).2 = denx / 2 - denx ∧
        (balancedQuoRem |x| den denx (Int.tdiv denx 2)).2 < 0) := by
  obtain ⟨e1, e2, e3, _, _⟩ :=
    tdiv_tmod_facts (|x| * den) denx (mul_nonneg (abs_nonneg x) (by omega)) hd
  have h2 : Int.tdiv denx 2 = denx / 2 := Int.tdiv_eq_ediv hd.le (by decide)
  unfold balancedQuoRem
  simp only [h2]
  generalize Int.tdiv (|x| * den) denx = q at *
  generalize Int.tmod (|x| * den) denx = e at *
  generalize |x| * den = t at *
  split_ifs with h
  · refine ⟨by simp only; linarith, by simp only; omega, by simp only; omega, fun he => ?_⟩
    exact ⟨rfl, by simp only; omega, by simp only; omega⟩
  · refine ⟨by simp only; linarith, by simp only; omega, by simp only; omega, fun he => ?_⟩
    omega

theorem C30_balanced_remainder_witness :
    |(13 : Int)| * 3 = (balancedQuoRem |13| 3 20 (Int.tdiv 20 2)).1 * 20 +
        (balancedQuoRem |13| 3 20 (Int.tdiv 20 2)).2 ∧
      -(((20 : Int) + 1) / 2) ≤ (balancedQuoRem |13| 3 20 (Int.tdiv 20 2)).2 ∧
      (balancedQuoRem |13| 3 20 (Int.tdiv 20 2)).2 < 20 / 2 ∧
      (Int.tmod (|(13 : Int)| * 3) 20 = 20 / 2 →
        (balancedQuoRem |13| 3 20 (Int.tdiv 20 2)).1 = Int.tdiv (|(13 : Int)| * 3) 20 + 1 ∧
        (balancedQuoRem |13| 3 20 (Int.tdiv 20 2)).2 = 20 / 2 - 20 ∧
        (balancedQuoRem |13| 3 20 (Int.tdiv 20 2)).2 < 0) :=
  C30_balanced_remainder 13 3 20 (by decide) (by decide)

/-- For `denx ≥ 2` the fast path accepts an exact multiple of `denx` over `den = 1` with a
zero remainder. -/
theorem balancedQuoRem_multiple (denx m : Int) (hd : 2 ≤ denx) :
    balancedQuoRem |denx * m| 1 denx (Int.tdiv denx 2) = (|m|, 0) := by
  have h2 : Int.tdiv denx 2 = denx / 2 := Int.tdiv_eq_ediv (by omega) (by decide)
  have habs : |denx * m| * 1 = |m| * denx := by
    rw [abs_mul, abs_of_nonneg (by omega : (0 : Int) ≤ denx)]; ring
  obtain ⟨e1, e2, e3, e4, _⟩ :=
    tdiv_tmod_facts (|m| * denx) denx (mul_nonneg (abs_nonneg m) (by omega)) (by omega)
  have hq : Int.tdiv (|m| * denx) denx = |m| := Int.mul_tdiv_cancel _ (by omega)
  have he : Int.tmod (|m| * denx) denx = 0 := by
    rw [hq] at e1; linarith
  unfold balancedQuoRem
  simp only [habs, hq, he, h2]
  rw [if_neg (by omega)]

/-- For `denx ≥ 2`, from the initial denominator 1, the loop accepts every exact multiple of
`denx` on the fast path: `den` stays 1, the code stays 2, and `num[i] = numx[i]/denx`. -/
theorem vectorLoop_integer_inputs (denx B : Int) (hd : 2 ≤ denx) :
    ∀ (rest numx done : List Int), rest.length = numx.length → (∀ x ∈ numx, denx ∣ x) →
      vectorLoop denx B (Int.tdiv denx 2) rest numx done 1 [(0, 1)] 2 =
        some ⟨done ++ numx.map (· / denx), 1, 2⟩ := by
  intro rest
  induction rest with
  | nil =>
    intro numx done hlen _
    have : numx = [] := List.length_eq_zero.mp hlen.symm
    subst this
    simp [vectorLoop, fixShorties]
  | cons r0 rest ih =>
    intro numx done hlen hdvd
    cases numx with
    | nil => simp at hlen
    | cons x xs =>
      obtain ⟨m, rfl⟩ := hdvd x (List.mem_cons_self _ _)
      have hne : denx ≠ 0 := by omega
      have hm : denx * m / denx = m := Int.mul_ediv_cancel_left _ hne
      have hsign : (if denx * m < 0 then -|m| else |m|) = m := by
        have hpos : (0 : Int) < denx := by omega
        by_cases hneg : m < 0
        · rw [if_pos (mul_neg_of_pos_of_neg hpos hneg), abs_of_neg hneg]; ring
        · rw [if_neg (by have := mul_nonneg hpos.le (not_lt.mp hneg); omega),
            abs_of_nonneg (not_lt.mp hneg)]
      simp only [vectorLoop, if_neg hne, balancedQuoRem_multiple denx m hd, abs_zero, mul_zero,
        gt_iff_lt, (by decide : ¬ ((1 : Int) < 0)), if_false, hsign]
      rw [ih xs (done ++ [m]) (by simpa using hlen)
        (fun y hy => hdvd y (List.mem_cons_of_mem _ hy))]
      simp [hm]

/-- C21 (divergence): on `numx = [3]`, `denx = 1`, `B = 2` the entry is an exact multiple of
`denx`, and the routine returns `num = [3]`, `den = 1`, but with code 1 instead of 2: the
exact remainder 0 is compared with `denx/2 = 0` and rounded to `-1`, which rejects the
current denominator and calls the scalar routine. -/
theorem C21_denx_one_speculative :
    balancedQuoRem |3| 1 1 (Int.tdiv 1 2) = (4, -1) ∧
      dyadicToRational |3| 1 2 = some ⟨3, 1, 1⟩ ∧
      dyadicToRationalVector [0] [3] 1 2 = some ⟨[3], 1, 1⟩ := by
  decide

/-- The vector routine, started from any state of its loop, agrees with the eager loop
started from the state whose numerators are already rescaled by their pending factors:
same failures, same `den` and return code, and the same `num` unless the code is 0. -/
theorem vectorLoop_agree_eagerLoop (denx B denx2 : Int) :
    ∀ (rest numx done : List Int) (den : Int) (S : List (Nat × Int)) (ret : Int),
      StackOK S done.length →
      Agree (vectorLoop denx B denx2 rest numx done den S ret)
        (vectorLoopEager denx B denx2 rest numx (rescaleFrom S 0 done) den ret) := by
  intro rest
  induction rest with
  | nil =>
    intro numx done den S ret hS
    simp only [vectorLoop, vectorLoopEager]
    exact ⟨rfl, rfl, fun _ => fixShorties_eq_rescaleFrom S _ done hS⟩
  | cons r0 rest ih =>
    intro numx done den S ret hS
    cases numx with
    | nil => simp [vectorLoop, vectorLoopEager, Agree]
    | cons x xs =>
      simp only [vectorLoop, vectorLoopEager]
      by_cases hd : denx = 0
      · simp [hd, Agree]
      simp only [if_neg hd]
      by_cases hrej : 2 * |(balancedQuoRem |x| den denx denx2).2| > den
      · simp only [if_pos hrej]
        cases hsc : dyadicToRational |x| denx B with
        | none => simp [Agree]
        | some r =>
          simp only
          by_cases hr0 : r.ret = 0
          · simp only [if_pos hr0]
            exact ⟨rfl, rfl, fun h => absurd rfl h⟩
          simp only [if_neg hr0]
          by_cases hz : r.b = 0 ∨ den = 0
          · simp [hz, Agree]
          simp only [if_neg hz]
          by_cases hB : (Int.lcm r.b den : Int) > B
          · simp only [if_pos hB]
            exact ⟨rfl, rfl, fun h => absurd rfl h⟩
          simp only [if_neg hB]
          have := ih xs (done ++ [if x < 0 then -(r.a * Int.tdiv (Int.lcm r.b den) r.b)
              else r.a * Int.tdiv (Int.lcm r.b den) r.b]) (Int.lcm r.b den)
            ((done.length, Int.tdiv (Int.lcm r.b den) den) :: S)
            (if r.ret = 1 then 1 else ret)
            (by rw [List.length_append]; exact StackOK.push S _ _ hS)
          rw [rescaleFrom_snoc _ _ _ (by
              simp only [pend, lt_irrefl, if_false, one_mul]
              exact pend_eq_one_of_le S _ _ hS (le_refl _)),
            rescaleFrom_push S _ _ _ (le_refl _)] at this
          exact this
      · simp only [if_neg hrej]
        have := ih xs (done ++ [if x < 0 then -(balancedQuoRem |x| den denx denx2).1
            else (balancedQuoRem |x| den denx denx2).1]) den S ret
          (StackOK.mono S _ _ hS (by simp))
        rw [rescaleFrom_snoc S done _ (pend_eq_one_of_le S _ _ hS (le_refl _))] at this
        exact this

/-- C29 (counterexample): on `numx = [20, 13, 10]`, `denx = 20`, `B = 3` both variants fail
with `den = 6` at the third coordinate; the routine leaves `num = [1, 2, 3]`, where the
growth multipliers 3 and 2 were pushed on the stack but never applied, while the eager
variant has `num = [6, 4, 3]`. -/
theorem C29_failed_counterexample :
    dyadicToRationalVector [0, 0, 0] [20, 13, 10] 20 3 = some ⟨[1, 2, 3], 6, 0⟩ ∧
      dyadicToRationalVectorEagerLoop [0, 0, 0] [20, 13, 10] 20 3 = some ⟨[6, 4, 3], 6, 0⟩ := by
  decide

/-- C29 (amended): for all inputs, the vector `dyadicToRational` with its stack of deferred
multipliers and the eager variant either both have no result or return the same `den` and
the same return code, and, whenever that code is not 0 (Failed), the same `num`. -/
theorem C29_deferred_refines_eager (num numx : List Int) (denx B : Int) :
    Agree (dyadicToRationalVector num numx denx B)
      (dyadicToRationalVectorEagerLoop num numx denx B) := by
  have := vectorLoop_agree_eagerLoop denx B (Int.tdiv denx 2) num numx [] 1 [(0, 1)] 2
    (by simp [StackOK])
  simpa [dyadicToRationalVector, dyadicToRationalVectorEagerLoop, rescaleFrom] using this

/-! ## Flipping the sign of one input entry -/

/-- The scalar routine on `n = 0`, when it does not fail, gives the numerator 0. -/
theorem scalar_zero_num (d B : Int) (hd : 0 < d) (s : ScalarResult)
    (h : dyadicToRational 0 d B = some s) (hret : s.ret ≠ 0) : s.a = 0 := by
  have hres : partial_hegcd |0| d B =
      some (if 1 ≤ B then ⟨true, 0, 1⟩ else ⟨false, d, 0⟩) := by
    by_cases hB : 1 ≤ B <;>
    simp [partial_hegcd, partial_hegcd.loop, hd.ne', hB]
  rw [dyadicToRational_eq 0 d B _ hres] at h
  obtain rfl := Option.some.inj h
  by_cases hB : 1 ≤ B
  · simp [hB]
  · simp [hB] at hret

/-- The scalar routine on `d = 1`, when it does not fail, gives the denominator 1. -/
theorem scalar_den_one (n B : Int) (s : ScalarResult)
    (h : dyadicToRational n 1 B = some s) (hret : s.ret ≠ 0) : s.b = 1 := by
  have hres : partial_hegcd |n| 1 B =
      some (if 1 ≤ B then ⟨true, 0, 1⟩ else ⟨false, 1, 0⟩) := by
    by_cases hB : 1 ≤ B <;>
    simp [partial_hegcd, partial_hegcd.loop, hB]
  rw [dyadicToRational_eq n 1 B _ hres] at h
  obtain rfl := Option.some.inj h
  by_cases hB : 1 ≤ B
  · simp [hB]
  · simp [hB] at hret

/-- An accepted zero entry has the quotient 0: for `denx = 1` the remainder is rounded to
`-1`, which the denominator 1 does not accept. -/
theorem balancedQuoRem_zero (den denx : Int) (hd : 0 < denx) (hden : 0 < den)
    (h1 : denx = 1 → den = 1)
    (hacc : ¬ 2 * |(balancedQuoRem |0| den denx (Int.tdiv denx 2)).2| > den) :
    (balancedQuoRem |0| den denx (Int.tdiv denx 2)).1 = 0 := by
  have h2 : Int.tdiv denx 2 = denx / 2 := Int.tdiv_eq_ediv hd.le (by decide)
  unfold balancedQuoRem at hacc ⊢
  simp only [abs_zero, zero_mul, Int.zero_tdiv, Int.zero_tmod, h2] at hacc ⊢
  by_cases hc : (0 : Int) ≥ denx / 2
  · rw [if_pos hc] at hacc
    simp only at hacc
    have : denx = 1 := by omega
    have := h1 this
    subst_vars
    simp at hacc
  · rw [if_neg hc]

theorem modify_append_of_lt (f : Int → Int) (l l2 : List Int) (i : Nat) (hi : i < l.length) :
    (l ++ l2).modify f i = l.modify f i ++ l2 := by
  apply List.ext_getElem?
  intro m
  rw [List.getElem?_modify]
  rcases Nat.lt_or_ge m l.length with hm | hm
  · rw [List.getElem?_append_left hm,
      List.getElem?_append_left (by rw [List.length_modify]; exact hm), List.getElem?_modify]
  · have hne : i ≠ m := by omega
    rw [List.getElem?_append_right hm,
      List.getElem?_append_right (by rw [List.length_modify]; exact hm), List.length_modify]
    cases l2[m - l.length]? <;> simp [hne]

theorem modify_snoc_length (f : Int → Int) (l : List Int) (v : Int) :
    (l ++ [v]).modify f l.length = l ++ [f v] := by
  induction l with
  | nil => rfl
  | cons a l ih => simp only [List.cons_append, List.length_cons, List.modify_succ_cons, ih]

/-- Two failed results with the same `den` and lists that agree outside the entry `i`. -/
theorem SignFlipped.failed (i : Nat) (l l2 : List Int) (den : Int)
    (hlen : l.length = l2.length) (h : ∀ j, j ≠ i → l[j]? = l2[j]?) :
    SignFlipped i (some ⟨l, den, 0⟩) (some ⟨l2, den, 0⟩) :=
  ⟨rfl, rfl, hlen, h, fun h0 => absurd rfl h0⟩

theorem SignFlipped.failed_modify (i : Nat) (l l2 : List Int) (den : Int) (hi : i < l.length) :
    SignFlipped i (some ⟨l ++ l2, den, 0⟩) (some ⟨l.modify (- ·) i ++ l2, den, 0⟩) := by
  refine SignFlipped.failed i _ _ den (by simp) fun j hj => ?_
  rw [← modify_append_of_lt _ _ _ _ hi, List.getElem?_modify]
  cases (l ++ l2)[j]? <;> simp [Ne.symm hj]

/-- Once the coordinate `i` is done, running the loop on a state whose entry `i` is negated
gives the result with the entry `i` negated. -/
theorem vectorLoop_flip_done (denx B denx2 : Int) (i : Nat) :
    ∀ (rest numx done : List Int) (den : Int) (S : List (Nat × Int)) (ret : Int),
      i < done.length → StackOK S done.length →
      SignFlipped i (vectorLoop denx B denx2 rest numx done den S ret)
        (vectorLoop denx B denx2 rest numx (done.modify (- ·) i) den S ret) := by
  intro rest
  induction rest with
  | nil =>
    intro numx done den S ret hi hS
    simp only [vectorLoop]
    rw [fixShorties_eq_rescaleFrom S _ done hS, fixShorties_eq_rescaleFrom S _ _ hS]
    refine ⟨rfl, rfl, by simp [rescaleFrom_length], fun j hj => ?_, fun _ => ?_⟩
    · simp only [rescaleFrom_getElem?, List.getElem?_modify]
      cases done[j]? <;> simp [Ne.symm hj]
    · simp only [rescaleFrom_getElem?, List.getElem?_modify]
      cases done[i]? <;> simp
  | cons r0 rest ih =>
    intro numx done den S ret hi hS
    cases numx with
    | nil => simp [vectorLoop, SignFlipped]
    | cons x xs =>
      simp only [vectorLoop, List.length_modify]
      by_cases hd : denx = 0
      · simp [hd, SignFlipped]
      simp only [if_neg hd]
      by_cases hrej : 2 * |(balancedQuoRem |x| den denx denx2).2| > den
      · simp only [if_pos hrej]
        cases hsc : dyadicToRational |x| denx B with
        | none => simp [SignFlipped]
        | some r =>
          simp only
          by_cases hr0 : r.ret = 0
          · simp only [if_pos hr0]
            exact SignFlipped.failed_modify i _ _ _ hi
          simp only [if_neg hr0]
          by_cases hz : r.b = 0 ∨ den = 0
          · simp [hz, SignFlipped]
          simp only [if_neg hz]
          by_cases hB : (Int.lcm r.b den : Int) > B
          · simp only [if_pos hB]
            exact SignFlipped.failed_modify i _ _ _ hi
          simp only [if_neg hB]
          have := ih xs (done ++ [if x < 0 then -(r.a * Int.tdiv (Int.lcm r.b den) r.b)
              else r.a * Int.tdiv (Int.lcm r.b den) r.b]) (Int.lcm r.b den)
            ((done.length, Int.tdiv (Int.lcm r.b den) den) :: S)
            (if r.ret = 1 then 1 else ret) (by rw [List.length_append]; omega)
            (by rw [List.length_append]; exact StackOK.push S _ _ hS)
          rw [modify_append_of_lt _ _ _ _ hi] at this
          exact this
      · simp only [if_neg hrej]
        have := ih xs (done ++ [if x < 0 then -(balancedQuoRem |x| den denx denx2).1
            else (balancedQuoRem |x| den denx denx2).1]) den S ret
          (by rw [List.length_append]; omega) (StackOK.mono S _ _ hS (by simp))
        rw [modify_append_of_lt _ _ _ _ hi] at this
        exact this

theorem flip_entry (x w : Int) (h : x = 0 → w = 0) :
    (if -x < 0 then -w else w) = -(if x < 0 then -w else w) := by
  rcases lt_trichotomy x 0 with hx | hx | hx
  · rw [if_neg (by omega), if_pos hx]; ring
  · rw [h hx]; simp
  · rw [if_pos (by omega), if_neg (by omega)]

theorem fixShorties_length (S : List (Nat × Int)) (n : Nat) (num : List Int)
    (h : StackOK S n) : (fixShorties S 1 num).length = num.length := by
  rw [fixShorties_eq_rescaleFrom S n num h, rescaleFrom_length]

/-- Flipping the sign of the input entry that the loop reads `k` coordinates ahead: the result
has the same code and `den`, the same entries outside `i`, and the entry `i` negated unless
the code is 0. -/
theorem vectorLoop_flip (denx B : Int) (hd : 0 < denx) (i : Nat) :
    ∀ (rest numx done : List Int) (den : Int) (S : List (Nat × Int)) (ret : Int) (k : Nat),
      i = done.length + k → StackOK S done.length → 0 < den → (denx = 1 → den = 1) →
      SignFlipped i (vectorLoop denx B (Int.tdiv denx 2) rest numx done den S ret)
        (vectorLoop denx B (Int.tdiv denx 2) rest (numx.modify (- ·) k) done den S ret) := by
  have hd0 : denx ≠ 0 := by omega
  intro rest
  induction rest with
  | nil =>
    intro numx done den S ret k hi hS _ _
    simp only [vectorLoop]
    have hnone : (fixShorties S 1 done)[i]? = none := by
      rw [List.getElem?_eq_none_iff, fixShorties_length S _ done hS]; omega
    exact ⟨rfl, rfl, rfl, fun _ _ => rfl, fun _ => by rw [hnone]; rfl⟩
  | cons r0 rest ih =>
    intro numx done den S ret k hi hS hden hden1
    cases numx with
    | nil => simp [vectorLoop, SignFlipped]
    | cons x xs =>
      cases k with
      | zero =>
        have hi2 : i = done.length := by omega
        subst hi2
        simp only [vectorLoop, List.modify_zero_cons, abs_neg, if_neg hd0]
        by_cases hrej : 2 * |(balancedQuoRem |x| den denx (Int.tdiv denx 2)).2| > den
        · simp only [if_pos hrej]
          cases hsc : dyadicToRational |x| denx B with
          | none => simp [SignFlipped]
          | some r =>
            simp only
            by_cases hr0 : r.ret = 0
            · simp only [if_pos hr0]
              exact SignFlipped.failed _ _ _ _ rfl fun _ _ => rfl
            simp only [if_neg hr0]
            by_cases hz : r.b = 0 ∨ den = 0
            · simp [hz, SignFlipped]
            simp only [if_neg hz]
            by_cases hB : (Int.lcm r.b den : Int) > B
            · simp only [if_pos hB]
              exact SignFlipped.failed _ _ _ _ rfl fun _ _ => rfl
            simp only [if_neg hB]
            have hw : x = 0 → r.a * Int.tdiv (Int.lcm r.b den) r.b = 0 := by
              intro hx
              rw [hx, abs_zero] at hsc
              rw [scalar_zero_num denx B hd r hsc hr0, zero_mul]
            have := vectorLoop_flip_done denx B (Int.tdiv denx 2) done.length rest xs
              (done ++ [if x < 0 then -(r.a * Int.tdiv (Int.lcm r.b den) r.b)
                else r.a * Int.tdiv (Int.lcm r.b den) r.b]) (Int.lcm r.b den)
              ((done.length, Int.tdiv (Int.lcm r.b den) den) :: S)
              (if r.ret = 1 then 1 else ret) (by rw [List.length_append]; simp)
              (by rw [List.length_append]; exact StackOK.push S _ _ hS)
            rw [modify_snoc_length, ← flip_entry x _ hw] at this
            exact this
        · simp only [if_neg hrej]
          have hw : x = 0 → (balancedQuoRem |x| den denx (Int.tdiv denx 2)).1 = 0 := by
            intro hx
            rw [hx] at hrej ⊢
            exact balancedQuoRem_zero den denx hd hden hden1 hrej
          have := vectorLoop_flip_done denx B (Int.tdiv denx 2) done.length rest xs
            (done ++ [if x < 0 then -(balancedQuoRem |x| den denx (Int.tdiv denx 2)).1
              else (balancedQuoRem |x| den denx (Int.tdiv denx 2)).1]) den S ret
            (by rw [List.length_append]; simp) (StackOK.mono S _ _ hS (by simp))
          rw [modify_snoc_length, ← flip_entry x _ hw] at this
          exact this
      | succ k =>
        simp only [vectorLoop, List.modify_succ_cons, if_neg hd0]
        by_cases hrej : 2 * |(balancedQuoRem |x| den denx (Int.tdiv denx 2)).2| > den
        · simp only [if_pos hrej]
          cases hsc : dyadicToRational |x| denx B with
          | none => simp [SignFlipped]
          | some r =>
            simp only
            by_cases hr0 : r.ret = 0
            · simp only [if_pos hr0]
              exact SignFlipped.failed _ _ _ _ rfl fun _ _ => rfl
            simp only [if_neg hr0]
            by_cases hz : r.b = 0 ∨ den = 0
            · simp [hz, SignFlipped]
            simp only [if_neg hz]
            by_cases hB : (Int.lcm r.b den : Int) > B
            · simp only [if_pos hB]
              exact SignFlipped.failed _ _ _ _ rfl fun _ _ => rfl
            simp only [if_neg hB]
            have hb : 0 < r.b := by
              obtain ⟨s, _, hs, _, hs0, _⟩ := dyadicToRational_facts |x| denx B hd
              rw [hsc] at hs
              obtain rfl := Option.some.inj hs
              have : r.b ≠ 0 := fun h => hz (Or.inl h)
              omega
            refine ih xs _ (Int.lcm r.b den) _ _ k (by rw [List.length_append]; simp; omega)
              (by rw [List.length_append]; exact StackOK.push S _ _ hS)
              (lcm_pos_of_pos _ _ hb hden) ?_
            intro h1
            subst h1
            rw [scalar_den_one _ B r hsc hr0, hden1 rfl]
            rfl
        · simp only [if_neg hrej]
          exact ih xs _ den S ret k (by rw [List.length_append]; simp; omega)
            (StackOK.mono S _ _ hS (by simp)) hden hden1

/-- On a return that is not a failure the entry `i` of `num` has the sign of `numx[i]`. -/
theorem vector_entry_sign (num numx : List Int) (denx B : Int) (hd : 0 < denx)
    (r : VectorResult) (h : dyadicToRationalVector num numx denx B = some r) (hret : r.ret ≠ 0)
    (i : Nat) (hi : i < num.length) :
    (numx.getD i 0 < 0 → r.num.getD i 0 ≤ 0) ∧ (0 ≤ numx.getD i 0 → 0 ≤ r.num.getD i 0) := by
  obtain ⟨_, hlen2, he, hget⟩ := vector_run_eager num numx denx B r h hret
  have hi2 : i < (numx.take num.length).length := by rw [hlen2]; exact hi
  obtain ⟨sti, _, _, hsd, _, hrd, _, hcase⟩ :=
    eager_coordinate (numx.take num.length) denx B hd r he hret i hi2
  have hx : (numx.take num.length).get ⟨i, hi2⟩ = numx.getD i 0 := by
    rw [← hget i hi]
    simp only [List.getD_eq_getElem?_getD, List.get_eq_getElem]
    rw [List.getElem?_eq_getElem hi2]; rfl
  rw [hx] at hcase
  have key : ∃ v m : Int, 0 ≤ v ∧ 0 ≤ m ∧
      r.num[i]? = some ((if numx.getD i 0 < 0 then -v else v) * m) := by
    rcases hcase with ⟨_, hv⟩ | ⟨_, s, hs, _, hsb, _, _, _, hv⟩
    · exact ⟨_, _, (balancedQuoRem_spec _ _ _ _ (abs_nonneg _) hsd.le hd).2,
        Int.ediv_nonneg hrd.le hsd.le, hv⟩
    · obtain ⟨s2, _, hs2, _, _, _, _, ha, _⟩ := dyadicToRational_facts |numx.getD i 0| denx B hd
      rw [hs] at hs2
      obtain rfl := Option.some.inj hs2
      exact ⟨_, _, ha (abs_nonneg _), Int.ediv_nonneg hrd.le hsb.le, hv⟩
  obtain ⟨v, m, hv, hm, hval⟩ := key
  rw [getD_of_getElem? _ _ _ hval]
  constructor
  · intro hneg
    rw [if_pos hneg]
    have := mul_nonneg hv hm
    linarith
  · intro hpos
    rw [if_neg (by omega)]
    exact mul_nonneg hv hm

/-- C22 (counterexample): on `numx = [13, 10]`, `denx = 20`, `B = 3` the routine fails at the
second coordinate, where it returns before the sign is applied: with `numx[1]` flipped to
`-10` it returns the same `num = [2, 3]`, so `num[1]` is not negated. -/
theorem C22_failed_counterexample :
    dyadicToRationalVector [0, 0] [13, 10] 20 3 = some ⟨[2, 3], 6, 0⟩ ∧
      List.modify (- ·) 1 [(13 : Int), 10] = [13, -10] ∧
      dyadicToRationalVector [0, 0] [13, -10] 20 3 = some ⟨[2, 3], 6, 0⟩ := by
  decide

/-- C22 (amended): for `denx > 0`, flipping the sign of the single input entry `numx[i]`
leaves the return code, `den` and every other `num[j]` unchanged on every return, and an
absent result absent; when the return code is not 0 (Failed) it negates `num[i]`, and then
`num[i] ≤ 0` when `numx[i] < 0` and `num[i] ≥ 0` when `numx[i] ≥ 0`. -/
theorem C22_sign_flip (num numx : List Int) (denx B : Int) (i : Nat) (hd : 0 < denx) :
    (dyadicToRationalVector num numx denx B = none →
      dyadicToRationalVector num (numx.modify (- ·) i) denx B = none) ∧
    ∀ r, dyadicToRationalVector num numx denx B = some r →
      ∃ r2, dyadicToRationalVector num (numx.modify (- ·) i) denx B = some r2 ∧
        r2.ret = r.ret ∧ r2.den = r.den ∧ r2.num.length = r.num.length ∧
        (∀ j, j ≠ i → r2.num[j]? = r.num[j]?) ∧
        (r.ret ≠ 0 → r2.num[i]? = (r.num[i]?).map (- ·)) ∧
        (r.ret ≠ 0 → i < num.length →
          (numx.getD i 0 < 0 → r.num.getD i 0 ≤ 0) ∧ (0 ≤ numx.getD i 0 → 0 ≤ r.num.getD i 0)) := by
  have key := vectorLoop_flip denx B hd i num numx [] 1 [(0, 1)] 2 i (by simp)
    (by simp [StackOK]) (by decide) (fun _ => rfl)
  change SignFlipped i (dyadicToRationalVector num numx denx B)
    (dyadicToRationalVector num (numx.modify (- ·) i) denx B) at key
  constructor
  · intro h
    rw [h] at key
    cases h2 : dyadicToRationalVector num (numx.modify (- ·) i) denx B with
    | none => rfl
    | some b => rw [h2] at key; exact absurd key (by simp [SignFlipped])
  · intro r h
    rw [h] at key
    cases h2 : dyadicToRationalVector num (numx.modify (- ·) i) denx B with
    | none => rw [h2] at key; exact absurd key (by simp [SignFlipped])
    | some b =>
      rw [h2] at key
      obtain ⟨k1, k2, k3, k4, k5⟩ := key
      exact ⟨b, rfl, k1.symm, k2.symm, k3.symm, fun j hj => (k4 j hj).symm, k5,
        fun hret hi => vector_entry_sign num numx denx B hd r h hret i hi⟩

theorem C22_sign_flip_witness :
    (dyadicToRationalVector [0, 0] [13, 10] 20 6 = none →
      dyadicToRationalVector [0, 0] (List.modify (- ·) 1 [13, 10]) 20 6 = none) ∧
    ∀ r, dyadicToRationalVector [0, 0] [13, 10] 20 6 = some r →
      ∃ r2, dyadicToRationalVector [0, 0] (List.modify (- ·) 1 [13, 10]) 20 6 = some r2 ∧
        r2.ret = r.ret ∧ r2.den = r.den ∧ r2.num.length = r.num.length ∧
        (∀ j, j ≠ 1 → r2.num[j]? = r.num[j]?) ∧
        (r.ret ≠ 0 → r2.num[1]? = (r.num[1]?).map (- ·)) ∧
        (r.ret ≠ 0 → 1 < [(0 : Int), 0].length →
          (([13, 10] : List Int).getD 1 0 < 0 → r.num.getD 1 0 ≤ 0) ∧
          (0 ≤ ([13, 10] : List Int).getD 1 0 → 0 ≤ r.num.getD 1 0)) :=
  C22_sign_flip [0, 0] [13, 10] 20 6 1 (by decide)

/-! ## Rounding, positive divisors, and failures of the vector routine -/

/-- For an even `denx > 0` the adjusted remainder is balanced: `2*|e| ≤ denx`; for every
`denx > 0` it satisfies `2*|e| ≤ denx + 1`. -/
theorem balancedQuoRem_abs (x den denx : Int) (hd : 0 < denx) (hden : 0 ≤ den) :
    2 * |(balancedQuoRem |x| den denx (Int.tdiv denx 2)).2| ≤ denx + 1 ∧
      (2 ∣ denx → 2 * |(balancedQuoRem |x| den denx (Int.tdiv denx 2)).2| ≤ denx) := by
  obtain ⟨_, e2, e3, _, _⟩ :=
    tdiv_tmod_facts (|x| * den) denx (mul_nonneg (abs_nonneg x) hden) hd
  have h2 : Int.tdiv denx 2 = denx / 2 := Int.tdiv_eq_ediv hd.le (by decide)
  unfold balancedQuoRem
  simp only [h2]
  generalize Int.tmod (|x| * den) denx = e at *
  split_ifs with h
  · simp only
    rw [abs_of_nonpos (by omega)]
    exact ⟨by omega, fun hev => by omega⟩
  · simp only
    rw [abs_of_nonneg e2]
    exact ⟨by omega, fun hev => by omega⟩

/-- C31 (divergence): for `|numx[i]|*den = 2` and `denx = 5` the adjustment gives `q = 1` and
`e = -3`, so `2*|e| = 6 > 5`: the remainder is not balanced and `q` is not a nearest integer
to `2/5`, while the unadjusted `q = 0`, `e = 2` was. -/
theorem C31_odd_denx_unbalanced :
    balancedQuoRem |2| 1 5 (Int.tdiv 5 2) = (1, -3) ∧
      ¬ (2 * |(balancedQuoRem |2| 1 5 (Int.tdiv 5 2)).2| ≤ 5) ∧
      (Int.tdiv (|2| * 1) 5, Int.tmod (|2| * 1) 5) = (0, 2) ∧ 2 * |(2 : Int)| ≤ 5 := by
  decide

/-- C36: for `n ≥ 0`, `d > 0` and every bound `B`, `partial_hegcd` returns a result (the
model has no result when a division by zero is reached); the loop stops on a pair
`(r_i, b_i)`, and every iteration, entered with `r1 = r_j` for `1 ≤ j < i`, divides by
`r_j > 0`, with `2*r_j > |b_j| ≥ 0`. -/
theorem C36_positive_divisor (n d B : Int) (hn : 0 ≤ n) (hd : 0 < d) :
    (∀ (fuel : Nat) (r0 b0 b1 : Int), partial_hegcd.loop B fuel r0 b0 0 b1 = none) ∧
    ∃ res, partial_hegcd n d B = some res ∧
      ∃ i : Nat, HegcdStopsAt n d B i ∧ res = hegcdOutput n d B i ∧
        ∀ j, 1 ≤ j → j < i →
          0 < remSeq n d j ∧ 0 ≤ |coefSeq n d j| ∧ |coefSeq n d j| < 2 * remSeq n d j := by
  constructor
  · intro fuel r0 b0 b1
    cases fuel <;> simp [partial_hegcd.loop]
  · obtain ⟨res, hres, htr⟩ := partial_hegcd_run n d B hn hd
    obtain ⟨i, hstop, hout, hall, _, _⟩ := htr.facts
    refine ⟨res, hres, i, hstop, hout, fun j h1 h2 => ?_⟩
    have hs := hall j h1 h2
    exact ⟨hs.1, abs_nonneg _, lt_of_not_ge hs.2.1⟩

theorem C36_positive_divisor_witness :
    (∀ (fuel : Nat) (r0 b0 b1 : Int), partial_hegcd.loop 5 fuel r0 b0 0 b1 = none) ∧
    ∃ res, partial_hegcd 13 20 5 = some res ∧
      ∃ i : Nat, HegcdStopsAt 13 20 5 i ∧ res = hegcdOutput 13 20 5 i ∧
        ∀ j, 1 ≤ j → j < i →
          0 < remSeq 13 20 j ∧ 0 ≤ |coefSeq 13 20 j| ∧
            |coefSeq 13 20 j| < 2 * remSeq 13 20 j :=
  C36_positive_divisor 13 20 5 (by decide) (by decide)

/-- On a return that is not a failure, a coordinate satisfies the residual bound over the
final denominator unless it was reconstructed by the scalar routine with a pair that
`partial_hegcd` did not find, in which case the return code is 1. -/
theorem vector_residual_cases (num numx : List Int) (denx B : Int) (hd : 0 < denx)
    (r : VectorResult) (h : dyadicToRationalVector num numx denx B = some r)
    (hret : r.ret ≠ 0) (i : Nat) (hi : i < num.length) :
    2 * |numx.getD i 0 * r.den - r.num.getD i 0 * denx| ≤ r.den ∨
      (r.ret ≤ 1 ∧ ∃ d s, rejectedAt num numx denx B i = some (d, s) ∧ s.ret = 1) := by
  obtain ⟨hlen, hxl, he, hget⟩ := vector_run_eager num numx denx B r h hret
  rcases eager_coverage _ denx B hd r he hret i (by omega) with ⟨d, s, hrej⟩ | ⟨d, q, hacc⟩
  · obtain ⟨f1, f2, _, f4, f5, f6, _, f8⟩ :=
      eager_rejected_facts _ denx B hd r he hret i d s hrej
    rw [hget i hi] at f8
    obtain ⟨s2, res, hs2, hres, _, _, _, _, g7, g8⟩ :=
      dyadicToRational_facts |numx.getD i 0| denx B hd
    have hs : dyadicToRational |numx.getD i 0| denx B = some s := by
      obtain ⟨hi2, _, _, _, _, _, hs⟩ := hrej
      have : (numx.take num.length).get ⟨i, hi2⟩ = numx.getD i 0 := by
        rw [← hget i hi]
        simp [List.getD_eq_getElem?_getD, List.getElem?_eq_getElem hi2]
      rw [this] at hs
      exact hs
    rw [hs] at hs2
    obtain rfl := Option.some.inj hs2
    cases hfound : res.found with
    | true =>
      left
      rw [getD_of_getElem? _ _ _ f8]
      have hloc : 2 * |numx.getD i 0 * s.b - (if numx.getD i 0 < 0 then -s.a else s.a) * denx|
          ≤ s.b := by
        rw [abs_signed_residual]
        have := g8 hfound
        rwa [mul_comm s.b] at this
      exact residual_scale _ denx _ s.b r.den f2 f4 f6.le hloc
    | false =>
      right
      have hs1 : s.ret = 1 := by
        rcases f1 with h1 | h2
        · exact h1
        · have := g7 h2
          rw [hfound] at this
          exact absurd this (by decide)
      exact ⟨by omega, d, s, (rejectedAt_iff num numx denx B hlen i d s).mpr hrej, hs1⟩
  · left
    obtain ⟨f1, f2, f3, _, f5, f6⟩ := eager_accepted_facts _ denx B hd r he hret i d q hacc
    rw [hget i hi] at f5 f6
    rw [getD_of_getElem? _ _ _ f6]
    have hloc : 2 * |numx.getD i 0 * d - (if numx.getD i 0 < 0 then -q else q) * denx| ≤ d := by
      rw [abs_signed_residual]; exact f5
    exact residual_scale _ denx _ d r.den f1 f2 f3.le hloc

/-- C34: for `denx > 0`, whenever the vector `dyadicToRational` returns 2 (Guaranteed), every
coordinate `i` satisfies `2*|numx[i]*den - num[i]*denx| ≤ den` over the final `den`, whether
it was accepted on the fast path and rescaled by the final pass or obtained by scalar
reconstruction. -/
theorem C34_guaranteed_residual (num numx : List Int) (denx B : Int) (hd : 0 < denx)
    (r : VectorResult) (h : dyadicToRationalVector num numx denx B = some r)
    (hret : r.ret = 2) (i : Nat) (hi : i < num.length) :
    2 * |numx.getD i 0 * r.den - r.num.getD i 0 * denx| ≤ r.den := by
  rcases vector_residual_cases num numx denx B hd r h (by omega) i hi with hb | ⟨h1, _⟩
  · exact hb
  · omega

theorem C34_guaranteed_residual_witness :
    2 * |([13, 10] : List Int).getD 1 0 * 6 - ([4, 3] : List Int).getD 1 0 * 20| ≤ (6 : Int) :=
  C34_guaranteed_residual [0, 0] [13, 10] 20 6 (by decide) ⟨[4, 3], 6, 2⟩ (by decide) rfl 1
    (by decide)

/-- C35: for `d > 0` and `B ≥ 1` the scalar `dyadicToRational` returns, for every integer
`n`, a code 1 or 2 with `b > 0`, never 0; and when the vector `dyadicToRational` (with
`numx` at least as long as `num`) returns 0, some coordinate rejected by the fast path has a
scalar reconstruction `s` with nonzero code whose `lcm (s.b, den)` exceeds `B`. -/
theorem C35_failure_only_from_bound (d B : Int) (hd : 0 < d) (hB : 1 ≤ B) :
    (∀ n : Int, ∃ s, dyadicToRational n d B = some s ∧ (s.ret = 1 ∨ s.ret = 2) ∧ s.ret ≠ 0 ∧
      0 < s.b) ∧
    ∀ (num numx : List Int) (r : VectorResult), num.length ≤ numx.length →
      dyadicToRationalVector num numx d B = some r → r.ret = 0 →
      ∃ i den_i s, rejectedAt num numx d B i = some (den_i, s) ∧ (s.ret = 1 ∨ s.ret = 2) ∧
        (Int.lcm s.b den_i : Int) > B := by
  constructor
  · intro n
    obtain ⟨s, hs, hb, _, hr⟩ := dyadicToRational_pos n d B hd hB
    exact ⟨s, hs, hr, by omega, hb⟩
  · intro num numx r hlen h h0
    obtain ⟨re, hre, hfail⟩ := eager_total_take (numx.take num.length) d B hd
      (numx.take num.length).length (le_refl _)
    rw [eager_take_length] at hre
    have hag := vector_agree_eager num numx d B hlen
    rw [hre, h] at hag
    obtain ⟨_, hret, _⟩ := hag
    obtain ⟨i, di, s, _, hrej, hc⟩ := hfail (by rw [← hret]; exact h0)
    have hs : (s.ret = 1 ∨ s.ret = 2) := by
      obtain ⟨hi, _, _, _, _, _, hsc⟩ := hrej
      obtain ⟨s2, hs2, _, _, hr⟩ := dyadicToRational_pos |(numx.take num.length).get ⟨i, hi⟩|
        d B hd hB
      rw [hsc] at hs2
      obtain rfl := Option.some.inj hs2
      exact hr
    refine ⟨i, di, s, (rejectedAt_iff num numx d B hlen i di s).mpr hrej, hs, ?_⟩
    rcases hc with hc | hc
    · omega
    · exact hc

theorem C35_failure_only_from_bound_witness :
    (∀ n : Int, ∃ s, dyadicToRational n 20 3 = some s ∧ (s.ret = 1 ∨ s.ret = 2) ∧ s.ret ≠ 0 ∧
      0 < s.b) ∧
    ∀ (num numx : List Int) (r : VectorResult), num.length ≤ numx.length →
      dyadicToRationalVector num numx 20 3 = some r → r.ret = 0 →
      ∃ i den_i s, rejectedAt num numx 20 3 i = some (den_i, s) ∧ (s.ret = 1 ∨ s.ret = 2) ∧
        (Int.lcm s.b den_i : Int) > 3 :=
  C35_failure_only_from_bound 20 3 (by decide) (by decide)

/-! ## The shared denominator and its growth events -/

/-- The state of the routine before coordinate `i` agrees with the state of the eager variant
on the first `i` coordinates, also when it has failed. -/
theorem stateBefore_agree (num numx : List Int) (denx B : Int) (hlen : num.length ≤ numx.length)
    (i : Nat) (hi : i ≤ num.length) :
    Agree (stateBefore num numx denx B i)
      (dyadicToRationalVectorEager ((numx.take num.length).take i) denx B) := by
  have e1 : (numx.take num.length).take i = numx.take i := by
    rw [List.take_take, min_eq_left hi]
  have e2 : (num.take i).length = (numx.take i).length := by
    rw [List.length_take, List.length_take]; omega
  have e3 : (numx.take i).take (num.take i).length = numx.take i := by
    rw [e2, List.take_length]
  have := vector_agree_eager (num.take i) (numx.take i) denx B e2.le
  rw [e3] at this
  rw [e1]
  exact this

/-- Every state of the eager variant, failed or not, has a positive denominator. -/
theorem eager_den_pos (xs : List Int) (denx B : Int) (hd : 0 < denx) :
    ∀ k, k ≤ xs.length → ∀ st, dyadicToRationalVectorEager (xs.take k) denx B = some st →
      0 < st.den := by
  intro k
  induction k with
  | zero =>
    intro _ st h
    simp only [List.take_zero, dyadicToRationalVectorEager, List.foldlM_nil] at h
    obtain rfl := Option.some.inj h
    decide
  | succ k ih =>
    intro hk st h
    have hk2 : k < xs.length := by omega
    rw [eager_take_succ xs denx B k hk2] at h
    cases hsk : dyadicToRationalVectorEager (xs.take k) denx B with
    | none => rw [hsk] at h; simp at h
    | some sk =>
      rw [hsk] at h
      simp only [Option.some_bind] at h
      have hpos := ih (by omega) sk hsk
      by_cases h0 : sk.ret = 0
      · simp only [eagerStep, if_pos h0] at h
        obtain rfl := Option.some.inj h
        exact hpos
      · rcases eagerStep_cases denx B (Int.tdiv denx 2) hd sk (xs.get ⟨k, hk2⟩) h0 hpos with
          ⟨_, h2⟩ | ⟨_, s, _, hc⟩
        · rw [h2] at h
          obtain rfl := Option.some.inj h
          exact hpos
        · rcases hc with ⟨_, h2⟩ | ⟨_, hb, _, h2⟩ | ⟨_, hb, _, h2⟩
          · rw [h2] at h
            obtain rfl := Option.some.inj h
            exact hpos
          · rw [h2] at h
            obtain rfl := Option.some.inj h
            exact lcm_pos_of_pos _ _ hb hpos
          · rw [h2] at h
            obtain rfl := Option.some.inj h
            exact lcm_pos_of_pos _ _ hb hpos

/-- Induction over the scalar reconstructions performed before a state that has not failed:
a property of the list of reconstructions and the current denominator that holds initially
and is preserved by every growth holds in every such state. -/
theorem reconstructions_induction (num numx : List Int) (denx B : Int) (hd : 0 < denx)
    (hlen : num.length ≤ numx.length) (Q : List (Int × ScalarResult) → Int → Prop)
    (h0 : Q [] 1)
    (hstep : ∀ ev den s, Q ev den → 0 < den → 0 < s.b →
      Q (ev ++ [(den, s)]) (Int.lcm s.b den)) :
    ∀ k, k ≤ num.length → ∀ st,
      dyadicToRationalVectorEager ((numx.take num.length).take k) denx B = some st →
      st.ret ≠ 0 → Q ((List.range k).filterMap (rejectedAt num numx denx B)) st.den := by
  have hxl : (numx.take num.length).length = num.length := by
    rw [List.length_take]; omega
  intro k
  induction k with
  | zero =>
    intro _ st h _
    simp only [List.take_zero, dyadicToRationalVectorEager, List.foldlM_nil] at h
    obtain rfl := Option.some.inj h
    simpa using h0
  | succ k ih =>
    intro hk st h hret
    have hk2 : k < (numx.take num.length).length := by omega
    rw [eager_take_succ _ denx B k hk2] at h
    cases hsk : dyadicToRationalVectorEager ((numx.take num.length).take k) denx B with
    | none => rw [hsk] at h; simp at h
    | some sk =>
      rw [hsk] at h
      simp only [Option.some_bind] at h
      have hretk : sk.ret ≠ 0 := by
        intro h0
        simp only [eagerStep, if_pos h0] at h
        obtain rfl := Option.some.inj h
        exact hret h0
      have hQ := ih (by omega) sk hsk hretk
      obtain ⟨hpos, _, _, _⟩ := eager_good _ denx B hd k (by omega) sk hsk hretk
      rw [List.range_succ, List.filterMap_append]
      rcases eagerStep_ne_zero denx B (Int.tdiv denx 2) hd sk st _ hretk hpos h hret with
        ⟨hacc, rfl⟩ | ⟨hrej, s, hs, _, hb, _, rfl⟩
      · have hnone : rejectedAt num numx denx B k = none := by
          cases hf : rejectedAt num numx denx B k with
          | none => rfl
          | some p =>
            obtain ⟨_, sti, hsti, _, _, hrej, _⟩ :=
              (rejectedAt_iff num numx denx B hlen k p.1 p.2).mp hf
            rw [hsk] at hsti
            obtain rfl := Option.some.inj hsti
            exact absurd hrej hacc
        simpa [hnone] using hQ
      · have hsome : rejectedAt num numx denx B k = some (sk.den, s) :=
          (rejectedAt_iff num numx denx B hlen k sk.den s).mpr ⟨hk2, sk, hsk, hretk, rfl, hrej, hs⟩
        simpa [hsome] using hstep _ _ s hQ hpos hb

/-- The growth at a coordinate rejected by the fast path, for `B ≥ 1`: the current
denominator and the reconstructed one are positive and the next state has their least common
multiple as denominator. -/
theorem rejected_growth (num numx : List Int) (denx B : Int) (hd : 0 < denx) (hB : 1 ≤ B)
    (hlen : num.length ≤ numx.length) (i : Nat) (d : Int) (s : ScalarResult)
    (h : rejectedAt num numx denx B i = some (d, s)) :
    0 < d ∧ 0 < s.b ∧ (s.ret = 1 ∨ s.ret = 2) ∧
      ∃ st, stateBefore num numx denx B (i + 1) = some st ∧ st.den = Int.lcm s.b d := by
  have hxl : (numx.take num.length).length = num.length := by
    rw [List.length_take]; omega
  obtain ⟨hi, sti, hsti, hreti, rfl, hrej, hsc⟩ := (rejectedAt_iff num numx denx B hlen i d s).mp h
  obtain ⟨hpos, _, _, _⟩ := eager_good _ denx B hd i (by omega) sti hsti hreti
  obtain ⟨s2, hs2, hb, _, hr⟩ := dyadicToRational_pos |(numx.take num.length).get ⟨i, hi⟩|
    denx B hd hB
  rw [hsc] at hs2
  obtain rfl := Option.some.inj hs2
  have hnext : ∃ e, dyadicToRationalVectorEager ((numx.take num.length).take (i + 1)) denx B
      = some e ∧ e.den = Int.lcm s.b sti.den := by
    rw [eager_take_succ _ denx B i hi, hsti]
    simp only [Option.some_bind]
    rcases eagerStep_cases denx B (Int.tdiv denx 2) hd sti _ hreti hpos with
      ⟨hacc, _⟩ | ⟨_, s3, hs3, hc⟩
    · exact absurd hrej hacc
    · rw [hsc] at hs3
      obtain rfl := Option.some.inj hs3
      rcases hc with ⟨h0, _⟩ | ⟨_, _, _, h2⟩ | ⟨_, _, _, h2⟩
      · omega
      · exact ⟨_, h2, rfl⟩
      · exact ⟨_, h2, rfl⟩
  obtain ⟨e, he, hden⟩ := hnext
  have hag := stateBefore_agree num numx denx B hlen (i + 1) (by omega)
  rw [he] at hag
  cases hsb : stateBefore num numx denx B (i + 1) with
  | none => rw [hsb] at hag; exact absurd hag (by simp [Agree])
  | some st =>
    rw [hsb] at hag
    exact ⟨hpos, hb, hr, st, rfl, by rw [hag.1, hden]⟩

/-- A coordinate accepted on the fast path leaves the denominator unchanged. -/
theorem accepted_keeps_den (num numx : List Int) (denx B : Int) (hd : 0 < denx)
    (hlen : num.length ≤ numx.length) (i : Nat) (d q : Int)
    (h : acceptedAt num numx denx B i = some (d, q)) :
    0 < d ∧ ∃ st, stateBefore num numx denx B (i + 1) = some st ∧ st.den = d := by
  have hxl : (numx.take num.length).length = num.length := by
    rw [List.length_take]; omega
  obtain ⟨hi, sti, hsti, hreti, rfl, hacc, _⟩ := (acceptedAt_iff num numx denx B hlen i d q).mp h
  obtain ⟨hpos, _, _, _⟩ := eager_good _ denx B hd i (by omega) sti hsti hreti
  have hnext : ∃ e, dyadicToRationalVectorEager ((numx.take num.length).take (i + 1)) denx B
      = some e ∧ e.den = sti.den := by
    rw [eager_take_succ _ denx B i hi, hsti]
    simp only [Option.some_bind]
    rcases eagerStep_cases denx B (Int.tdiv denx 2) hd sti _ hreti hpos with
      ⟨_, h2⟩ | ⟨hrej, _⟩
    · exact ⟨_, h2, rfl⟩
    · exact absurd hrej hacc
  obtain ⟨e, he, hden⟩ := hnext
  have hag := stateBefore_agree num numx denx B hlen (i + 1) (by omega)
  rw [he] at hag
  cases hsb : stateBefore num numx denx B (i + 1) with
  | none => rw [hsb] at hag; exact absurd hag (by simp [Agree])
  | some st =>
    rw [hsb] at hag
    exact ⟨hpos, st, rfl, by rw [hag.1, hden]⟩

/-- The least common multiple of a positive `d` with a positive `b` is a multiple of `d`,
equal to `d` exactly when `b` divides `d`, and at least `2*d` otherwise. -/
theorem lcm_growth (d b : Int) (hd : 0 < d) (hb : 0 < b) :
    d ∣ (Int.lcm b d : Int) ∧ b ∣ (Int.lcm b d : Int) ∧ d ≤ (Int.lcm b d : Int) ∧
      (b ∣ d ↔ (Int.lcm b d : Int) = d) ∧ (¬ b ∣ d → 2 * d ≤ (Int.lcm b d : Int)) := by
  have hL := lcm_pos_of_pos b d hb hd
  have h1 : d ∣ (Int.lcm b d : Int) := Int.dvd_lcm_right
  have h2 : b ∣ (Int.lcm b d : Int) := Int.dvd_lcm_left
  obtain ⟨m, hm⟩ := h1
  have hm1 : 1 ≤ m := by
    by_contra hlt
    have : m ≤ 0 := by omega
    have := mul_nonpos_of_nonneg_of_nonpos hd.le this
    omega
  have hiff : b ∣ d ↔ (Int.lcm b d : Int) = d := by
    constructor
    · intro hbd
      exact Int.dvd_antisymm hL.le hd.le (Int.lcm_dvd hbd (dvd_refl d)) (Int.dvd_lcm_right)
    · intro he
      rw [← he]; exact h2
  refine ⟨Int.dvd_lcm_right, h2, ?_, hiff, ?_⟩
  · rw [hm]; nlinarith
  · intro hnd
    have hm2 : 2 ≤ m := by
      by_contra hlt
      have : m = 1 := by omega
      rw [this, mul_one] at hm
      exact hnd (hiff.mpr hm)
    rw [hm]; nlinarith

/-- C32: for `denx > 0`, `B ≥ 1` and `numx` at least as long as `num`, the vector
`dyadicToRational` returns with a positive `den`; at each coordinate rejected by the fast
path, reached with `den = d > 0` and reconstructed with `b_i > 0`, the next state has
`den = lcm (b_i, d)`, which both `d` and `b_i` divide exactly and which is at least `d`; a
coordinate accepted on the fast path leaves `den` unchanged; and on a return that is not
Failed `den` is the least common multiple of the `b_i` of all the scalar reconstructions
performed (1 if there is none). -/
theorem C32_shared_denominator (num numx : List Int) (denx B : Int) (hd : 0 < denx)
    (hB : 1 ≤ B) (hlen : num.length ≤ numx.length) :
    ∃ r, dyadicToRationalVector num numx denx B = some r ∧ 0 < r.den ∧
      (∀ i d s, rejectedAt num numx denx B i = some (d, s) →
        0 < d ∧ 0 < s.b ∧ d ∣ (Int.lcm s.b d : Int) ∧ s.b ∣ (Int.lcm s.b d : Int) ∧
        d ≤ (Int.lcm s.b d : Int) ∧
        Int.tdiv (Int.lcm s.b d) d * d = (Int.lcm s.b d : Int) ∧
        Int.tdiv (Int.lcm s.b d) s.b * s.b = (Int.lcm s.b d : Int) ∧
        ∃ st, stateBefore num numx denx B (i + 1) = some st ∧ st.den = Int.lcm s.b d) ∧
      (∀ i d q, acceptedAt num numx denx B i = some (d, q) →
        0 < d ∧ ∃ st, stateBefore num numx denx B (i + 1) = some st ∧ st.den = d) ∧
      (r.ret ≠ 0 →
        r.den = lcmList ((reconstructions num numx denx B).map (fun p => p.2.b))) := by
  have hxl : (numx.take num.length).length = num.length := by
    rw [List.length_take]; omega
  obtain ⟨re, hre, -⟩ := eager_total_take (numx.take num.length) denx B hd
    (numx.take num.length).length (le_refl _)
  have hrepos := eager_den_pos (numx.take num.length) denx B hd _ (le_refl _) re hre
  rw [eager_take_length] at hre
  have hag := vector_agree_eager num numx denx B hlen
  rw [hre] at hag
  cases hrun : dyadicToRationalVector num numx denx B with
  | none => rw [hrun] at hag; exact absurd hag (by simp [Agree])
  | some r =>
    rw [hrun] at hag
    refine ⟨r, rfl, by rw [hag.1]; exact hrepos, fun i d s hrej => ?_, fun i d q hacc => ?_,
      fun hret => ?_⟩
    · obtain ⟨g1, g2, _, g4⟩ := rejected_growth num numx denx B hd hB hlen i d s hrej
      obtain ⟨l1, l2, l3, _, _⟩ := lcm_growth d s.b g1 g2
      refine ⟨g1, g2, l1, l2, l3, ?_, ?_, g4⟩
      · rw [Int.tdiv_eq_ediv_of_dvd l1]; exact Int.ediv_mul_cancel l1
      · rw [Int.tdiv_eq_ediv_of_dvd l2]; exact Int.ediv_mul_cancel l2
    · exact accepted_keeps_den num numx denx B hd hlen i d q hacc
    · obtain ⟨_, he⟩ := vector_eq_eager_of_ne_zero num numx denx B r hrun hret
      have := reconstructions_induction num numx denx B hd hlen
        (fun ev den => den = lcmList (ev.map (fun p => p.2.b))) rfl
        (fun ev den s hQ _ _ => by
          simp only [lcmList, List.map_append, List.map_cons, List.map_nil, List.foldl_append,
            List.foldl_cons, List.foldl_nil]
          rw [Int.lcm_comm]
          simp only [lcmList] at hQ
          rw [← hQ])
        num.length (le_refl _) r
        (by rw [List.take_take, min_self]; exact he) hret
      exact this

theorem C32_shared_denominator_witness :
    ∃ r, dyadicToRationalVector [0, 0, 0] [10, 13, 15] 20 12 = some r ∧ 0 < r.den ∧
      (∀ i d s, rejectedAt [0, 0, 0] [10, 13, 15] 20 12 i = some (d, s) →
        0 < d ∧ 0 < s.b ∧ d ∣ (Int.lcm s.b d : Int) ∧ s.b ∣ (Int.lcm s.b d : Int) ∧
        d ≤ (Int.lcm s.b d : Int) ∧
        Int.tdiv (Int.lcm s.b d) d * d = (Int.lcm s.b d : Int) ∧
        Int.tdiv (Int.lcm s.b d) s.b * s.b = (Int.lcm s.b d : Int) ∧
        ∃ st, stateBefore [0, 0, 0] [10, 13, 15] 20 12 (i + 1) = some st ∧
          st.den = Int.lcm s.b d) ∧
      (∀ i d q, acceptedAt [0, 0, 0] [10, 13, 15] 20 12 i = some (d, q) →
        0 < d ∧ ∃ st, stateBefore [0, 0, 0] [10, 13, 15] 20 12 (i + 1) = some st ∧
          st.den = d) ∧
      (r.ret ≠ 0 →
        r.den = lcmList ((reconstructions [0, 0, 0] [10, 13, 15] 20 12).map (fun p => p.2.b))) :=
  C32_shared_denominator [0, 0, 0] [10, 13, 15] 20 12 (by decide) (by decide) (by decide)

/-- C33 (counterexample): on `numx = [13, 13]`, `denx = 20`, `B = 2` the second coordinate is
rejected by the fast path with `den = 2`, its scalar reconstruction succeeds with `1/2`
(code 1), and the new `den = lcm (2, 2) = 2` is the old one, not its double; the call
returns code 1. -/
theorem C33_no_doubling_counterexample :
    dyadicToRationalVector [0, 0] [13, 13] 20 2 = some ⟨[1, 1], 2, 1⟩ ∧
      rejectedAt [0, 0] [13, 13] 20 2 1 = some (2, ⟨1, 2, 1⟩) ∧
      (Int.lcm 2 2 : Int) = 2 ∧ ¬ (2 * 2 ≤ (Int.lcm 2 2 : Int)) := by
  decide

/-- C33 (amended): for `denx > 0`, `B ≥ 1` and `numx` at least as long as `num`, every growth
event of the vector `dyadicToRational`, at a coordinate reached with `den = d` and
reconstructed with denominator `b_i`, replaces `den` by the multiple `lcm (b_i, d) ≥ d` of
`d`, which is `d` itself exactly when `b_i` divides `d` and is at least `2*d` otherwise; so on
a return that is not Failed, with `k` the number of growth events whose `b_i` does not divide
the current `den`, `2^k ≤ den ≤ B`. -/
theorem C33_growth_doubles_or_keeps (num numx : List Int) (denx B : Int) (hd : 0 < denx)
    (hB : 1 ≤ B) (hlen : num.length ≤ numx.length) :
    (∀ i d s, rejectedAt num numx denx B i = some (d, s) →
      d ∣ (Int.lcm s.b d : Int) ∧ d ≤ (Int.lcm s.b d : Int) ∧
      (s.b ∣ d ↔ (Int.lcm s.b d : Int) = d) ∧ (¬ s.b ∣ d → 2 * d ≤ (Int.lcm s.b d : Int))) ∧
    ∀ r, dyadicToRationalVector num numx denx B = some r → r.ret ≠ 0 →
      2 ^ ((reconstructions num numx denx B).filter (fun p => decide (¬ p.2.b ∣ p.1))).length
        ≤ r.den ∧ r.den ≤ B := by
  have hxl : (numx.take num.length).length = num.length := by
    rw [List.length_take]; omega
  constructor
  · intro i d s hrej
    obtain ⟨g1, g2, _, _⟩ := rejected_growth num numx denx B hd hB hlen i d s hrej
    obtain ⟨l1, _, l3, l4, l5⟩ := lcm_growth d s.b g1 g2
    exact ⟨l1, l3, l4, l5⟩
  · intro r hrun hret
    obtain ⟨_, he⟩ := vector_eq_eager_of_ne_zero num numx denx B r hrun hret
    have he2 : dyadicToRationalVectorEager ((numx.take num.length).take num.length) denx B
        = some r := by rw [List.take_take, min_self]; exact he
    have := reconstructions_induction num numx denx B hd hlen
      (fun ev den => (2 : Int) ^ (ev.filter (fun p => decide (¬ p.2.b ∣ p.1))).length ≤ den)
      (by simp)
      (fun ev den s hQ hden hb => by
        obtain ⟨_, _, l3, _, l5⟩ := lcm_growth den s.b hden hb
        rw [List.filter_append]
        by_cases hdv : s.b ∣ den
        · simp only [List.filter_cons, hdv, not_true_eq_false, decide_False, List.filter_nil,
            List.append_nil, Bool.false_eq_true, if_false]
          exact le_trans hQ l3
        · simp only [List.filter_cons, hdv, not_false_eq_true, decide_True, List.filter_nil,
            if_true, List.length_append, List.length_singleton, pow_succ]
          have := l5 hdv
          linarith)
      num.length (le_refl _) r he2 hret
    obtain ⟨_, _, _, g4⟩ := eager_good _ denx B hd num.length (by omega) r he2 hret
    exact ⟨this, g4 hB⟩

theorem C33_growth_doubles_or_keeps_witness :
    (∀ i d s, rejectedAt [0, 0, 0] [10, 13, 15] 20 12 i = some (d, s) →
      d ∣ (Int.lcm s.b d : Int) ∧ d ≤ (Int.lcm s.b d : Int) ∧
      (s.b ∣ d ↔ (Int.lcm s.b d : Int) = d) ∧ (¬ s.b ∣ d → 2 * d ≤ (Int.lcm s.b d : Int))) ∧
    ∀ r, dyadicToRationalVector [0, 0, 0] [10, 13, 15] 20 12 = some r → r.ret ≠ 0 →
      2 ^ ((reconstructions [0, 0, 0] [10, 13, 15] 20 12).filter
        (fun p => decide (¬ p.2.b ∣ p.1))).length ≤ r.den ∧ r.den ≤ 12 :=
  C33_growth_doubles_or_keeps [0, 0, 0] [10, 13, 15] 20 12 (by decide) (by decide) (by decide)

/-! ## Indices and the stack of the vector routine -/

/-- The routine returns what `exitResult` gives from the state in which the loop is left. -/
theorem vectorLoop_eq_exit (denx B denx2 : Int) :
    ∀ (rest numx done : List Int) (den : Int) (S : List (Nat × Int)) (ret : Int),
      vectorLoop denx B denx2 rest numx done den S ret =
        (vectorLoopExit denx B denx2 rest numx done den S ret).map exitResult := by
  intro rest
  induction rest with
  | nil => intro numx done den S ret; simp [vectorLoop, vectorLoopExit, exitResult]
  | cons r0 rest ih =>
    intro numx done den S ret
    cases numx with
    | nil => simp [vectorLoop, vectorLoopExit]
    | cons x xs =>
      simp only [vectorLoop, vectorLoopExit]
      by_cases hd : denx = 0
      · simp [hd]
      simp only [if_neg hd]
      by_cases hrej : 2 * |(balancedQuoRem |x| den denx denx2).2| > den
      · simp only [if_pos hrej]
        cases hsc : dyadicToRational |x| denx B with
        | none => simp
        | some r =>
          simp only
          by_cases hr0 : r.ret = 0
          · simp [hr0, exitResult]
          simp only [if_neg hr0]
          by_cases hz : r.b = 0 ∨ den = 0
          · simp [hz]
          simp only [if_neg hz]
          by_cases hB : (Int.lcm r.b den : Int) > B
          · simp [hB, exitResult]
          simp only [if_neg hB]
          exact ih _ _ _ _ _
      · simp only [if_neg hrej]
        exact ih _ _ _ _ _

theorem StackOK.head_le : ∀ (S : List (Nat × Int)) (n : Nat), StackOK S n →
    (S.headD (0, 1)).1 ≤ n := by
  intro S n h
  match S, h with
  | [p], h => simp only [StackOK] at h; simp [h]
  | p :: q :: S, h => exact h.1

/-- The stack with which the loop is left is well formed, keeps its sentinel at the bottom,
holds only growth indices below the length of `num`, and `num` keeps its length. -/
theorem vectorLoopExit_stack (denx B denx2 : Int) (N : Nat) :
    ∀ (rest numx done : List Int) (den : Int) (S : List (Nat × Int)) (ret : Int)
      (st : LoopExit), done.length + rest.length = N → StackOK S done.length →
      S.getLast? = some (0, 1) → (∀ p ∈ S, p = (0, 1) ∨ p.1 < N) →
      vectorLoopExit denx B denx2 rest numx done den S ret = some st →
      StackOK st.S N ∧ st.S.getLast? = some (0, 1) ∧ (∀ p ∈ st.S, p = (0, 1) ∨ p.1 < N) ∧
        st.num.length = N := by
  intro rest
  induction rest with
  | nil =>
    intro numx done den S ret st hN hS hlast hmem h
    simp only [vectorLoopExit] at h
    obtain rfl := Option.some.inj h
    simp only [List.length_nil, add_zero] at hN
    exact ⟨hN ▸ hS, hlast, hmem, hN⟩
  | cons r0 rest ih =>
    intro numx done den S ret st hN hS hlast hmem h
    simp only [List.length_cons] at hN
    have hSne : S ≠ [] := by
      intro hnil; rw [hnil] at hS; exact absurd hS (by simp [StackOK])
    have hpush : ∀ m : Int,
        StackOK ((done.length, m) :: S) N ∧
        ((done.length, m) :: S).getLast? = some (0, 1) ∧
        (∀ p ∈ (done.length, m) :: S, p = (0, 1) ∨ p.1 < N) := by
      intro m
      refine ⟨StackOK.mono _ _ _ (StackOK.push S _ m hS) (by omega), ?_, ?_⟩
      · obtain ⟨q, S2, rfl⟩ := List.exists_cons_of_ne_nil hSne
        rw [List.getLast?_cons_cons]; exact hlast
      · intro p hp
        rcases List.mem_cons.mp hp with rfl | hp
        · right; simp only; omega
        · exact hmem p hp
    have hlenL : ∀ v : Int, (done ++ v :: rest).length = N := by
      intro v; simp only [List.length_append, List.length_cons]; omega
    cases numx with
    | nil => simp [vectorLoopExit] at h
    | cons x xs =>
      simp only [vectorLoopExit] at h
      by_cases hd : denx = 0
      · simp [hd] at h
      simp only [if_neg hd] at h
      by_cases hrej : 2 * |(balancedQuoRem |x| den denx denx2).2| > den
      · simp only [if_pos hrej] at h
        cases hsc : dyadicToRational |x| denx B with
        | none => rw [hsc] at h; simp at h
        | some r =>
          rw [hsc] at h
          simp only at h
          by_cases hr0 : r.ret = 0
          · simp only [if_pos hr0] at h
            obtain rfl := Option.some.inj h
            exact ⟨StackOK.mono _ _ _ hS (by omega), hlast, hmem, hlenL _⟩
          simp only [if_neg hr0] at h
          by_cases hz : r.b = 0 ∨ den = 0
          · simp [hz] at h
          simp only [if_neg hz] at h
          obtain ⟨p1, p2, p3⟩ := hpush (Int.tdiv (Int.lcm r.b den) den)
          by_cases hB : (Int.lcm r.b den : Int) > B
          · simp only [if_pos hB] at h
            obtain rfl := Option.some.inj h
            exact ⟨p1, p2, p3, hlenL _⟩
          simp only [if_neg hB] at h
          exact ih xs _ _ _ _ st (by simp only [List.length_append, List.length_singleton]; omega)
            (by rw [List.length_append]; exact StackOK.push S _ _ hS) p2 p3 h
      · simp only [if_neg hrej] at h
        exact ih xs _ _ _ _ st (by simp only [List.length_append, List.length_singleton]; omega)
          (StackOK.mono _ _ _ hS (by simp)) hlast hmem h

/-- On a well-formed stack the final pass visits only indices below the top boundary index,
and visits no index twice. -/
theorem fixIndices_spec : ∀ (S : List (Nat × Int)) (n : Nat), StackOK S n →
    (∀ k ∈ fixIndices S, k < (S.headD (0, 1)).1) ∧ (fixIndices S).Nodup := by
  intro S
  induction S with
  | nil => intro n h; exact absurd h (by simp [StackOK])
  | cons p S ih =>
    intro n h
    cases S with
    | nil => simp [fixIndices]
    | cons q S =>
      obtain ⟨_, h2⟩ := h
      obtain ⟨i1, i2⟩ := ih p.1 h2
      have hq : q.1 ≤ p.1 := StackOK.head_le _ _ h2
      simp only [List.headD_cons] at i1
      simp only [fixIndices, List.headD_cons]
      constructor
      · intro k hk
        rcases List.mem_append.mp hk with hk | hk
        · rw [List.mem_reverse, List.mem_range'_1] at hk
          omega
        · have := i1 k hk
          omega
      · rw [List.nodup_append]
        refine ⟨List.nodup_reverse.mpr (List.nodup_range' _ _), i2, ?_⟩
        intro k hk1 hk2
        rw [List.mem_reverse, List.mem_range'_1] at hk1
        have := i1 k hk2
        omega

/-- The final pass leaves every entry whose index it does not visit unchanged. -/
theorem fixShorties_untouched : ∀ (S : List (Nat × Int)) (t : Int) (num : List Int) (idx : Nat),
    idx ∉ fixIndices S → (fixShorties S t num)[idx]? = num[idx]? := by
  intro S
  induction S with
  | nil => intro t num idx _; simp [fixShorties]
  | cons p S ih =>
    intro t num idx h
    cases S with
    | nil => simp [fixShorties]
    | cons q S =>
      simp only [fixIndices, List.mem_append, List.mem_reverse, List.mem_range'_1, not_or] at h
      simp only [fixShorties]
      rw [ih _ _ idx h.2, fixRange_getElem?]
      have : ¬ (q.1 ≤ idx ∧ idx < p.1) := by omega
      cases num[idx]? <;> simp [this]

/-- C37: for `denx > 0` and `num`, `numx` of the same length, the loop of the vector
`dyadicToRational` is left without reading outside `numx` (the model has no result
otherwise) and the routine returns from the exit state; `num` keeps its length; the stack is
never empty and has the sentinel `(0, 1)` at its bottom; every other stack index is below the
length; the indices visited by the final pass lie below the most recent growth index and
below the length, none is visited twice, and the entries it does not visit are unchanged. -/
theorem C37_indices_in_range (num numx : List Int) (denx B : Int) (hd : 0 < denx)
    (hlen : num.length = numx.length) :
    ∃ st, vectorLoopExit denx B (Int.tdiv denx 2) num numx [] 1 [(0, 1)] 2 = some st ∧
      dyadicToRationalVector num numx denx B = some (exitResult st) ∧
      st.num.length = num.length ∧ st.S ≠ [] ∧ st.S.getLast? = some (0, 1) ∧
      (∀ p ∈ st.S, p = (0, 1) ∨ p.1 < num.length) ∧
      (∀ k ∈ fixIndices st.S, k < (st.S.headD (0, 1)).1 ∧ k < num.length) ∧
      (fixIndices st.S).Nodup ∧
      ∀ idx, idx ∉ fixIndices st.S → (fixShorties st.S 1 st.num)[idx]? = st.num[idx]? := by
  obtain ⟨re, hre, -⟩ := eager_total_take (numx.take num.length) denx B hd
    (numx.take num.length).length (le_refl _)
  rw [eager_take_length] at hre
  have hag := vector_agree_eager num numx denx B hlen.le
  rw [hre] at hag
  have hrun : dyadicToRationalVector num numx denx B =
      (vectorLoopExit denx B (Int.tdiv denx 2) num numx [] 1 [(0, 1)] 2).map exitResult :=
    vectorLoop_eq_exit denx B (Int.tdiv denx 2) num numx [] 1 [(0, 1)] 2
  cases hex : vectorLoopExit denx B (Int.tdiv denx 2) num numx [] 1 [(0, 1)] 2 with
  | none =>
    rw [hex] at hrun
    rw [hrun] at hag
    exact absurd hag (by simp [Agree])
  | some st =>
    rw [hex] at hrun
    obtain ⟨s1, s2, s3, s4⟩ := vectorLoopExit_stack denx B (Int.tdiv denx 2) num.length
      num numx [] 1 [(0, 1)] 2 st (by simp) (by simp [StackOK]) rfl
      (fun p hp => Or.inl (by simpa using hp)) hex
    obtain ⟨f1, f2⟩ := fixIndices_spec st.S _ s1
    have hne : st.S ≠ [] := by
      intro hnil; rw [hnil] at s2; simp at s2
    exact ⟨st, rfl, hrun, s4, hne, s2, s3,
      fun k hk => ⟨f1 k hk, lt_of_lt_of_le (f1 k hk) (StackOK.head_le _ _ s1)⟩, f2,
      fun idx hidx => fixShorties_untouched st.S 1 st.num idx hidx⟩

theorem C37_indices_in_range_witness :
    ∃ st, vectorLoopExit 20 12 (Int.tdiv 20 2) [0, 0, 0] [10, 13, 15] [] 1 [(0, 1)] 2 = some st ∧
      dyadicToRationalVector [0, 0, 0] [10, 13, 15] 20 12 = some (exitResult st) ∧
      st.num.length = ([0, 0, 0] : List Int).length ∧ st.S ≠ [] ∧
      st.S.getLast? = some (0, 1) ∧
      (∀ p ∈ st.S, p = (0, 1) ∨ p.1 < ([0, 0, 0] : List Int).length) ∧
      (∀ k ∈ fixIndices st.S, k < (st.S.headD (0, 1)).1 ∧ k < ([0, 0, 0] : List Int).length) ∧
      (fixIndices st.S).Nodup ∧
      ∀ idx, idx ∉ fixIndices st.S → (fixShorties st.S 1 st.num)[idx]? = st.num[idx]? :=
  C37_indices_in_range [0, 0, 0] [10, 13, 15] 20 12 (by decide) (by decide)

end LinBox
